import Mathlib

/-
Verification of the moonpack bundler core against its specification.

Source buffers (JS strings indexed by code units) are modelled as `List Char`
with byte/char offsets as `Nat`.  Loops with cursor arithmetic are embedded as
structurally recursive functions on an explicit fuel argument; top-level
wrappers pass `s.length + 1` fuel, which is always sufficient because every
loop iteration advances the cursor by at least one position.  Running out of
fuel yields the same result as reaching the end of the buffer (scanners) or a
distinguished `outOfFuel` error (graph builder), so theorems about successful
results are exact statements about the TypeScript code.
-/

/-- Source buffers are sequences of characters. -/
abbrev Str := List Char

/-- The single-quote character, written via its code point. -/
def squote : Char := Char.ofNat 39

/-- The backslash character. -/
def bslash : Char := Char.ofNat 92

/-- Inclusive span of offsets, mirroring StringSpan / CommentSpan of
src/bundler/parser.ts.  The TS field name end is a Lean keyword and is
renamed stop. -/
structure Span where
  start : Nat
  stop : Nat
deriving Repr, DecidableEq

/-- Embeds isInsideRange of src/bundler/parser.ts: a position is inside a
range when start <= position <= end. -/
def isInsideRange (position : Nat) (ranges : List Span) : Bool :=
  ranges.any (fun r => decide (r.start ≤ position) && decide (position ≤ r.stop))

/-- True when the characters of pat occur in s starting at offset i. -/
def matchesAt (s pat : Str) (i : Nat) : Bool :=
  (s.drop i).take pat.length == pat

/-- Fuel-indexed search for the first occurrence of pat at an offset >= i,
modelling JS String.indexOf(pat, i). -/
def indexOfFromAux (s pat : Str) : Nat → Nat → Option Nat
  | 0, _ => none
  | Nat.succ fuel, i =>
    if i + pat.length ≤ s.length then
      if matchesAt s pat i then some i else indexOfFromAux s pat fuel (i + 1)
    else none

/-- JS String.indexOf(pat, i) (None for not found). -/
def indexOfFrom (s pat : Str) (i : Nat) : Option Nat :=
  indexOfFromAux s pat (s.length + 1) i

/-- Counts consecutive equals-sign characters starting at offset j. -/
def countEqAux (s : Str) : Nat → Nat → Nat
  | 0, _ => 0
  | Nat.succ fuel, j => if s.get? j = some '=' then countEqAux s fuel (j + 1) + 1 else 0

/-- Counts consecutive equals-sign characters starting at offset j. -/
def countEq (s : Str) (j : Nat) : Nat :=
  countEqAux s (s.length + 1) j

/-- Embeds matchLongBracket of src/bundler/parser.ts: at an opening square
bracket, counts the level k of equals signs, requires a second opening
bracket, and returns the offset of the last character of the first closing
sequence, or none if the bracket does not open or never closes. -/
def matchLongBracket (s : Str) (start : Nat) : Option Nat :=
  if s.get? start = some '[' then
    let level := countEq s (start + 1)
    let i := start + 1 + level
    if s.get? i = some '[' then
      let closePattern : Str := ']' :: (List.replicate level '=' ++ [']'])
      match indexOfFrom s closePattern (i + 1) with
      | none => none
      | some closeIndex => some (closeIndex + closePattern.length - 1)
    else none
  else none

/-- Scans for the closing quote of a string literal that started just before
offset j, skipping a character after each backslash; none when the end of the
buffer is reached first (the TS inner loop then exits without pushing a
span). -/
def scanStringEnd (s : Str) (quote : Char) : Nat → Nat → Option Nat
  | 0, _ => none
  | Nat.succ fuel, j =>
    match s.get? j with
    | none => none
    | some c =>
      if c = bslash then scanStringEnd s quote fuel (j + 2)
      else if c = quote then some j
      else scanStringEnd s quote fuel (j + 1)

/-- Main loop of findAllStringSpans of src/bundler/parser.ts over offset i. -/
def stringSpansAux (s : Str) : Nat → Nat → List Span
  | 0, _ => []
  | Nat.succ fuel, i =>
    match s.get? i with
    | none => []
    | some c =>
      if c = '"' ∨ c = squote then
        match scanStringEnd s c (s.length + 1) (i + 1) with
        | some close => ⟨i, close⟩ :: stringSpansAux s fuel (close + 1)
        | none => []
      else if c = '[' then
        match matchLongBracket s i with
        | some e => ⟨i, e⟩ :: stringSpansAux s fuel (e + 1)
        | none => stringSpansAux s fuel (i + 1)
      else stringSpansAux s fuel (i + 1)

/-- Embeds findAllStringSpans of src/bundler/parser.ts. -/
def findAllStringSpans (s : Str) : List Span :=
  stringSpansAux s (s.length + 1) 0

/-- Main loop of findAllCommentSpans of src/bundler/parser.ts over offset i.
A double hyphen outside the string spans starts a comment: a long-bracket
comment when a long bracket opens right after it, otherwise a line comment
ending just before the next newline (or at the last character of the
buffer, after which the TS loop exits). -/
def commentSpansAux (s : Str) (stringSpans : List Span) : Nat → Nat → List Span
  | 0, _ => []
  | Nat.succ fuel, i =>
    if i + 1 < s.length then
      if s.get? i = some '-' ∧ s.get? (i + 1) = some '-' then
        if isInsideRange i stringSpans then commentSpansAux s stringSpans fuel (i + 1)
        else
          match (if s.get? (i + 2) = some '[' then matchLongBracket s (i + 2) else none) with
          | some e => ⟨i, e⟩ :: commentSpansAux s stringSpans fuel (e + 1)
          | none =>
            match indexOfFrom s ['\n'] i with
            | none => [⟨i, s.length - 1⟩]
            | some lineEnd => ⟨i, lineEnd - 1⟩ :: commentSpansAux s stringSpans fuel (lineEnd + 1)
      else commentSpansAux s stringSpans fuel (i + 1)
    else []

/-- Embeds findAllCommentSpans of src/bundler/parser.ts. -/
def findAllCommentSpans (s : Str) (stringSpans : List Span) : List Span :=
  commentSpansAux s stringSpans (s.length + 1) 0

/-- The excluded ranges used by the parser: string spans followed by comment
spans, exactly as assembled in parseRequireStatements. -/
def excludedRanges (s : Str) : List Span :=
  findAllStringSpans s ++ findAllCommentSpans s (findAllStringSpans s)

/-- Whitespace class of the JS regex backslash-s escape, restricted to the
ASCII whitespace characters that can occur in the sources at hand. -/
def isSpaceB (c : Char) : Bool :=
  c == ' ' || c == '\t' || c == '\n' || c == '\r' || c == '\x0b' || c == '\x0c'

/-- First offset at or after j whose character is not regex whitespace
(or the end of the buffer), the reading of a greedy backslash-s-star. -/
def skipWsAux (s : Str) : Nat → Nat → Nat
  | 0, j => j
  | Nat.succ fuel, j =>
    match s.get? j with
    | none => j
    | some c => if isSpaceB c then skipWsAux s fuel (j + 1) else j

/-- First offset at or after j whose character is not regex whitespace. -/
def skipWs (s : Str) (j : Nat) : Nat :=
  skipWsAux s (s.length + 1) j

/-- True for the two quote characters admitted by the require patterns. -/
def isQuote (c : Char) : Bool := c == '"' || c == squote

/-- Longest run of characters from offset j that are neither kind of quote:
the greedy reading of the character class excluding both quotes, which the
regexes use for the module name.  Because the class excludes both quote
characters, greedy matching without backtracking is exact. -/
def quoteFreeRun (s : Str) (j : Nat) : Str :=
  (s.drop j).takeWhile (fun c => !(isQuote c))

/-- The three require-site kinds of src/bundler/parser.ts. -/
inductive RType where
  | standard
  | compact
  | pcall
deriving Repr, DecidableEq

/-- A raw regex match: length of the matched text, quote character (capture
group 1) and module name (capture group 2). -/
structure RawMatch where
  len : Nat
  quote : Char
  moduleName : Str
deriving Repr, DecidableEq

/-- Matches the standard parenthesized pattern — literal require, optional
whitespace, opening paren, optional whitespace, quoted name, optional
whitespace, closing paren — at offset i, exactly as the first regex of
REQUIRE_PATTERNS reads at a fixed start position. -/
def matchStandardAt (s : Str) (i : Nat) : Option RawMatch :=
  if matchesAt s ("require".toList) i then
    let j1 := skipWs s (i + 7)
    if s.get? j1 = some '(' then
      let j2 := skipWs s (j1 + 1)
      match s.get? j2 with
      | none => none
      | some q =>
        if isQuote q then
          let name := quoteFreeRun s (j2 + 1)
          if name.length = 0 then none
          else
            let j3 := j2 + 1 + name.length
            if s.get? j3 = some q then
              let j4 := skipWs s (j3 + 1)
              if s.get? j4 = some ')' then some ⟨j4 + 1 - i, q, name⟩ else none
            else none
        else none
    else none
  else none

/-- Matches the compact pattern — literal require, optional whitespace,
quoted name, no parentheses — at offset i (second regex of
REQUIRE_PATTERNS). -/
def matchCompactAt (s : Str) (i : Nat) : Option RawMatch :=
  if matchesAt s ("require".toList) i then
    let j1 := skipWs s (i + 7)
    match s.get? j1 with
    | none => none
    | some q =>
      if isQuote q then
        let name := quoteFreeRun s (j1 + 1)
        if name.length = 0 then none
        else
          let j2 := j1 + 1 + name.length
          if s.get? j2 = some q then some ⟨j2 + 1 - i, q, name⟩ else none
      else none
  else none

/-- Matches the protected-call pattern pcall(require, quoted-name) at offset
i (third regex of REQUIRE_PATTERNS). -/
def matchPcallAt (s : Str) (i : Nat) : Option RawMatch :=
  if matchesAt s ("pcall".toList) i then
    let j1 := skipWs s (i + 5)
    if s.get? j1 = some '(' then
      let j2 := skipWs s (j1 + 1)
      if matchesAt s ("require".toList) j2 then
        let j3 := skipWs s (j2 + 7)
        if s.get? j3 = some ',' then
          let j4 := skipWs s (j3 + 1)
          match s.get? j4 with
          | none => none
          | some q =>
            if isQuote q then
              let name := quoteFreeRun s (j4 + 1)
              if name.length = 0 then none
              else
                let j5 := j4 + 1 + name.length
                if s.get? j5 = some q then
                  let j6 := skipWs s (j5 + 1)
                  if s.get? j6 = some ')' then some ⟨j6 + 1 - i, q, name⟩ else none
                else none
            else none
        else none
      else none
    else none
  else none

/-- A located match: start offset, matched text, quote and module name. -/
structure RequireMatch where
  moduleName : Str
  raw : Str
  quote : Char
  index : Nat
  rtype : RType
deriving Repr, DecidableEq

/-- Repeated regex exec with the global flag: from offset i, find the
leftmost match, emit it, and continue from the end of the matched text. -/
def findPatternMatchesAux (matcher : Str → Nat → Option RawMatch) (s : Str) (t : RType) :
    Nat → Nat → List RequireMatch
  | 0, _ => []
  | Nat.succ fuel, i =>
    if i < s.length then
      match matcher s i with
      | some m =>
        ⟨m.moduleName, (s.drop i).take m.len, m.quote, i, t⟩ ::
          findPatternMatchesAux matcher s t fuel (i + m.len)
      | none => findPatternMatchesAux matcher s t fuel (i + 1)
    else []

/-- All matches of one pattern over the buffer, in exec order. -/
def findPatternMatches (matcher : Str → Nat → Option RawMatch) (s : Str) (t : RType) :
    List RequireMatch :=
  findPatternMatchesAux matcher s t (s.length + 1) 0

/-- Embeds isPartOfStandardRequire of src/bundler/parser.ts: after the
matched text, optional whitespace followed by a closing paren. -/
def isPartOfStandardRequire (s : Str) (index : Nat) (raw : Str) : Bool :=
  s.get? (skipWs s (index + raw.length)) = some ')'

/-- The per-pattern filters applied while collecting matches in
parseRequireStatements and transformRequiresToLoad: drop matches starting
inside an excluded range, and drop compact matches that are the tail of a
parenthesized form. -/
def keepMatch (s : Str) (excluded : List Span) (m : RequireMatch) : Bool :=
  !(isInsideRange m.index excluded) &&
    !(m.rtype == RType.compact && isPartOfStandardRequire s m.index m.raw)

/-- All matches of the three patterns that survive the collection filters,
in pattern order (standard, compact, pcall), each pattern in exec order:
the allMatches array of parseRequireStatements before sorting. -/
def allRequireCandidates (s : Str) : List RequireMatch :=
  let excluded := excludedRanges s
  ((findPatternMatches matchStandardAt s RType.standard).filter (keepMatch s excluded)) ++
    ((findPatternMatches matchCompactAt s RType.compact).filter (keepMatch s excluded)) ++
    ((findPatternMatches matchPcallAt s RType.pcall).filter (keepMatch s excluded))

/-- Stable insertion into a list sorted by ascending start offset. -/
def insertByIndex (m : RequireMatch) : List RequireMatch → List RequireMatch
  | [] => [m]
  | x :: xs => if m.index < x.index then m :: x :: xs else x :: insertByIndex m xs

/-- Stable sort by ascending start offset (allMatches.sort). -/
def sortByIndex (l : List RequireMatch) : List RequireMatch :=
  l.foldr insertByIndex []

/-- The overlap test of deduplicateMatches of src/bundler/parser.ts. -/
def overlapB (m ex : RequireMatch) : Bool :=
  (decide (ex.index ≤ m.index) && decide (m.index < ex.index + ex.raw.length)) ||
    (decide (m.index ≤ ex.index) && decide (ex.index < m.index + m.raw.length))

/-- One step of deduplicateMatches: a match overlapping an earlier result
replaces it when its text is longer and is dropped otherwise; a match
overlapping nothing is appended. -/
def insertDedup (res : List RequireMatch) (m : RequireMatch) : List RequireMatch :=
  match res.findIdx? (fun ex => overlapB m ex) with
  | some k =>
    match res.get? k with
    | some ex => if ex.raw.length < m.raw.length then res.set k m else res
    | none => res
  | none => res ++ [m]

/-- Embeds deduplicateMatches of src/bundler/parser.ts. -/
def deduplicateMatches (ms : List RequireMatch) : List RequireMatch :=
  ms.foldl insertDedup []

/-- The sorted, deduplicated require matches of a buffer, still carrying
their byte offsets (parseRequireStatements before the final mapping to
line/column records). -/
def parseRequireMatches (s : Str) : List RequireMatch :=
  deduplicateMatches (sortByIndex (allRequireCandidates s))

/-- Embeds getLineAndColumn of src/bundler/parser.ts: 1-based line counted
by newlines before the position, 1-based column from the last newline. -/
def getLineAndColumn (s : Str) (position : Nat) : Nat × Nat :=
  let pre := s.take position
  let line := 1 + pre.count '\n'
  let column :=
    match pre.reverse.findIdx? (fun c => c == '\n') with
    | some r => r + 1
    | none => position + 1
  (line, column)

/-- The RequireStatement record of src/bundler/parser.ts. -/
structure RequireStatement where
  moduleName : Str
  line : Nat
  column : Nat
  raw : Str
  rtype : RType
deriving Repr, DecidableEq

/-- Embeds parseRequireStatements of src/bundler/parser.ts. -/
def parseRequireStatements (s : Str) : List RequireStatement :=
  (parseRequireMatches s).map (fun m =>
    let pos := getLineAndColumn s m.index
    ⟨m.moduleName, pos.1, pos.2, m.raw, m.rtype⟩)

/-- A replacement edit of transformRequiresToLoad: half-open interval
[start, stop) of the original buffer and the text that replaces it (the TS
fields are start, end, replacement). -/
structure Replacement where
  start : Nat
  stop : Nat
  repl : Str
deriving Repr, DecidableEq

/-- The alreadyReplaced test of transformRequiresToLoad: the candidate
interval [index, index + len) intersects the interval of r. -/
def overlapsRepl (index len : Nat) (r : Replacement) : Bool :=
  (decide (r.start ≤ index) && decide (index < r.stop)) ||
    (decide (index ≤ r.start) && decide (r.start < index + len))

/-- The replacement text emitted for one site: load-call for parenthesized
and compact sites, protected load-call for pcall sites, preserving the
original quote character around the emitted name. -/
def replText (t : RType) (q : Char) (name : Str) : Str :=
  match t with
  | RType.pcall => ("pcall(__load, ".toList) ++ [q] ++ name ++ [q] ++ [')']
  | _ => ("__load(".toList) ++ [q] ++ name ++ [q] ++ [')']

/-- Collection loop of transformRequiresToLoad over the matches of one
pattern: skip matches in excluded ranges, compact tails of parenthesized
forms, names outside the bundled set, and matches overlapping an already
collected replacement; otherwise append the replacement. -/
def collectReplacements (s : Str) (excluded : List Span) (bundledModules : List Str)
    (ms : List RequireMatch) (acc : List Replacement) : List Replacement :=
  ms.foldl
    (fun acc m =>
      if !(keepMatch s excluded m) then acc
      else if !(bundledModules.contains m.moduleName) then acc
      else if acc.any (overlapsRepl m.index m.raw.length) then acc
      else acc ++ [⟨m.index, m.index + m.raw.length, replText m.rtype m.quote m.moduleName⟩])
    acc

/-- All replacements collected by transformRequiresToLoad, in collection
order (standard, then compact, then pcall matches). -/
def transformReplacements (s : Str) (bundledModules : List Str) : List Replacement :=
  let excluded := excludedRanges s
  collectReplacements s excluded bundledModules
    (findPatternMatches matchPcallAt s RType.pcall)
    (collectReplacements s excluded bundledModules
      (findPatternMatches matchCompactAt s RType.compact)
      (collectReplacements s excluded bundledModules
        (findPatternMatches matchStandardAt s RType.standard) []))

/-- Insertion into a list sorted by descending start offset
(replacements.sort with comparator b.start - a.start). -/
def insertByStartDesc (r : Replacement) : List Replacement → List Replacement
  | [] => [r]
  | x :: xs => if x.start < r.start then r :: x :: xs else x :: insertByStartDesc r xs

/-- Sort replacements by descending start offset. -/
def sortByStartDesc (l : List Replacement) : List Replacement :=
  l.foldr insertByStartDesc []

/-- Apply one splice: result.substring(0, start) + replacement +
result.substring(end). -/
def spliceOne (result : Str) (r : Replacement) : Str :=
  result.take r.start ++ r.repl ++ result.drop r.stop

/-- Embeds transformRequiresToLoad of src/bundler/parser.ts: collect
replacements, return the source unchanged when there are none, otherwise
sort by descending start offset and splice back to front. -/
def transformRequiresToLoad (s : Str) (bundledModules : List Str) : Str :=
  let replacements := transformReplacements s bundledModules
  if replacements.isEmpty then s
  else (sortByStartDesc replacements).foldl spliceOne s

/-- Lookup in an association list with list-of-characters keys, modelling
JS Map.get. -/
def lookupAssoc {α : Type} (l : List (Str × α)) (k : Str) : Option α :=
  (l.find? (fun p => p.1 == k)).map (fun p => p.2)

/-- Modelled from the spec: the dialect-A require rewriter
(transformRequiresToLoad taking the requireMappings map from raw import
literal to bundled moduleId).  Its caller generateModuleWrapper passes a
Map of mappings, but the mapped variant of parser.ts is not part of the
sources at hand; per section 4.6 of the spec, a site whose moduleName is a
key of the mapping is rewritten to a load-call carrying the mapped
moduleId with the original quote preserved, any other site is left
unchanged, and the edits are applied back to front exactly as in the
set-based rewriter. -/
def collectReplacementsMapped (s : Str) (excluded : List Span) (mappings : List (Str × Str))
    (ms : List RequireMatch) (acc : List Replacement) : List Replacement :=
  ms.foldl
    (fun acc m =>
      if !(keepMatch s excluded m) then acc
      else
        match lookupAssoc mappings m.moduleName with
        | none => acc
        | some mappedId =>
          if acc.any (overlapsRepl m.index m.raw.length) then acc
          else acc ++ [⟨m.index, m.index + m.raw.length, replText m.rtype m.quote mappedId⟩])
    acc

/-- Modelled from the spec: the replacements of the mapped rewriter, in
collection order. -/
def transformReplacementsMapped (s : Str) (mappings : List (Str × Str)) : List Replacement :=
  let excluded := excludedRanges s
  collectReplacementsMapped s excluded mappings
    (findPatternMatches matchPcallAt s RType.pcall)
    (collectReplacementsMapped s excluded mappings
      (findPatternMatches matchCompactAt s RType.compact)
      (collectReplacementsMapped s excluded mappings
        (findPatternMatches matchStandardAt s RType.standard) []))

/-- Modelled from the spec: the dialect-A require rewriter over a mapping
from raw import literal to bundled moduleId. -/
def transformRequiresToLoadMapped (s : Str) (mappings : List (Str × Str)) : Str :=
  let replacements := transformReplacementsMapped s mappings
  if replacements.isEmpty then s
  else (sortByStartDesc replacements).foldl spliceOne s

/-- Ascending-order segment concatenation: the canonical form of a spliced
buffer, listing between consecutive replacements the untouched characters
of the original buffer.  segConcat s pos rs keeps s from pos to the first
replacement, emits its replacement text, and continues after it. -/
def segConcat (s : Str) (pos : Nat) : List Replacement → Str
  | [] => s.drop pos
  | r :: rest => ((s.drop pos).take (r.start - pos)) ++ r.repl ++ segConcat s r.stop rest

/-- The ModuleNode record of src/bundler/graph.ts (first variant; the
requireMappings field belongs to the second variant and has its own
record below). -/
structure ModuleNode where
  moduleName : Str
  filePath : Str
  source : Str
  requires : List RequireStatement
  dependencies : List Str
deriving Repr, DecidableEq

/-- Module maps are association lists in insertion order, modelling JS Map
iteration order.  Keys are inserted only when absent, so keys are unique. -/
abbrev ModuleMap := List (Str × ModuleNode)

/-- JS Map.has. -/
def hasKey {α : Type} (l : List (Str × α)) (k : Str) : Bool :=
  l.any (fun p => p.1 == k)

/-- The keys of a module map in insertion order (JS Map.keys()). -/
def keysOf {α : Type} (l : List (Str × α)) : List Str :=
  l.map (fun p => p.1)

/-- Mutation of the node stored under a key, modelling the JS in-place
update of a node object held in the map. -/
def updateNode {α : Type} (l : List (Str × α)) (k : Str) (f : α → α) : List (Str × α) :=
  l.map (fun p => if p.1 == k then (p.1, f p.2) else p)

/-- JS Map.set for a key known to be absent: append in insertion order. -/
def insertNode {α : Type} (l : List (Str × α)) (k : Str) (v : α) : List (Str × α) :=
  l ++ [(k, v)]

/-- The ResolvedModule record of src/bundler/resolver.ts. -/
structure ResolvedModule where
  moduleName : Str
  filePath : Str
deriving Repr, DecidableEq

/-- The ResolveResult record of the dotted-dialect resolver: a resolution
or null, plus the external flag consulted by the first graph variant. -/
structure ResolveResult where
  resolved : Option ResolvedModule
  isExternal : Bool
deriving Repr, DecidableEq

/-- The MoonpackError values the graph builder can raise, tagged by their
code, plus two artifacts of the embedding: ioFailure models a rejected
readTextFile promise, and outOfFuel marks an exhausted fuel budget (never
produced when the fuel exceeds the number of loop steps of the TS run). -/
inductive BuildError where
  | moduleNotFound (message : Str) (moduleName : Str) (requiredBy : Str) (line : Nat)
  | circularDependency (message : Str) (cycles : List (List Str))
  | ioFailure (path : Str)
  | outOfFuel
deriving Repr, DecidableEq

/-- The message of a MODULE_NOT_FOUND error: Cannot resolve module
(quoted name) required at (path):(line). -/
def notFoundMessage (moduleName requiredBy : Str) (line : Nat) : Str :=
  ("Cannot resolve module ".toList) ++ [squote] ++ moduleName ++ [squote] ++
    (" required at ".toList) ++ requiredBy ++ [':'] ++ Nat.toDigits 10 line

/-- Embeds processModuleDependencies of src/bundler/graph.ts (first
variant): for each require site of the node, consult the resolver; skip
external sites; fail with MODULE_NOT_FOUND when unresolved; otherwise
append the resolved moduleId to the node's dependency list and, when the
dependency is new, read it, parse its requires, insert it and recurse.
The resolver is passed as a function (the TS code closes over a fixed
ResolveContext), the filesystem as a partial map from path to contents,
and every recursive call consumes one unit of fuel. -/
def processReqsB (resolve : Str → ResolveResult) (fs : Str → Option Str) :
    Nat → Str → Str → List RequireStatement → ModuleMap → Except BuildError ModuleMap
  | 0, _, _, _, _ => Except.error BuildError.outOfFuel
  | Nat.succ _, _, _, [], modules => Except.ok modules
  | Nat.succ fuel, nodeName, nodePath, req :: rest, modules =>
    let result := resolve req.moduleName
    if result.isExternal then processReqsB resolve fs fuel nodeName nodePath rest modules
    else
      match result.resolved with
      | none =>
        Except.error (BuildError.moduleNotFound
          (notFoundMessage req.moduleName nodePath req.line) req.moduleName nodePath req.line)
      | some r =>
        let modules1 := updateNode modules nodeName
          (fun n => { n with dependencies := n.dependencies ++ [r.moduleName] })
        if hasKey modules1 r.moduleName then
          processReqsB resolve fs fuel nodeName nodePath rest modules1
        else
          match fs r.filePath with
          | none => Except.error (BuildError.ioFailure r.filePath)
          | some depSource =>
            let depNode : ModuleNode :=
              ⟨r.moduleName, r.filePath, depSource, parseRequireStatements depSource, []⟩
            let modules2 := insertNode modules1 r.moduleName depNode
            match processReqsB resolve fs fuel r.moduleName r.filePath depNode.requires modules2 with
            | Except.error e => Except.error e
            | Except.ok modules3 => processReqsB resolve fs fuel nodeName nodePath rest modules3

/-- Set insertion for the JS Set objects of the traversals (membership is
all that is ever observed). -/
def insertSet (l : List Str) (x : Str) : List Str :=
  if l.contains x then l else x :: l

/-- Lexicographic comparison of two names by character code, the default
JS Array.sort order: the lexicographic order on character lists. -/
def strLe (a b : Str) : Bool :=
  decide (a ≤ b)

/-- Insertion into a list sorted by the default JS string order. -/
def insertStrLe (x : Str) : List Str → List Str
  | [] => [x]
  | y :: ys => if strLe x y then x :: y :: ys else y :: insertStrLe x ys

/-- Sorts names in the default JS string order (Array.sort()). -/
def sortStrs (l : List Str) : List Str :=
  l.foldr insertStrLe []

/-- Joins names with a separator (Array.join). -/
def joinSep (sep : Str) : List Str → Str
  | [] => []
  | x :: xs => xs.foldl (fun acc y => acc ++ sep ++ y) x

/-- Embeds normalizeCycleKey of src/bundler/graph.ts: drop the duplicated
closing node, sort the remaining names, and join them with commas. -/
def normalizeCycleKey (cycle : List Str) : Str :=
  joinSep (",".toList) (sortStrs cycle.dropLast)

/-- The traversal state of detectCircularDependencies.  The finished field
is a ghost observer recording the order in which calls return (the
post-order); no branch of the traversal reads it, so the other fields
evolve exactly as in the TS code.  The fuelOut flag is set, and stays set,
if any step runs out of fuel. -/
structure DetectState where
  visited : List Str
  stack : List Str
  path : List Str
  found : List (List Str)
  seen : List (List Char)
  finished : List Str
  fuelOut : Bool
deriving Repr, DecidableEq

/-- Cycle recording of detectCircularDependencies: the slice of the path
from the first occurrence of dep, with dep appended, is the cycle; it is
kept only when its normalized key is unseen.  (When dep is not on the path
the TS slice of index minus one takes the last element; that case cannot
arise in a run but is embedded faithfully.) -/
def recordCycle (dep : Str) (st : DetectState) : DetectState :=
  let cycle :=
    (match st.path.findIdx? (fun x => x == dep) with
     | some k => st.path.drop k
     | none => st.path.drop (st.path.length - 1)) ++ [dep]
  let key := normalizeCycleKey cycle
  if st.seen.contains key then st
  else { st with seen := key :: st.seen, found := st.found ++ [cycle] }

/-- One step of the dfs of detectCircularDependencies, generic in the
dependency view of the module map (the traversal reads nothing else of a
node).  The left injection enters a node: mark it visited, push it on the
recursion stack and the path, walk its dependencies, then pop.  The right
injection walks a dependency list: recurse into unvisited dependencies and
record a cycle when a dependency is on the recursion stack.  Every
recursive call consumes one unit of fuel. -/
def detectStep (depsOf : Str → Option (List Str)) :
    Nat → (Str ⊕ List Str) → DetectState → DetectState
  | 0, _, st => { st with fuelOut := true }
  | Nat.succ fuel, Sum.inl name, st =>
    let st1 := { st with
      visited := insertSet st.visited name
      stack := insertSet st.stack name
      path := st.path ++ [name] }
    let st2 :=
      match depsOf name with
      | none => st1
      | some deps => detectStep depsOf fuel (Sum.inr deps) st1
    { st2 with
      path := st2.path.dropLast
      stack := st2.stack.erase name
      finished := st2.finished ++ [name] }
  | Nat.succ _, Sum.inr [], st => st
  | Nat.succ fuel, Sum.inr (dep :: rest), st =>
    let st1 :=
      if st.visited.contains dep then
        if st.stack.contains dep then recordCycle dep st else st
      else detectStep depsOf fuel (Sum.inl dep) st
    detectStep depsOf fuel (Sum.inr rest) st1

/-- The sweep of detectCircularDependencies over all module names in
insertion order, entering each unvisited one. -/
def detectSweep (depsOf : Str → Option (List Str)) (fuel : Nat) :
    List Str → DetectState → DetectState
  | [], st => st
  | k :: rest, st =>
    detectSweep depsOf fuel rest
      (if st.visited.contains k then st else detectStep depsOf fuel (Sum.inl k) st)

/-- The initial traversal state. -/
def initDetectState : DetectState := ⟨[], [], [], [], [], [], false⟩

/-- The human message of a CIRCULAR_DEPENDENCY error: each cycle joined
with an arrow, one headline for a single cycle, an indented list
otherwise. -/
def circularMessage (found : List (List Str)) : Str :=
  let cycleStrings := found.map (joinSep (" → ".toList))
  if found.length = 1 then
    ("Circular dependency detected: ".toList) ++ (cycleStrings.headD [])
  else
    ("Circular dependencies detected:\n  ".toList) ++ joinSep ("\n  ".toList) cycleStrings

/-- Embeds detectCircularDependencies of src/bundler/graph.ts over a
dependency view: run the sweep and, when any cycle was found, produce the
CIRCULAR_DEPENDENCY error carrying all distinct cycles after the full
sweep. -/
def detectCircularDependenciesOn (depsOf : Str → Option (List Str)) (fuel : Nat)
    (names : List Str) : Option BuildError :=
  let st := detectSweep depsOf fuel names initDetectState
  if st.fuelOut then some BuildError.outOfFuel
  else if st.found.isEmpty then none
  else some (BuildError.circularDependency (circularMessage st.found) st.found)

/-- detectCircularDependencies applied to a module map. -/
def detectCircularDependencies (modules : ModuleMap) (fuel : Nat) : Option BuildError :=
  detectCircularDependenciesOn (fun k => (lookupAssoc modules k).map (fun n => n.dependencies))
    fuel (keysOf modules)

/-- The state of topologicalSort: the visited set and the accumulating
post-order.  The fuelOut flag is set, and stays set, if any step runs out
of fuel. -/
structure SortState where
  visited : List Str
  sorted : List Str
  fuelOut : Bool
deriving Repr, DecidableEq

/-- One step of the visit of topologicalSort of src/bundler/graph.ts,
generic in the dependency view: entering a visited node returns at once;
otherwise mark it, visit its dependencies, and push the node after them.
Every recursive call consumes one unit of fuel. -/
def sortVisit (depsOf : Str → Option (List Str)) :
    Nat → (Str ⊕ List Str) → SortState → SortState
  | 0, _, st => { st with fuelOut := true }
  | Nat.succ fuel, Sum.inl name, st =>
    if st.visited.contains name then st
    else
      let st1 := { st with visited := insertSet st.visited name }
      let st2 :=
        match depsOf name with
        | none => st1
        | some deps => sortVisit depsOf fuel (Sum.inr deps) st1
      { st2 with sorted := st2.sorted ++ [name] }
  | Nat.succ _, Sum.inr [], st => st
  | Nat.succ fuel, Sum.inr (dep :: rest), st =>
    sortVisit depsOf fuel (Sum.inr rest) (sortVisit depsOf fuel (Sum.inl dep) st)

/-- Embeds topologicalSort of src/bundler/graph.ts: post-order depth-first
traversal from the entry module. -/
def topologicalSortOn (depsOf : Str → Option (List Str)) (fuel : Nat)
    (entryModuleName : Str) : SortState :=
  sortVisit depsOf fuel (Sum.inl entryModuleName) ⟨[], [], false⟩

/-- topologicalSort applied to a module map. -/
def topologicalSort (modules : ModuleMap) (fuel : Nat) (entryModuleName : Str) : SortState :=
  topologicalSortOn (fun k => (lookupAssoc modules k).map (fun n => n.dependencies))
    fuel entryModuleName

/-- Removes the first occurrence of a pattern from a buffer, modelling JS
String.replace with a string argument and an empty replacement. -/
def removeFirstOcc (s pat : Str) : Str :=
  match indexOfFrom s pat 0 with
  | none => s
  | some k => s.take k ++ s.drop (k + pat.length)

/-- Drops a literal suffix when present. -/
def dropSuffixIf (s suf : Str) : Str :=
  if suf.isSuffixOf s then s.take (s.length - suf.length) else s

/-- True for the two path separator characters. -/
def isSep (c : Char) : Bool := c == '/' || c == bslash

/-- Embeds getModuleNameFromPath of the dotted-dialect resolver: remove
the first occurrence of the source root, strip one leading separator,
strip a .lua extension, strip a trailing init segment, and turn the
remaining separators into dots. -/
def getModuleNameFromPathB (filePath sourceRoot : Str) : Str :=
  let r1 := removeFirstOcc filePath sourceRoot
  let r2 := match r1 with
    | [] => []
    | c :: cs => if isSep c then cs else r1
  let r3 := dropSuffixIf r2 (".lua".toList)
  let r4 := dropSuffixIf (dropSuffixIf r3 ("/init".toList)) ((bslash :: "init".toList))
  r4.map (fun c => if isSep c then '.' else c)

/-- The DependencyGraph record of src/bundler/graph.ts. -/
structure DependencyGraph where
  entryPoint : ModuleNode
  modules : ModuleMap
  moduleOrder : List Str
deriving Repr, DecidableEq

/-- Embeds buildDependencyGraph of src/bundler/graph.ts (first variant):
read the entry source, create the entry node, process dependencies, detect
cycles and sort.  The returned entryPoint is the entry node as it stands
in the final module map, reflecting the JS object identity between the
entryNode binding and the map entry mutated during processing. -/
def buildDependencyGraph (resolve : Str → ResolveResult) (fs : Str → Option Str)
    (fuel : Nat) (entryPath sourceRoot : Str) : Except BuildError DependencyGraph :=
  match fs entryPath with
  | none => Except.error (BuildError.ioFailure entryPath)
  | some entrySource =>
    let entryModuleName := getModuleNameFromPathB entryPath sourceRoot
    let entryNode : ModuleNode :=
      ⟨entryModuleName, entryPath, entrySource, parseRequireStatements entrySource, []⟩
    let modules0 : ModuleMap := [(entryModuleName, entryNode)]
    match processReqsB resolve fs fuel entryModuleName entryPath entryNode.requires modules0 with
    | Except.error e => Except.error e
    | Except.ok modules1 =>
      match detectCircularDependencies modules1 fuel with
      | some e => Except.error e
      | none =>
        let stS := topologicalSort modules1 fuel entryModuleName
        if stS.fuelOut then Except.error BuildError.outOfFuel
        else
          Except.ok
            ⟨(lookupAssoc modules1 entryModuleName).getD entryNode, modules1, stS.sorted⟩

/-- Splits a POSIX path into its separator-delimited segments. -/
def pathSegs (s : Str) : List Str :=
  s.splitOn '/'

/-- Normalization step of POSIX path segments: empty and dot segments
vanish, a dot-dot segment pops a preceding real segment. -/
def normSegs (segs : List Str) : List Str :=
  segs.foldl
    (fun acc seg =>
      if seg = [] ∨ seg = (".".toList) then acc
      else if seg = ("..".toList) then
        match acc.getLast? with
        | some last => if last = ("..".toList) then acc ++ [seg] else acc.dropLast
        | none => acc ++ [seg]
      else acc ++ [seg])
    []

/-- Models node:path normalize for the relative POSIX paths this
development uses: resolve dot and dot-dot segments and collapse repeated
separators; an empty result is the current directory. -/
def normalizeP (s : Str) : Str :=
  let segs := normSegs (pathSegs s)
  match segs with
  | [] => ".".toList
  | _ => joinSep ("/".toList) segs

/-- Models node:path join for two relative POSIX paths: concatenate with a
separator and normalize. -/
def joinP (a b : Str) : Str :=
  normalizeP (a ++ ('/' :: b))

/-- Models node:path dirname for relative POSIX paths: the text before the
last separator, or a dot when there is none. -/
def dirnameP (s : Str) : Str :=
  match (s.reverse.findIdx? (fun c => c == '/')) with
  | none => ".".toList
  | some r =>
    let k := s.length - 1 - r
    if k = 0 then "/".toList else s.take k

/-- Models node:path relative for relative POSIX paths: strip the common
segment prefix and climb out of what remains of the base. -/
def relativeP (base target : Str) : Str :=
  let b := normSegs (pathSegs base)
  let t := normSegs (pathSegs target)
  let common := (List.zip b t).takeWhile (fun p => p.1 == p.2) |>.length
  joinSep ("/".toList) (List.replicate (b.length - common) ("..".toList) ++ t.drop common)

/-- Embeds normalizeModuleName of the relative-dialect resolver: the path
relative to the source root, with the .lua extension stripped, a trailing
init segment stripped, and backslashes turned into slashes. -/
def normalizeModuleName (filePath sourceRoot : Str) : Str :=
  let rel := relativeP sourceRoot filePath
  let r1 := dropSuffixIf rel (".lua".toList)
  let r2 := dropSuffixIf (dropSuffixIf r1 ("/init".toList)) ((bslash :: "init".toList))
  r2.map (fun c => if c = bslash then '/' else c)

/-- Embeds resolveModulePath of the relative-dialect resolver: join the
requiring file's directory with the import path, append the .lua extension
when missing, try that file, then the init file of the directory;
fileExists is read off the same filesystem map that supplies sources. -/
def resolveModulePathRel (fs : Str → Option Str) (sourceRoot currentFile requirePath : Str) :
    Option ResolvedModule :=
  let currentDir := dirnameP currentFile
  let targetPath := normalizeP (joinP currentDir requirePath)
  let luaPath := if (".lua".toList).isSuffixOf targetPath then targetPath
    else targetPath ++ (".lua".toList)
  if (fs luaPath).isSome then some ⟨normalizeModuleName luaPath sourceRoot, luaPath⟩
  else
    let initPath := joinP targetPath ("init.lua".toList)
    if (fs initPath).isSome then some ⟨normalizeModuleName initPath sourceRoot, initPath⟩
    else none

/-- Modelled from the spec: the isLocal flag of the dialect-A require
records (their parser variant is not among the sources at hand); section
4.3 classifies an importName starting with ./ or ../ as bundled and
everything else as external. -/
def isLocalName (name : Str) : Bool :=
  ("./".toList).isPrefixOf name || ("../".toList).isPrefixOf name

/-- The ModuleNode record of the second variant of src/bundler/graph.ts,
which additionally records the raw-import-to-moduleId mappings. -/
structure ModuleNodeA where
  moduleName : Str
  filePath : Str
  source : Str
  requires : List RequireStatement
  dependencies : List Str
  requireMappings : List (Str × Str)
deriving Repr, DecidableEq

/-- Module maps of the second variant. -/
abbrev ModuleMapA := List (Str × ModuleNodeA)

/-- JS Map.set on the requireMappings map: overwrite an existing key in
place, append a new one. -/
def setAssoc (l : List (Str × Str)) (k v : Str) : List (Str × Str) :=
  if hasKey l k then l.map (fun p => if p.1 == k then (p.1, v) else p) else l ++ [(k, v)]

/-- Embeds processModuleDependencies of src/bundler/graph.ts (second
variant): skip non-local sites, resolve local ones against the
relative-dialect resolver with the node's file as context, fail with
MODULE_NOT_FOUND when unresolved, record the raw-to-resolved mapping,
append the dependency, and recurse into new modules. -/
def processReqsA (fs : Str → Option Str) (sourceRoot : Str) :
    Nat → Str → Str → List RequireStatement → ModuleMapA → Except BuildError ModuleMapA
  | 0, _, _, _, _ => Except.error BuildError.outOfFuel
  | Nat.succ _, _, _, [], modules => Except.ok modules
  | Nat.succ fuel, nodeName, nodePath, req :: rest, modules =>
    if !(isLocalName req.moduleName) then
      processReqsA fs sourceRoot fuel nodeName nodePath rest modules
    else
      match resolveModulePathRel fs sourceRoot nodePath req.moduleName with
      | none =>
        Except.error (BuildError.moduleNotFound
          (notFoundMessage req.moduleName nodePath req.line) req.moduleName nodePath req.line)
      | some r =>
        let modules1 := updateNode modules nodeName
          (fun n => { n with
            requireMappings := setAssoc n.requireMappings req.moduleName r.moduleName
            dependencies := n.dependencies ++ [r.moduleName] })
        if hasKey modules1 r.moduleName then
          processReqsA fs sourceRoot fuel nodeName nodePath rest modules1
        else
          match fs r.filePath with
          | none => Except.error (BuildError.ioFailure r.filePath)
          | some depSource =>
            let depNode : ModuleNodeA :=
              ⟨r.moduleName, r.filePath, depSource, parseRequireStatements depSource, [], []⟩
            let modules2 := insertNode modules1 r.moduleName depNode
            match processReqsA fs sourceRoot fuel r.moduleName r.filePath
                depNode.requires modules2 with
            | Except.error e => Except.error e
            | Except.ok modules3 => processReqsA fs sourceRoot fuel nodeName nodePath rest modules3

/-- The DependencyGraph record of the second variant. -/
structure DependencyGraphA where
  entryPoint : ModuleNodeA
  modules : ModuleMapA
  moduleOrder : List Str
deriving Repr, DecidableEq

/-- Embeds buildDependencyGraph of src/bundler/graph.ts (second variant,
relative dialect); cycle detection and the topological sort are the
functions shared verbatim by both variants, reading the dependency lists
of this variant's module map. -/
def buildDependencyGraphA (fs : Str → Option Str) (fuel : Nat)
    (entryPath sourceRoot : Str) : Except BuildError DependencyGraphA :=
  match fs entryPath with
  | none => Except.error (BuildError.ioFailure entryPath)
  | some entrySource =>
    let entryModuleName := normalizeModuleName entryPath sourceRoot
    let entryNode : ModuleNodeA :=
      ⟨entryModuleName, entryPath, entrySource, parseRequireStatements entrySource, [], []⟩
    let modules0 : ModuleMapA := [(entryModuleName, entryNode)]
    match processReqsA fs sourceRoot fuel entryModuleName entryPath
        entryNode.requires modules0 with
    | Except.error e => Except.error e
    | Except.ok modules1 =>
      let depsOf := fun k => (lookupAssoc modules1 k).map (fun n => n.dependencies)
      match detectCircularDependenciesOn depsOf fuel (keysOf modules1) with
      | some e => Except.error e
      | none =>
        let stS := topologicalSortOn depsOf fuel entryModuleName
        if stS.fuelOut then Except.error BuildError.outOfFuel
        else
          Except.ok
            ⟨(lookupAssoc modules1 entryModuleName).getD entryNode, modules1, stS.sorted⟩

/-- The JS word-character class of the regex backslash-w escape. -/
def isWordChar (c : Char) : Bool :=
  c.isAlpha || c.isDigit || c == '_'

/-- Longest run of word characters from offset j. -/
def wordRun (s : Str) (j : Nat) : Str :=
  (s.drop j).takeWhile isWordChar

/-- Generic repeated regex exec with the global flag for the lint
matchers, pairing each match with its start offset and advancing past the
matched text. -/
def scanMatchesAux {α : Type} (matcher : Str → Nat → Option (Nat × α)) (s : Str) :
    Nat → Nat → List (Nat × α)
  | 0, _ => []
  | Nat.succ fuel, i =>
    if i < s.length then
      match matcher s i with
      | some (len, a) => (i, a) :: scanMatchesAux matcher s fuel (i + len)
      | none => scanMatchesAux matcher s fuel (i + 1)
    else []

/-- All matches of a lint matcher over the buffer, in exec order. -/
def scanMatches {α : Type} (matcher : Str → Nat → Option (Nat × α)) (s : Str) :
    List (Nat × α) :=
  scanMatchesAux matcher s (s.length + 1) 0

/-- The common tail of the two require-assignment regexes of
src/bundler/lint.ts starting at the variable name: word-run variable,
equals sign, then a require call (parenthesized when paren is true, bare
otherwise) with a quoted module name.  Returns the end offset, the
variable and the module name. -/
def matchAssignTail (s : Str) (j : Nat) (paren : Bool) : Option (Nat × Str × Str) :=
  let v := wordRun s j
  if v.length = 0 then none
  else
    let j1 := skipWs s (j + v.length)
    if s.get? j1 = some '=' then
      let j2 := skipWs s (j1 + 1)
      if matchesAt s ("require".toList) j2 then
        let j3 := skipWs s (j2 + 7)
        let j4 := if paren then (if s.get? j3 = some '(' then some (skipWs s (j3 + 1)) else none)
          else some j3
        match j4 with
        | none => none
        | some j5 =>
          match s.get? j5 with
          | none => none
          | some q =>
            if isQuote q then
              let name := quoteFreeRun s (j5 + 1)
              if name.length = 0 then none
              else
                let j6 := j5 + 1 + name.length
                if s.get? j6 = some q then
                  if paren then
                    let j7 := skipWs s (j6 + 1)
                    if s.get? j7 = some ')' then some (j7 + 1, v, name) else none
                  else some (j6 + 1, v, name)
                else none
            else none
      else none
    else none

/-- One require-assignment regex of src/bundler/lint.ts at a fixed offset:
an optional local keyword with following whitespace is tried first (the
greedy reading of the optional group), then the assignment tail. -/
def matchReqAssignAt (paren : Bool) (s : Str) (i : Nat) : Option (Nat × (Str × Str)) :=
  let direct := matchAssignTail s i paren
  let withLocal :=
    if matchesAt s ("local".toList) i then
      let j := skipWs s (i + 5)
      if i + 5 < j then matchAssignTail s j paren else none
    else none
  match withLocal with
  | some (e, v, name) => some (e - i, (v, name))
  | none =>
    match direct with
    | some (e, v, name) => some (e - i, (v, name))
    | none => none

/-- Embeds isExternalModule of src/bundler/lint.ts: anything not starting
with ./ or ../ counts as external. -/
def isExternalModule (moduleName : Str) : Bool :=
  !(("./".toList).isPrefixOf moduleName) && !(("../".toList).isPrefixOf moduleName)

/-- The variable-to-external-module records of src/bundler/lint.ts. -/
structure ExternalVarInfo where
  varName : Str
  externalModule : Str
deriving Repr, DecidableEq

/-- Embeds parseExternalRequireAssignments of src/bundler/lint.ts: over
both regexes (parenthesized, then bare) collect each variable assigned an
external require, skipping exact duplicates. -/
def parseExternalRequireAssignments (source : Str) : List ExternalVarInfo :=
  let step := fun (results : List ExternalVarInfo) ((_, v, name) : Nat × (Str × Str)) =>
    if isExternalModule name &&
        !(results.any (fun r => r.varName == v && r.externalModule == name)) then
      results ++ [⟨v, name⟩]
    else results
  (scanMatches (matchReqAssignAt false) source).foldl step
    ((scanMatches (matchReqAssignAt true) source).foldl step [])

/-- The ExternalAssignment record of src/bundler/lint.ts. -/
structure ExternalAssignment where
  moduleName : Str
  filePath : Str
  line : Nat
  varName : Str
  propertyPath : Str
deriving Repr, DecidableEq

/-- Embeds getLineNumber of src/bundler/lint.ts. -/
def getLineNumber (source : Str) (position : Nat) : Nat :=
  1 + (source.take position).count '\n'

/-- Greedy property chain of the lint property regexes: one or more groups
of a dot followed by a nonempty word run.  Because a word character can
follow neither the whitespace-star-equals nor the whitespace-star-paren
continuations, the greedy reading without backtracking is exact. -/
def propChainAux (s : Str) : Nat → Nat → Str
  | 0, _ => []
  | Nat.succ fuel, j =>
    if s.get? j = some '.' then
      let w := wordRun s (j + 1)
      if w.length = 0 then []
      else ('.' :: w) ++ propChainAux s fuel (j + 1 + w.length)
    else []

/-- Greedy property chain starting at offset j. -/
def propChain (s : Str) (j : Nat) : Str :=
  propChainAux s (s.length + 1) j

/-- The first matching alternative of the variable-name alternation,
continued by the property chain and the given trailing character: the
assignment regex when trail is an equals sign, the function-declaration
regex when it is an opening paren (with the function keyword matched by
the caller).  Returns the end offset, the variable and the property
path. -/
def matchVarPathAt (varNames : List Str) (trail : Char) (s : Str) (j : Nat) :
    Option (Nat × Str × Str) :=
  (varNames.filterMap (fun v =>
    if matchesAt s v j then
      let props := propChain s (j + v.length)
      if props.length = 0 then none
      else
        let j1 := skipWs s (j + v.length + props.length)
        if s.get? j1 = some trail then some (j1 + 1, v, v ++ props) else none
    else none)).head?

/-- The first lint property regex at a fixed offset: variable alternation,
property chain, optional whitespace, equals sign. -/
def matchPropAssignAt (varNames : List Str) (s : Str) (i : Nat) :
    Option (Nat × (Str × Str)) :=
  (matchVarPathAt varNames '=' s i).map (fun (e, v, p) => (e - i, (v, p)))

/-- The second lint property regex at a fixed offset: the function
keyword, whitespace, variable alternation, property chain, optional
whitespace, opening paren. -/
def matchPropFunctionAt (varNames : List Str) (s : Str) (i : Nat) :
    Option (Nat × (Str × Str)) :=
  if matchesAt s ("function".toList) i then
    let j := skipWs s (i + 8)
    if i + 8 < j then
      (matchVarPathAt varNames '(' s j).map (fun (e, v, p) => (e - i, (v, p)))
    else none
  else none

/-- JS Map built from key-value pairs: on duplicate keys the last entry
wins. -/
def lookupLast (l : List (Str × Str)) (k : Str) : Option Str :=
  lookupAssoc l.reverse k

/-- Embeds parseExternalPropertyAssignments of src/bundler/lint.ts: over
the raw module source (no string or comment masking appears in this
function), both property regexes in order collect assignments to property
paths of the external-aliasing variables.  The TS re-extraction of the
property path from the matched text always yields the matched variable
followed by its property chain, which is recorded directly. -/
def parseExternalPropertyAssignments (source filePath : Str)
    (externalVars : List ExternalVarInfo) : List ExternalAssignment :=
  if externalVars.isEmpty then []
  else
    let varNames := externalVars.map (fun v => v.varName)
    let varToModule := externalVars.map (fun v => (v.varName, v.externalModule))
    let toRecord := fun ((i, v, p) : Nat × (Str × Str)) =>
      match lookupLast varToModule v with
      | none => none
      | some m => some (ExternalAssignment.mk m filePath (getLineNumber source i) v p)
    ((scanMatches (matchPropAssignAt varNames) source).filterMap toRecord) ++
      ((scanMatches (matchPropFunctionAt varNames) source).filterMap toRecord)

/-- The closed set of MoonLoader host-event names of src/bundler/lint.ts. -/
def MOONLOADER_EVENTS : List Str :=
  [("main".toList), ("onExitScript".toList), ("onQuitGame".toList), ("onScriptLoad".toList),
   ("onScriptTerminate".toList), ("onSystemInitialized".toList), ("onScriptMessage".toList),
   ("onSystemMessage".toList), ("onReceivePacket".toList), ("onReceiveRpc".toList),
   ("onSendPacket".toList), ("onSendRpc".toList), ("onWindowMessage".toList),
   ("onStartNewGame".toList), ("onLoadGame".toList), ("onSaveGame".toList)]

/-- The MoonLoaderEventInModule warning record of src/bundler/lint.ts. -/
structure MoonLoaderEventWarning where
  eventName : Str
  filePath : Str
  line : Nat
deriving Repr, DecidableEq

/-- The top-level function-declaration regex of parseMoonLoaderEvents at a
fixed offset: a word boundary, the function keyword, whitespace, an
identifier, optional whitespace and an opening paren. -/
def matchFunctionDeclAt (s : Str) (i : Nat) : Option (Nat × Str) :=
  let boundary := match i with
    | 0 => true
    | Nat.succ k => match s.get? k with
      | none => true
      | some c => !(isWordChar c)
  if boundary && matchesAt s ("function".toList) i then
    let j := skipWs s (i + 8)
    if i + 8 < j then
      let name := wordRun s j
      match name with
      | [] => none
      | c :: _ =>
        if c.isAlpha || c == '_' then
          let j1 := skipWs s (j + name.length)
          if s.get? j1 = some '(' then some (j1 + 1 - i, name) else none
        else none
    else none
  else none

/-- The local-prefix exclusion of parseMoonLoaderEvents: the up to fifty
characters before the match end with the word local followed only by
whitespace. -/
def precededByLocal (s : Str) (i : Nat) : Bool :=
  let beforeMatch := (s.take i).drop (i - 50)
  ("local".toList).isSuffixOf (beforeMatch.reverse.dropWhile isSpaceB).reverse

/-- Embeds parseMoonLoaderEvents of src/bundler/lint.ts: function
declarations outside string and comment spans whose identifier is a
MoonLoader event name and which are not preceded by the local keyword. -/
def parseMoonLoaderEvents (source filePath : Str) : List MoonLoaderEventWarning :=
  let stringSpans := findAllStringSpans source
  let commentSpans := findAllCommentSpans source stringSpans
  let excluded := stringSpans ++ commentSpans
  (scanMatches matchFunctionDeclAt source).filterMap (fun (i, funcName) =>
    if isInsideRange i excluded then none
    else if MOONLOADER_EVENTS.contains funcName then
      if precededByLocal source i then none
      else some ⟨funcName, filePath, getLineNumber source i⟩
    else none)

/-- The DuplicateAssignmentWarning record of src/bundler/lint.ts. -/
structure DuplicateAssignmentWarning where
  propertyPath : Str
  assignments : List ExternalAssignment
deriving Repr, DecidableEq

/-- The LintResult record of src/bundler/lint.ts. -/
structure LintResult where
  duplicateAssignments : List DuplicateAssignmentWarning
  moonloaderEventsInModules : List MoonLoaderEventWarning
deriving Repr, DecidableEq

/-- The grouping of assignments by property path of lintGraph, a JS Map
populated by appending to the list stored under the key (first-occurrence
key order, as Map iteration preserves insertion order). -/
def groupByPath (l : List ExternalAssignment) : List (Str × List ExternalAssignment) :=
  l.foldl
    (fun acc a =>
      if hasKey acc a.propertyPath then
        acc.map (fun p => if p.1 == a.propertyPath then (p.1, p.2 ++ [a]) else p)
      else acc ++ [(a.propertyPath, [a])])
    []

/-- The distinct members of a list in first-occurrence order (the JS Set
constructor over an array). -/
def distinctList (l : List Str) : List Str :=
  l.foldl (fun acc x => if acc.contains x then acc else acc ++ [x]) []

/-- The per-module collection loop of lintGraph: all property assignments
of all modules in map order, and the MoonLoader event warnings of every
non-entry module. -/
def lintCollect (graph : DependencyGraph) :
    List ExternalAssignment × List MoonLoaderEventWarning :=
  graph.modules.foldl
    (fun (acc : List ExternalAssignment × List MoonLoaderEventWarning) p =>
      let node := p.2
      let externalVars := parseExternalRequireAssignments node.source
      let assignments := parseExternalPropertyAssignments node.source node.filePath externalVars
      let events :=
        if p.1 == graph.entryPoint.moduleName then []
        else parseMoonLoaderEvents node.source node.filePath
      (acc.1 ++ assignments, acc.2 ++ events))
    ([], [])

/-- Embeds lintGraph of src/bundler/lint.ts: group all collected property
assignments by property path and warn on the groups with more than one
member spanning more than one distinct file. -/
def lintGraph (graph : DependencyGraph) : LintResult :=
  let collected := lintCollect graph
  let duplicateAssignments :=
    (groupByPath collected.1).filterMap (fun p =>
      if 1 < p.2.length then
        if 1 < (distinctList (p.2.map (fun a => a.filePath))).length then
          some (DuplicateAssignmentWarning.mk p.1 p.2)
        else none
      else none)
  ⟨duplicateAssignments, collected.2⟩

/-- True when pat occurs somewhere in s (JS String.includes). -/
def containsSubstr (s pat : Str) : Bool :=
  (indexOfFrom s pat 0).isSome

/-- Written from the spec's words for the refinement comparison of claim
C4: the canonical key of a cycle obtained by rotating the node list
(without the duplicated closing node) to its lexicographically smallest
rotation, joined like the code's key. -/
def minRotation (l : List Str) : List Str :=
  ((List.range (l.length + 1)).map (fun k => l.rotate k)).foldl
    (fun best cand => if strLe (joinSep (",".toList) cand) (joinSep (",".toList) best)
      then cand else best) l

/-- Written from the spec's words for claim C4: the rotation-based cycle
key the spec describes. -/
def specCycleKey (cycle : List Str) : Str :=
  joinSep (",".toList) (minRotation cycle.dropLast)

/-- Decidable test that l2 is a rotation of l1. -/
def isRotationB (l1 l2 : List Str) : Bool :=
  (List.range (l1.length + 1)).any (fun k => l1.rotate k == l2)

/-- An edge of the dependency view: v occurs in the dependency list of
u. -/
def edgeOf (depsOf : Str → Option (List Str)) (u v : Str) : Prop :=
  ∃ deps, depsOf u = some deps ∧ v ∈ deps

/-- Nonempty paths along dependency edges. -/
inductive DepPath (depsOf : Str → Option (List Str)) : Str → Str → Prop where
  | step {u v : Str} (h : edgeOf depsOf u v) : DepPath depsOf u v
  | tail {u v w : Str} (h : DepPath depsOf u v) (h2 : edgeOf depsOf v w) : DepPath depsOf u w

/-- v precedes u in a list: both occur and some occurrence of v comes
strictly before some occurrence of u. -/
def precedesIn (order : List Str) (v u : Str) : Prop :=
  ∃ i j, order.get? i = some v ∧ order.get? j = some u ∧ i < j

/-- The dependency view of a module map: the dependency list stored under
a key. -/
def depsOfM (m : ModuleMap) : Str → Option (List Str) :=
  fun k => (lookupAssoc m k).map (fun n => n.dependencies)

/-- The index of the first occurrence of a name in a list (length when
absent). -/
def idxOf : List Str → Str → Nat
  | [], _ => 0
  | y :: ys, x => if y = x then 0 else (idxOf ys x) + 1

/-- A name list is topologically sorted for a dependency view when it is
closed under edges and every edge points strictly backwards in it. -/
def TopoList (depsOf : Str → Option (List Str)) (l : List Str) : Prop :=
  ∀ u ∈ l, ∀ v, edgeOf depsOf u v → v ∈ l ∧ idxOf l v < idxOf l u

/-- An acyclic dependency view: no name lies on a dependency cycle. -/
def AcyclicD (depsOf : Str → Option (List Str)) : Prop :=
  ∀ u, ¬ DepPath depsOf u u

/-- Reachability of a name from the entry in a module map: the entry
itself, or the target of a dependency path from the entry. -/
def ReachM (entry : Str) (m : ModuleMap) (u : Str) : Prop :=
  u = entry ∨ DepPath (depsOfM m) entry u

/-- Well-formedness of a module map during graph construction: keys are
unique, each node records its key as its moduleName, every dependency of
every node is a key, and every key is reachable from the entry. -/
def WFB (entry : Str) (m : ModuleMap) : Prop :=
  (keysOf m).Nodup ∧
  (∀ p ∈ m, p.2.moduleName = p.1) ∧
  (∀ p ∈ m, ∀ v ∈ p.2.dependencies, hasKey m v = true) ∧
  (∀ p ∈ m, ReachM entry m p.1)

/-- Growth order on module maps: the key list extends on the right and
every stored node keeps its name and extends its dependency list. -/
def MapLe (m m2 : ModuleMap) : Prop :=
  (∃ ext, keysOf m2 = keysOf m ++ ext) ∧
  (∀ k n, lookupAssoc m k = some n → ∃ n2, lookupAssoc m2 k = some n2 ∧
    n2.moduleName = n.moduleName ∧ ∃ ds, n2.dependencies = n.dependencies ++ ds)

/-- The combined map operation of one resolved dependency step of
processModuleDependencies: append the dependency k to node u, then insert
the fresh node v under k. -/
def stepMap (m : ModuleMap) (u k : Str) (v : ModuleNode) : ModuleMap :=
  insertNode (updateNode m u (fun n => { n with dependencies := n.dependencies ++ [k] }))
    k v

/-- The structural invariant of the cycle-detection traversal: the stack
and the finished list partition the visited set, and the finished list is
a topological order without duplicates. -/
def DetectInv (depsOf : Str → Option (List Str)) (st : DetectState) : Prop :=
  (∀ x ∈ st.stack, x ∈ st.visited) ∧
  (∀ x ∈ st.finished, x ∈ st.visited) ∧
  (∀ x ∈ st.finished, x ∉ st.stack) ∧
  (∀ x ∈ st.visited, x ∈ st.stack ∨ x ∈ st.finished) ∧
  st.finished.Nodup ∧
  TopoList depsOf st.finished

/-- The structural invariant of the topological-sort traversal relative
to the list of in-progress ancestors: the sorted list and the ancestors
partition the visited set and the sorted list is a topological order
without duplicates. -/
def SortInv (depsOf : Str → Option (List Str)) (anc : List Str) (st : SortState) : Prop :=
  st.sorted.Nodup ∧
  (∀ x, x ∈ st.visited ↔ (x ∈ st.sorted ∨ x ∈ anc)) ∧
  (∀ x ∈ st.sorted, x ∉ anc) ∧
  TopoList depsOf st.sorted

/-- Concrete buffer of scenario S1: a require call inside a double-quoted
string literal. -/
def exInString : Str :=
  ("local s = ".toList) ++ ['"'] ++ ("require(".toList) ++ [squote] ++ ("fake".toList) ++
    [squote] ++ (")".toList) ++ ['"']

/-- Concrete buffer with a genuine require site, for the C2 witness. -/
def exPlainRequire : Str :=
  ("require(".toList) ++ ['"'] ++ ("x".toList) ++ ['"'] ++ (")".toList)

/-- Concrete buffer whose double quote at offset ten never closes. -/
def exUnterminated : Str :=
  ("local s = ".toList) ++ ['"'] ++ ("abc".toList)

/-- Concrete buffer where the require keyword is the tail of a longer
identifier yet is followed by a call shape. -/
def exMyRequire : Str :=
  ("myrequire(".toList) ++ ['"'] ++ ("x".toList) ++ ['"'] ++ (")".toList)

/-- Concrete buffer where the require keyword is followed by further
identifier characters. -/
def exRequired : Str :=
  ("local required = ".toList) ++ ['"'] ++ ("something".toList) ++ ['"']

/-- The three-node cycle list a-b-c-a. -/
def cycleABC : List Str := [("a".toList), ("b".toList), ("c".toList), ("a".toList)]

/-- The three-node cycle list a-c-b-a, a permutation but not a rotation of
the previous one. -/
def cycleACB : List Str := [("a".toList), ("c".toList), ("b".toList), ("a".toList)]

/-- Source of the self-requiring module of scenario S4. -/
def exSelfSource : Str :=
  ("require(".toList) ++ [squote] ++ ("./a".toList) ++ [squote] ++ (")".toList)

/-- Filesystem of scenario S4: a single file that requires itself. -/
def exSelfFs : Str → Option Str :=
  fun p => if p = ("src/a.lua".toList) then some exSelfSource else none

/-- First module source of the C8 scenario: an external alias and a real
handler declaration. -/
def exLintSrc1 : Str :=
  ("local sampev = require(".toList) ++ [squote] ++ ("lib.samp.events".toList) ++ [squote] ++
    (")\nfunction sampev.onChat() end\n".toList)

/-- Second module source of the C8 scenario: the same alias, and a
property assignment that sits entirely inside a line comment. -/
def exLintSrc2 : Str :=
  ("local sampev = require(".toList) ++ [squote] ++ ("lib.samp.events".toList) ++ [squote] ++
    (")\n-- sampev.onChat = 1\n".toList)

/-- First module node of the C8 scenario. -/
def exLintNode1 : ModuleNode := ⟨("f1".toList), ("/src/f1.lua".toList), exLintSrc1, [], []⟩

/-- Second module node of the C8 scenario. -/
def exLintNode2 : ModuleNode := ⟨("f2".toList), ("/src/f2.lua".toList), exLintSrc2, [], []⟩

/-- The two-module graph of the C8 scenario. -/
def exLintGraph : DependencyGraph :=
  ⟨exLintNode1,
   [(("f1".toList), exLintNode1), (("f2".toList), exLintNode2)],
   [("f1".toList), ("f2".toList)]⟩

/-- Entry source of the concrete dotted-dialect build used by witnesses: a
single require of a bundled module. -/
def exBuildEntrySource : Str :=
  ("local u = require(".toList) ++ ['"'] ++ ("u".toList) ++ ['"'] ++ (")".toList)

/-- Filesystem of the concrete dotted-dialect build. -/
def exBuildFs : Str → Option Str :=
  fun p =>
    if p = ("src/main.lua".toList) then some exBuildEntrySource
    else if p = ("src/u.lua".toList) then some ("return 1".toList) else none

/-- Resolver of the concrete dotted-dialect build: the name u resolves to
the bundled file, everything else is external. -/
def exBuildResolve : Str → ResolveResult :=
  fun name =>
    if name = ("u".toList) then ⟨some ⟨("u".toList), ("src/u.lua".toList)⟩, false⟩
    else ⟨none, true⟩

/-- The entry node of the concrete dotted-dialect build after dependency
processing. -/
def exBuildMainNode : ModuleNode :=
  ⟨("main".toList), ("src/main.lua".toList), exBuildEntrySource,
   [⟨("u".toList), 1, 11, ("require(".toList) ++ ['"', 'u', '"', ')'], RType.standard⟩],
   [("u".toList)]⟩

/-- The dependency node of the concrete dotted-dialect build. -/
def exBuildUNode : ModuleNode :=
  ⟨("u".toList), ("src/u.lua".toList), ("return 1".toList), [], []⟩

/-- The graph the builder returns on the concrete dotted-dialect build. -/
def exBuildGraph : DependencyGraph :=
  ⟨exBuildMainNode,
   [(("main".toList), exBuildMainNode), (("u".toList), exBuildUNode)],
   [("u".toList), ("main".toList)]⟩

/-- A resolver used by the C7 witness: one external name, one unresolved
name, one resolved name. -/
def exC7Resolve : Str → ResolveResult :=
  fun name =>
    if name = ("ext".toList) then ⟨none, true⟩
    else if name = ("ghost".toList) then ⟨none, false⟩
    else ⟨some ⟨("u".toList), ("src/u.lua".toList)⟩, false⟩

/-- A require statement naming an external module, for the C7 witness. -/
def exC7ReqExt : RequireStatement := ⟨("ext".toList), 3, 1, ("require".toList), RType.standard⟩

/-- A require statement naming an unresolvable module, for the C7
witness. -/
def exC7ReqGhost : RequireStatement := ⟨("ghost".toList), 7, 1, ("require".toList), RType.standard⟩

/-- Concrete buffer where the require keyword inside a protected call is
part of a longer identifier. -/
def exPcallRequired : Str :=
  ("pcall(required, ".toList) ++ ['"'] ++ ("x".toList) ++ ['"'] ++ (")".toList)

/-- The first require match of the plain-require buffer, used by the C2
witness. -/
def exPlainMatch : RequireMatch :=
  ⟨("x".toList), exPlainRequire, '"', 0, RType.standard⟩

-- ===================================================================
-- Theorems
-- ===================================================================

/-- Word characters are neither whitespace, nor quotes, nor an opening
paren. -/
theorem wordChar_class (c : Char) (h : isWordChar c = true) :
    isSpaceB c = false ∧ isQuote c = false ∧ c ≠ '(' := by
  refine ⟨?_, ?_, ?_⟩
  · by_contra hc
    have hc' : isSpaceB c = true := by revert hc; cases isSpaceB c <;> simp
    simp only [isSpaceB, Bool.or_eq_true, beq_iff_eq] at hc'
    rcases hc' with ((((h1 | h1) | h1) | h1) | h1) | h1 <;> subst h1 <;>
      exact absurd h (by decide)
  · by_contra hc
    have hc' : isQuote c = true := by revert hc; cases isQuote c <;> simp
    simp only [isQuote, Bool.or_eq_true, beq_iff_eq] at hc'
    rcases hc' with h1 | h1 <;> subst h1 <;> exact absurd h (by decide)
  · intro h1
    subst h1
    exact absurd h (by decide)

/-- skipWs does not move when the character at the offset is not
whitespace. -/
theorem skipWs_eq_self (s : Str) (c : Char) (j : Nat)
    (hget : s.get? j = some c) (hc : isSpaceB c = false) : skipWs s j = j := by
  show skipWsAux s (s.length + 1) j = j
  simp only [skipWsAux, hget, hc, Bool.false_eq_true, if_false]

/-- Claim C5 counterexample: the buffer whose double quote at offset ten
never closes produces no string span at all, where the claim asserts a
span from the opening quote to the end of the buffer. -/
theorem C5_counterexample_unterminated :
    findAllStringSpans exUnterminated = [] ∧
      exUnterminated.get? 10 = some '"' ∧ exUnterminated.length = 14 := by decide

/-- Claim C5 as amended: when a quote character opens a string literal
whose closing-quote scan reaches the end of the buffer, the scanner stops
and emits no span for it (and none after it): the unterminated tail is
not an excluded range.  In particular the concrete unterminated buffer
yields no string spans. -/
theorem C5_unterminated_string_yields_no_span :
    (∀ (fuel : Nat) (s : Str) (q : Char) (i : Nat),
        s.get? i = some q → (q = '"' ∨ q = squote) →
        scanStringEnd s q (s.length + 1) (i + 1) = none →
        stringSpansAux s fuel i = []) ∧
      findAllStringSpans exUnterminated = [] := by
  constructor
  · intro fuel s q i hget hq hscan
    cases fuel with
    | zero => rfl
    | succ fuel =>
      simp only [stringSpansAux, hget]
      rw [if_pos hq, hscan]
  · decide

/-- Witness for the amended claim C5 at the concrete unterminated
buffer. -/
theorem C5_unterminated_witness :
    stringSpansAux exUnterminated (exUnterminated.length + 1) 10 = [] :=
  C5_unterminated_string_yields_no_span.1 (exUnterminated.length + 1) exUnterminated '"' 10
    (by decide) (Or.inl rfl) (by decide)

/-- Claim C6 counterexample: the require keyword embedded in the longer
identifier myrequire is extracted as a standard site (module name x) and
is rewritten by the require rewriter. -/
theorem C6_counterexample_myrequire :
    (parseRequireStatements exMyRequire).map (fun r => r.moduleName) = [("x".toList)] ∧
      transformRequiresToLoad exMyRequire [("x".toList)] ≠ exMyRequire := by decide

/-- Claim C6 as amended: the patterns enforce a word boundary only after
the require keyword — an occurrence followed by a further word character
matches neither the standard nor the compact pattern at that position, so
identifiers like required (also inside a pcall) are never extracted — but
there is no boundary before the keyword, so the tail of a longer
identifier such as myrequire is extracted and rewritten. -/
theorem C6_word_boundary_only_after_require :
    (∀ (s : Str) (i : Nat) (c : Char),
        s.get? (i + 7) = some c → isWordChar c = true →
        matchStandardAt s i = none ∧ matchCompactAt s i = none) ∧
      parseRequireStatements exRequired = [] ∧
      parseRequireStatements exPcallRequired = [] ∧
      (parseRequireStatements exMyRequire).map (fun r => r.moduleName) = [("x".toList)] := by
  refine ⟨?_, by decide, by decide, by decide⟩
  intro s i c hget hw
  obtain ⟨hsp, hqt, hlp⟩ := wordChar_class c hw
  have hskip : skipWs s (i + 7) = i + 7 := skipWs_eq_self s c (i + 7) hget hsp
  constructor
  · by_cases hreq : matchesAt s ("require".toList) i
    · simp only [matchStandardAt, hreq, if_true, hskip, hget]
      rw [if_neg]
      intro hc
      exact hlp (Option.some.inj hc)
    · simp only [matchStandardAt, hreq, Bool.false_eq_true, if_false]
  · by_cases hreq : matchesAt s ("require".toList) i
    · simp only [matchCompactAt, hreq, if_true, hskip, hget, hqt, Bool.false_eq_true, if_false]
    · simp only [matchCompactAt, hreq, Bool.false_eq_true, if_false]

/-- Witness for the amended claim C6 at a concrete buffer carrying the
identifier required. -/
theorem C6_word_boundary_witness :
    matchStandardAt exRequired 6 = none ∧ matchCompactAt exRequired 6 = none :=
  C6_word_boundary_only_after_require.1 exRequired 6 'd' (by decide) (by decide)

/-- Membership through the sorting insertion. -/
theorem mem_insertByIndex {m x : RequireMatch} {l : List RequireMatch}
    (h : m ∈ insertByIndex x l) : m = x ∨ m ∈ l := by
  induction l with
  | nil => simpa [insertByIndex] using h
  | cons y ys ih =>
    simp only [insertByIndex] at h
    split at h
    · rcases List.mem_cons.mp h with h1 | h1
      · exact Or.inl h1
      · exact Or.inr h1
    · rcases List.mem_cons.mp h with h1 | h1
      · exact Or.inr (h1 ▸ List.mem_cons_self y ys)
      · rcases ih h1 with h2 | h2
        · exact Or.inl h2
        · exact Or.inr (List.mem_cons_of_mem y h2)

/-- Membership through the sort. -/
theorem mem_sortByIndex {m : RequireMatch} {l : List RequireMatch}
    (h : m ∈ sortByIndex l) : m ∈ l := by
  induction l with
  | nil => simp [sortByIndex] at h
  | cons x xs ih =>
    have h' : m ∈ insertByIndex x (sortByIndex xs) := h
    rcases mem_insertByIndex h' with h1 | h1
    · exact h1 ▸ List.mem_cons_self x xs
    · exact List.mem_cons_of_mem x (ih h1)

/-- Membership through one deduplication step. -/
theorem mem_insertDedup {m x : RequireMatch} {res : List RequireMatch}
    (h : m ∈ insertDedup res x) : m ∈ res ∨ m = x := by
  unfold insertDedup at h
  rcases hidx : res.findIdx? (fun ex => overlapB x ex) with _ | k
  · simp only [hidx] at h
    rcases List.mem_append.mp h with h1 | h1
    · exact Or.inl h1
    · exact Or.inr (List.mem_singleton.mp h1)
  · simp only [hidx] at h
    rcases hget : res.get? k with _ | ex
    · simp only [hget] at h
      exact Or.inl h
    · simp only [hget] at h
      split at h
      · rcases List.mem_or_eq_of_mem_set h with h1 | h1
        · exact Or.inl h1
        · exact Or.inr h1
      · exact Or.inl h

/-- Membership through the deduplication fold. -/
theorem mem_foldl_insertDedup {m : RequireMatch} :
    ∀ {l acc : List RequireMatch}, m ∈ l.foldl insertDedup acc → m ∈ acc ∨ m ∈ l := by
  intro l
  induction l with
  | nil => intro acc h; exact Or.inl h
  | cons x xs ih =>
    intro acc h
    rcases @ih (insertDedup acc x) h with h1 | h1
    · rcases mem_insertDedup h1 with h2 | h2
      · exact Or.inl h2
      · exact Or.inr (h2 ▸ List.mem_cons_self x xs)
    · exact Or.inr (List.mem_cons_of_mem x h1)

/-- Every collected candidate survives the collection filters. -/
theorem keep_of_mem_allRequireCandidates {s : Str} {m : RequireMatch}
    (h : m ∈ allRequireCandidates s) : keepMatch s (excludedRanges s) m = true := by
  unfold allRequireCandidates at h
  rcases List.mem_append.mp h with h1 | h1
  · rcases List.mem_append.mp h1 with h2 | h2
    · exact (List.mem_filter.mp h2).2
    · exact (List.mem_filter.mp h2).2
  · exact (List.mem_filter.mp h1).2

/-- Inside-range testing distributes over appended range lists. -/
theorem isInsideRange_append (p : Nat) (a b : List Span) :
    isInsideRange p (a ++ b) = (isInsideRange p a || isInsideRange p b) := by
  simp [isInsideRange, List.any_append]

/-- Claim C2: every require site kept by the extractor has its byte offset
outside every string span and every comment span of the buffer, and the
buffer holding a require call only inside a string literal yields no
sites at all. -/
theorem C2_sites_outside_excluded_ranges :
    (∀ (s : Str) (m : RequireMatch), m ∈ parseRequireMatches s →
        isInsideRange m.index (findAllStringSpans s) = false ∧
          isInsideRange m.index (findAllCommentSpans s (findAllStringSpans s)) = false) ∧
      parseRequireStatements exInString = [] := by
  constructor
  · intro s m hmem
    have h1 : m ∈ sortByIndex (allRequireCandidates s) ∨ m ∈ ([] : List RequireMatch) := by
      rcases @mem_foldl_insertDedup m (sortByIndex (allRequireCandidates s))
          [] hmem with h | h
      · exact Or.inr h
      · exact Or.inl h
    have h2 : m ∈ allRequireCandidates s := by
      rcases h1 with h | h
      · exact mem_sortByIndex h
      · cases h
    have hkeep := keep_of_mem_allRequireCandidates h2
    have hout : isInsideRange m.index (excludedRanges s) = false := by
      simp only [keepMatch, Bool.and_eq_true, Bool.not_eq_true'] at hkeep
      exact hkeep.1
    rw [excludedRanges, isInsideRange_append] at hout
    exact ⟨(Bool.or_eq_false_iff.mp hout).1, (Bool.or_eq_false_iff.mp hout).2⟩
  · decide

/-- Witness for claim C2 at the buffer holding one genuine require call at
offset zero. -/
theorem C2_witness :
    isInsideRange 0 (findAllStringSpans exPlainRequire) = false ∧
      isInsideRange 0 (findAllCommentSpans exPlainRequire (findAllStringSpans exPlainRequire)) =
        false :=
  C2_sites_outside_excluded_ranges.1 exPlainRequire exPlainMatch (by decide)

/-- Claim C9: building the graph of the single file that requires itself
fails with a CIRCULAR_DEPENDENCY error carrying the self-cycle, whose
message contains the self-cycle joined with an arrow. -/
theorem C9_self_require_is_circular :
    buildDependencyGraphA exSelfFs 100 ("src/a.lua".toList) ("src".toList) =
        Except.error (BuildError.circularDependency
          ("Circular dependency detected: a → a".toList)
          [[("a".toList), ("a".toList)]]) ∧
      containsSubstr ("Circular dependency detected: a → a".toList) ("a → a".toList) = true := by
  constructor
  · rfl
  · decide

/-- Claim C7: during dependency processing, an external resolution skips
the site and continues with the remaining sites; a failed resolution of a
non-external site aborts with a MODULE_NOT_FOUND error carrying the
module name, the requesting file and the line of the site; and the
processing of a non-external site returns successfully only when the
resolver produced a resolution. -/
theorem C7_resolution_dispatch :
    (∀ (resolve : Str → ResolveResult) (fs : Str → Option Str) (fuel : Nat)
        (nodeName nodePath : Str) (req : RequireStatement) (rest : List RequireStatement)
        (modules : ModuleMap),
        (resolve req.moduleName).isExternal = true →
        processReqsB resolve fs (fuel + 1) nodeName nodePath (req :: rest) modules =
          processReqsB resolve fs fuel nodeName nodePath rest modules) ∧
      (∀ (resolve : Str → ResolveResult) (fs : Str → Option Str) (fuel : Nat)
          (nodeName nodePath : Str) (req : RequireStatement) (rest : List RequireStatement)
          (modules : ModuleMap),
          (resolve req.moduleName).isExternal = false →
          (resolve req.moduleName).resolved = none →
          processReqsB resolve fs (fuel + 1) nodeName nodePath (req :: rest) modules =
            Except.error (BuildError.moduleNotFound
              (notFoundMessage req.moduleName nodePath req.line)
              req.moduleName nodePath req.line)) ∧
      (∀ (resolve : Str → ResolveResult) (fs : Str → Option Str) (fuel : Nat)
          (nodeName nodePath : Str) (req : RequireStatement) (rest : List RequireStatement)
          (modules : ModuleMap) (m' : ModuleMap),
          (resolve req.moduleName).isExternal = false →
          processReqsB resolve fs (fuel + 1) nodeName nodePath (req :: rest) modules =
            Except.ok m' →
          ∃ r, (resolve req.moduleName).resolved = some r) := by
  refine ⟨?_, ?_, ?_⟩
  · intro resolve fs fuel nodeName nodePath req rest modules hext
    simp only [processReqsB, hext, if_true]
  · intro resolve fs fuel nodeName nodePath req rest modules hext hres
    simp only [processReqsB, hext, Bool.false_eq_true, if_false, hres]
  · intro resolve fs fuel nodeName nodePath req rest modules m' hext hok
    rcases hres : (resolve req.moduleName).resolved with _ | r
    · simp only [processReqsB, hext, Bool.false_eq_true, if_false, hres] at hok
      exact Except.noConfusion hok
    · exact ⟨r, rfl⟩

/-- Witness for claim C7 at a concrete external site and a concrete
unresolvable site. -/
theorem C7_witness :
    processReqsB exC7Resolve (fun _ => none) 5 ("m".toList) ("m.lua".toList)
        [exC7ReqExt] [] = processReqsB exC7Resolve (fun _ => none) 4 ("m".toList)
        ("m.lua".toList) [] [] ∧
      processReqsB exC7Resolve (fun _ => none) 5 ("m".toList) ("m.lua".toList)
        [exC7ReqGhost] [] = Except.error (BuildError.moduleNotFound
          (notFoundMessage ("ghost".toList) ("m.lua".toList) 7) ("ghost".toList)
          ("m.lua".toList) 7) :=
  ⟨C7_resolution_dispatch.1 exC7Resolve (fun _ => none) 4 ("m".toList) ("m.lua".toList)
      exC7ReqExt [] [] (by decide),
    C7_resolution_dispatch.2.1 exC7Resolve (fun _ => none) 4 ("m".toList) ("m.lua".toList)
      exC7ReqGhost [] [] (by decide) (by decide)⟩

/-- The comparison used by the sort agrees with the lexicographic order. -/
theorem strLe_iff_le {a b : Str} : strLe a b = true ↔ a ≤ b := by
  simp [strLe]

/-- Inserting into the sort accumulator is a permutation of consing. -/
theorem insertStrLe_perm (x : Str) (l : List Str) : (insertStrLe x l).Perm (x :: l) := by
  induction l with
  | nil => exact List.Perm.refl _
  | cons y ys ih =>
    simp only [insertStrLe]
    split
    · exact List.Perm.refl _
    · exact (List.Perm.cons y ih).trans (List.Perm.swap x y ys)

/-- The sort permutes its input. -/
theorem sortStrs_perm_self (l : List Str) : (sortStrs l).Perm l := by
  induction l with
  | nil => exact List.Perm.refl _
  | cons x xs ih =>
    exact (insertStrLe_perm x (sortStrs xs)).trans (List.Perm.cons x ih)

/-- Inserting into a sorted list keeps it sorted. -/
theorem insertStrLe_sorted (x : Str) {l : List Str} (h : l.Sorted (· ≤ ·)) :
    (insertStrLe x l).Sorted (· ≤ ·) := by
  induction l with
  | nil => simp [insertStrLe]
  | cons y ys ih =>
    rcases List.sorted_cons.mp h with ⟨hy, hys⟩
    simp only [insertStrLe]
    split
    · rename_i hle
      refine List.sorted_cons.mpr ⟨?_, h⟩
      intro b hb
      rcases List.mem_cons.mp hb with hb1 | hb1
      · exact hb1 ▸ strLe_iff_le.mp hle
      · exact le_trans (strLe_iff_le.mp hle) (hy b hb1)
    · rename_i hnle
      have hyx : y ≤ x := by
        rcases le_total x y with h1 | h1
        · exact absurd (strLe_iff_le.mpr h1) hnle
        · exact h1
      refine List.sorted_cons.mpr ⟨?_, ih hys⟩
      intro b hb
      rcases List.mem_cons.mp ((insertStrLe_perm x ys).mem_iff.mp hb) with hb1 | hb1
      · exact hb1 ▸ hyx
      · exact hy b hb1

/-- The sort sorts. -/
theorem sortStrs_sorted (l : List Str) : (sortStrs l).Sorted (· ≤ ·) := by
  induction l with
  | nil => simp [sortStrs]
  | cons x xs ih => exact insertStrLe_sorted x ih

/-- Sorting is invariant under permutation of the input. -/
theorem sortStrs_eq_of_perm {l1 l2 : List Str} (h : l1.Perm l2) :
    sortStrs l1 = sortStrs l2 :=
  List.eq_of_perm_of_sorted
    ((sortStrs_perm_self l1).trans (h.trans (sortStrs_perm_self l2).symm))
    (sortStrs_sorted l1) (sortStrs_sorted l2)

/-- Matching succeeds at the offset where the pattern sits. -/
theorem matchesAt_append (pre pat suf : Str) :
    matchesAt (pre ++ pat ++ suf) pat pre.length = true := by
  have h1 : (pre ++ pat ++ suf).drop pre.length = pat ++ suf := by
    rw [List.append_assoc]
    exact List.drop_left pre (pat ++ suf)
  simp only [matchesAt, h1, List.take_left]
  exact beq_self_eq_true pat

/-- The index search succeeds when a witness offset lies within fuel
range. -/
theorem indexOfFromAux_isSome {s pat : Str} :
    ∀ (fuel i k : Nat), i ≤ k → k + pat.length ≤ s.length → matchesAt s pat k = true →
      k < i + fuel → (indexOfFromAux s pat fuel i).isSome = true := by
  intro fuel
  induction fuel with
  | zero => intro i k hik _ _ hk; omega
  | succ fuel ih =>
    intro i k hik hlen hmatch hk
    simp only [indexOfFromAux]
    rw [if_pos (by omega)]
    by_cases hi : matchesAt s pat i
    · simp [hi]
    · have hik' : i + 1 ≤ k := by
        rcases Nat.lt_or_ge i k with h1 | h1
        · omega
        · have : i = k := by omega
          subst this
          exact absurd hmatch hi
      have := ih (i + 1) k hik' hlen hmatch (by omega)
      simp only [hi, Bool.false_eq_true, if_false]
      exact this

/-- A pattern occurring inside a buffer is found by the substring test. -/
theorem containsSubstr_of_isInfix {s pat : Str} (h : pat <:+: s) :
    containsSubstr s pat = true := by
  obtain ⟨pre, suf, rfl⟩ := h
  have hm : matchesAt (pre ++ pat ++ suf) pat pre.length := matchesAt_append pre pat suf
  have hlen : pre.length + pat.length ≤ (pre ++ pat ++ suf).length := by
    simp [List.length_append]
  simp only [containsSubstr, indexOfFrom]
  exact indexOfFromAux_isSome ((pre ++ pat ++ suf).length + 1) 0 pre.length
    (Nat.zero_le _) hlen hm (by omega)

/-- The accumulator of the join fold is an infix of the result. -/
theorem joinSep_foldl_isInfix (sep : Str) (ys : List Str) :
    ∀ acc : Str, acc <:+: ys.foldl (fun acc y => acc ++ sep ++ y) acc := by
  induction ys with
  | nil => intro acc; exact ⟨[], [], by simp⟩
  | cons z zs ih =>
    intro acc
    have h1 : acc <:+: acc ++ sep ++ z := ⟨[], sep ++ z, by simp⟩
    exact h1.trans (ih (acc ++ sep ++ z))

/-- A member of the folded list is an infix of the join fold. -/
theorem mem_foldl_join_isInfix (sep : Str) {x : Str} :
    ∀ (ys : List Str) (acc : Str), x ∈ ys →
      x <:+: ys.foldl (fun acc y => acc ++ sep ++ y) acc := by
  intro ys
  induction ys with
  | nil => intro acc h; cases h
  | cons z zs ih =>
    intro acc h
    rcases List.mem_cons.mp h with h2 | h2
    · subst h2
      have hx : x <:+: acc ++ sep ++ x := ⟨acc ++ sep, [], by simp⟩
      exact hx.trans (joinSep_foldl_isInfix sep zs (acc ++ sep ++ x))
    · exact ih (acc ++ sep ++ z) h2

/-- Every member of a joined list is an infix of the join. -/
theorem mem_infix_joinSep (sep : Str) {x : Str} {l : List Str} (h : x ∈ l) :
    x <:+: joinSep sep l := by
  cases l with
  | nil => cases h
  | cons y ys =>
    rcases List.mem_cons.mp h with h1 | h1
    · subst h1
      exact joinSep_foldl_isInfix sep ys x
    · exact mem_foldl_join_isInfix sep ys y h1

/-- Each distinct cycle, joined with the arrow separator, occurs in the
circular-dependency message. -/
theorem circularMessage_contains {found : List (List Str)} {c : List Str} (h : c ∈ found) :
    containsSubstr (circularMessage found) (joinSep (" → ".toList) c) = true := by
  unfold circularMessage
  split
  · rename_i hlen
    obtain ⟨c0, hc0⟩ := List.length_eq_one.mp hlen
    subst hc0
    have hc : c = c0 := List.mem_singleton.mp h
    subst hc
    refine containsSubstr_of_isInfix ?_
    exact ⟨("Circular dependency detected: ".toList), [], by
      simp [List.map, List.headD]⟩
  · refine containsSubstr_of_isInfix ?_
    have h1 : joinSep (" → ".toList) c <:+:
        joinSep ("\n  ".toList) (found.map (joinSep (" → ".toList))) :=
      mem_infix_joinSep _ (List.mem_map_of_mem _ h)
    obtain ⟨pre, suf, heq⟩ := h1
    refine ⟨("Circular dependencies detected:\n  ".toList) ++ pre, suf, ?_⟩
    show ("Circular dependencies detected:\n  ".toList) ++ pre ++ joinSep (" → ".toList) c ++
        suf = ("Circular dependencies detected:\n  ".toList) ++
        joinSep ("\n  ".toList) (found.map (joinSep (" → ".toList)))
    rw [← heq]
    simp [List.append_assoc]

/-- When the sweep has found cycles (and fuel never ran out), cycle
detection reports the CIRCULAR_DEPENDENCY error carrying them all, with
the enumerating message. -/
theorem detectCircular_reports (depsOf : Str → Option (List Str)) (fuel : Nat)
    (names : List Str)
    (hf : (detectSweep depsOf fuel names initDetectState).fuelOut = false)
    (hne : (detectSweep depsOf fuel names initDetectState).found ≠ []) :
    detectCircularDependenciesOn depsOf fuel names =
      some (BuildError.circularDependency
        (circularMessage (detectSweep depsOf fuel names initDetectState).found)
        (detectSweep depsOf fuel names initDetectState).found) := by
  show (if (detectSweep depsOf fuel names initDetectState).fuelOut = true
      then some BuildError.outOfFuel
      else if (detectSweep depsOf fuel names initDetectState).found.isEmpty = true then none
      else some (BuildError.circularDependency
        (circularMessage (detectSweep depsOf fuel names initDetectState).found)
        (detectSweep depsOf fuel names initDetectState).found)) = _
  rw [hf]
  simp only [Bool.false_eq_true, if_false]
  rw [if_neg]
  simp only [List.isEmpty_eq_true]
  exact hne

/-- Claim C4 counterexample: the cycle key of the code sorts the node
list, so the two cycles through a, b, c that are permutations but not
rotations of one another receive the same key and would be reported once,
while the rotation-based key of the spec separates them. -/
theorem C4_counterexample_sorted_key :
    normalizeCycleKey cycleACB = normalizeCycleKey cycleABC ∧
      isRotationB cycleABC.dropLast cycleACB.dropLast = false ∧
      specCycleKey cycleACB ≠ specCycleKey cycleABC := by
  refine ⟨by decide, by decide, by decide⟩

/-- Claim C4 as amended: the cycle key sorts the node list (without the
duplicated closing node), so any two cycles over the same node multiset —
in particular all rotations of a cycle — receive the same key and are
reported once; when the sweep has recorded cycles the build fails with
CIRCULAR_DEPENDENCY carrying every distinct recorded cycle after the full
sweep, and the message contains each cycle joined with an arrow. -/
theorem C4_sorted_key_canonicalization :
    (∀ c1 c2 : List Str, c1.dropLast.Perm c2.dropLast →
        normalizeCycleKey c1 = normalizeCycleKey c2) ∧
      (∀ (l : List Str) (k : Nat) (x y : Str),
        normalizeCycleKey (l.rotate k ++ [x]) = normalizeCycleKey (l ++ [y])) ∧
      (∀ (depsOf : Str → Option (List Str)) (fuel : Nat) (names : List Str),
        (detectSweep depsOf fuel names initDetectState).fuelOut = false →
        (detectSweep depsOf fuel names initDetectState).found ≠ [] →
        detectCircularDependenciesOn depsOf fuel names =
          some (BuildError.circularDependency
            (circularMessage (detectSweep depsOf fuel names initDetectState).found)
            (detectSweep depsOf fuel names initDetectState).found)) ∧
      (∀ (found : List (List Str)) (c : List Str), c ∈ found →
        containsSubstr (circularMessage found) (joinSep (" → ".toList) c) = true) := by
  have hperm : ∀ c1 c2 : List Str, c1.dropLast.Perm c2.dropLast →
      normalizeCycleKey c1 = normalizeCycleKey c2 := by
    intro c1 c2 h
    unfold normalizeCycleKey
    rw [sortStrs_eq_of_perm h]
  refine ⟨hperm, ?_, ?_, ?_⟩
  · intro l k x y
    apply hperm
    rw [List.dropLast_concat, List.dropLast_concat]
    exact List.rotate_perm l k
  · exact detectCircular_reports
  · exact fun found c h => circularMessage_contains h

/-- Witness for the amended claim C4: the rotated three-cycle receives the
key of the original, and a concrete self-loop graph is reported with the
arrow-joined message after the sweep. -/
theorem C4_witness :
    normalizeCycleKey (([("a".toList), ("b".toList), ("c".toList)].rotate 1) ++ [("b".toList)]) =
        normalizeCycleKey ([("a".toList), ("b".toList), ("c".toList)] ++ [("a".toList)]) ∧
      detectCircularDependenciesOn
          (fun k => if k = ("a".toList) then some [("a".toList)] else none) 10 [("a".toList)] =
        some (BuildError.circularDependency
          (circularMessage (detectSweep
            (fun k => if k = ("a".toList) then some [("a".toList)] else none) 10 [("a".toList)]
            initDetectState).found)
          (detectSweep (fun k => if k = ("a".toList) then some [("a".toList)] else none) 10
            [("a".toList)] initDetectState).found) :=
  ⟨C4_sorted_key_canonicalization.2.1 [("a".toList), ("b".toList), ("c".toList)] 1
      ("b".toList) ("a".toList),
    C4_sorted_key_canonicalization.2.2.1
      (fun k => if k = ("a".toList) then some [("a".toList)] else none) 10 [("a".toList)]
      (by decide) (by decide)⟩

/-- Claim C8 counterexample: in the two-module graph whose second file
mentions the property path only inside a line comment, the linter still
emits a duplicate warning spanning both files — so occurrences inside
comment spans are recorded, and the occurrences of the true (masked)
reading would span only one file. -/
theorem C8_counterexample_comment_occurrence :
    (lintGraph exLintGraph).duplicateAssignments.length = 1 ∧
      (∀ p ∈ scanMatches (matchPropAssignAt [("sampev".toList)]) exLintSrc2,
        isInsideRange p.1 (findAllCommentSpans exLintSrc2 (findAllStringSpans exLintSrc2)) =
          true) ∧
      scanMatches (matchPropFunctionAt [("sampev".toList)]) exLintSrc2 = [] ∧
      (∃ w ∈ (lintGraph exLintGraph).duplicateAssignments,
        ∃ a ∈ w.assignments, a.filePath = ("/src/f2.lua".toList)) := by
  refine ⟨by decide, by decide, by decide, by decide⟩

/-- Claim C8 as amended: the assignment and function-declaration
occurrences are collected from the raw module sources without string or
comment masking, and a property-path group is emitted as a duplicate
warning exactly when it has more than one occurrence spanning more than
one distinct file; multiple occurrences in a single file alone produce no
warning. -/
theorem C8_duplicate_warning_iff_two_files :
    (∀ (graph : DependencyGraph) (w : DuplicateAssignmentWarning),
        w ∈ (lintGraph graph).duplicateAssignments →
        1 < w.assignments.length ∧
          1 < (distinctList (w.assignments.map (fun a => a.filePath))).length ∧
          (w.propertyPath, w.assignments) ∈ groupByPath (lintCollect graph).1) ∧
      (∀ (graph : DependencyGraph) (path : Str) (asgs : List ExternalAssignment),
        (path, asgs) ∈ groupByPath (lintCollect graph).1 →
        1 < asgs.length →
        1 < (distinctList (asgs.map (fun a => a.filePath))).length →
        DuplicateAssignmentWarning.mk path asgs ∈ (lintGraph graph).duplicateAssignments) := by
  constructor
  · intro graph w hw
    have hw' : w ∈ (groupByPath (lintCollect graph).1).filterMap (fun p =>
        if 1 < p.2.length then
          if 1 < (distinctList (p.2.map (fun a => a.filePath))).length then
            some (DuplicateAssignmentWarning.mk p.1 p.2)
          else none
        else none) := hw
    obtain ⟨p, hp, hfp⟩ := List.mem_filterMap.mp hw'
    by_cases h1 : 1 < p.2.length
    · by_cases h2 : 1 < (distinctList (p.2.map (fun a => a.filePath))).length
      · rw [if_pos h1, if_pos h2] at hfp
        obtain rfl := (Option.some.inj hfp).symm
        exact ⟨h1, h2, hp⟩
      · rw [if_pos h1, if_neg h2] at hfp
        exact absurd hfp (by simp)
    · rw [if_neg h1] at hfp
      exact absurd hfp (by simp)
  · intro graph path asgs hmem h1 h2
    show DuplicateAssignmentWarning.mk path asgs ∈
      (groupByPath (lintCollect graph).1).filterMap (fun p =>
        if 1 < p.2.length then
          if 1 < (distinctList (p.2.map (fun a => a.filePath))).length then
            some (DuplicateAssignmentWarning.mk p.1 p.2)
          else none
        else none)
    exact List.mem_filterMap.mpr ⟨(path, asgs), hmem, by rw [if_pos h1, if_pos h2]⟩

/-- Whitespace skipping never moves backwards. -/
theorem skipWsAux_ge (s : Str) : ∀ (fuel j : Nat), j ≤ skipWsAux s fuel j := by
  intro fuel
  induction fuel with
  | zero => intro j; exact Nat.le_refl j
  | succ fuel ih =>
    intro j
    simp only [skipWsAux]
    rcases s.get? j with _ | c
    · exact Nat.le_refl j
    · dsimp only
      split
      · exact Nat.le_trans (Nat.le_succ j) (ih (j + 1))
      · exact Nat.le_refl j

/-- Whitespace skipping never moves backwards. -/
theorem skipWs_ge (s : Str) (j : Nat) : j ≤ skipWs s j :=
  skipWsAux_ge s (s.length + 1) j

/-- A standard match has positive length. -/
theorem matchStandardAt_len_pos {s : Str} {i : Nat} {m : RawMatch}
    (h : matchStandardAt s i = some m) : 1 ≤ m.len := by
  simp only [matchStandardAt] at h
  repeat' split at h
  all_goals try (exact Option.noConfusion h)
  all_goals
    (obtain rfl := (Option.some.inj h).symm
     dsimp only
     have h1 := skipWs_ge s (i + 7)
     have h2 := skipWs_ge s (skipWs s (i + 7) + 1)
     have h3 := skipWs_ge s
       (skipWs s (skipWs s (i + 7) + 1) + 1 +
         (quoteFreeRun s (skipWs s (skipWs s (i + 7) + 1) + 1)).length + 1)
     omega)

/-- A compact match has positive length. -/
theorem matchCompactAt_len_pos {s : Str} {i : Nat} {m : RawMatch}
    (h : matchCompactAt s i = some m) : 1 ≤ m.len := by
  simp only [matchCompactAt] at h
  repeat' split at h
  all_goals try (exact Option.noConfusion h)
  all_goals
    (obtain rfl := (Option.some.inj h).symm
     dsimp only
     have h1 := skipWs_ge s (i + 7)
     omega)

/-- A protected-call match has positive length. -/
theorem matchPcallAt_len_pos {s : Str} {i : Nat} {m : RawMatch}
    (h : matchPcallAt s i = some m) : 1 ≤ m.len := by
  simp only [matchPcallAt] at h
  repeat' split at h
  all_goals try (exact Option.noConfusion h)
  all_goals
    (obtain rfl := (Option.some.inj h).symm
     dsimp only
     have h1 := skipWs_ge s (i + 5)
     have h2 := skipWs_ge s (skipWs s (i + 5) + 1)
     have h3 := skipWs_ge s (skipWs s (skipWs s (skipWs s (i + 5) + 1) + 7) + 1)
     have h5 := skipWs_ge s (skipWs s (skipWs s (i + 5) + 1) + 7)
     have h4 := skipWs_ge s
       (skipWs s (skipWs s (skipWs s (skipWs s (i + 5) + 1) + 7) + 1) + 1 +
         (quoteFreeRun s
           (skipWs s (skipWs s (skipWs s (skipWs s (i + 5) + 1) + 7) + 1) + 1)).length + 1)
     omega)

/-- Every match emitted by a pattern scan starts inside the buffer, and
its text is the corresponding slice of the buffer at a length the matcher
reported. -/
theorem mem_findPatternMatchesAux {matcher : Str → Nat → Option RawMatch} {s : Str}
    {t : RType} {m : RequireMatch} :
    ∀ {fuel i : Nat}, m ∈ findPatternMatchesAux matcher s t fuel i →
      ∃ rm : RawMatch, matcher s m.index = some rm ∧
        m.raw = (s.drop m.index).take rm.len ∧ m.index < s.length ∧
        m.quote = rm.quote ∧ m.moduleName = rm.moduleName ∧ m.rtype = t := by
  intro fuel
  induction fuel with
  | zero => intro i h; cases h
  | succ fuel ih =>
    intro i h
    simp only [findPatternMatchesAux] at h
    split at h
    · rename_i hlt
      rcases hm : matcher s i with _ | rm
      · rw [hm] at h
        exact ih h
      · rw [hm] at h
        rcases List.mem_cons.mp h with h1 | h1
        · subst h1
          exact ⟨rm, hm, rfl, hlt, rfl, rfl, rfl⟩
        · exact ih h1
    · cases h

/-- Raw-text bounds for scanned matches: nonempty text lying inside the
buffer, given a matcher that only reports positive lengths. -/
theorem mem_scan_raw_bounds {matcher : Str → Nat → Option RawMatch} {s : Str} {t : RType}
    {m : RequireMatch}
    (hpos : ∀ (i : Nat) (rm : RawMatch), matcher s i = some rm → 1 ≤ rm.len)
    (h : m ∈ findPatternMatches matcher s t) :
    1 ≤ m.raw.length ∧ m.index + m.raw.length ≤ s.length := by
  obtain ⟨rm, hm, hraw, hidx, -, -, -⟩ := mem_findPatternMatchesAux h
  have hlen : m.raw.length = min rm.len (s.length - m.index) := by
    rw [hraw]
    simp [List.length_take, List.length_drop]
  have hp := hpos m.index rm hm
  constructor
  · omega
  · omega

/-- A failed overlap test means the candidate interval and the collected
replacement are disjoint. -/
theorem overlapsRepl_false_disjoint {index len : Nat} {r : Replacement}
    (h : overlapsRepl index len r = false) : r.stop ≤ index ∨ index + len ≤ r.start := by
  simp only [overlapsRepl, Bool.or_eq_false_iff, Bool.and_eq_false_iff,
    decide_eq_false_iff_not, Nat.not_le, Nat.not_lt] at h
  omega

/-- Collection keeps replacement intervals nonempty, inside the buffer and
pairwise disjoint. -/
theorem collectReplacements_props {s : Str} {excl : List Span} {mods : List Str}
    {ms : List RequireMatch}
    (hms : ∀ m ∈ ms, 1 ≤ m.raw.length ∧ m.index + m.raw.length ≤ s.length) :
    ∀ acc : List Replacement,
      (∀ r ∈ acc, r.start < r.stop ∧ r.stop ≤ s.length) →
      acc.Pairwise (fun a b => b.stop ≤ a.start ∨ a.stop ≤ b.start) →
      (∀ r ∈ collectReplacements s excl mods ms acc, r.start < r.stop ∧ r.stop ≤ s.length) ∧
        (collectReplacements s excl mods ms acc).Pairwise
          (fun a b => b.stop ≤ a.start ∨ a.stop ≤ b.start) := by
  induction ms with
  | nil => intro acc hval hpair; exact ⟨hval, hpair⟩
  | cons m ms ih =>
    intro acc hval hpair
    have hm := hms m (List.mem_cons_self m ms)
    have hms' : ∀ m' ∈ ms, 1 ≤ m'.raw.length ∧ m'.index + m'.raw.length ≤ s.length :=
      fun m' hm' => hms m' (List.mem_cons_of_mem m hm')
    have hstep : collectReplacements s excl mods (m :: ms) acc =
        collectReplacements s excl mods ms
          (if !(keepMatch s excl m) then acc
           else if !(mods.contains m.moduleName) then acc
           else if acc.any (overlapsRepl m.index m.raw.length) then acc
           else acc ++ [⟨m.index, m.index + m.raw.length,
             replText m.rtype m.quote m.moduleName⟩]) := rfl
    rw [hstep]
    by_cases h1 : keepMatch s excl m
    · by_cases h2 : mods.contains m.moduleName
      · by_cases h3 : acc.any (overlapsRepl m.index m.raw.length)
        · simp only [h1, h2, h3, Bool.not_true, Bool.false_eq_true, if_false, if_true]
          exact ih hms' acc hval hpair
        · simp only [h1, h2, Bool.not_true, Bool.false_eq_true, if_false]
          rw [if_neg (by simp [h3])]
          refine ih hms' _ ?_ ?_
          · intro r hr
            rcases List.mem_append.mp hr with hr1 | hr1
            · exact hval r hr1
            · obtain rfl := List.mem_singleton.mp hr1
              dsimp only
              omega
          · rw [List.pairwise_append]
            refine ⟨hpair, List.pairwise_singleton _ _, ?_⟩
            intro a ha b hb
            obtain rfl := List.mem_singleton.mp hb
            have hov : overlapsRepl m.index m.raw.length a = false := by
              rcases hacc : overlapsRepl m.index m.raw.length a with _ | _
              · rfl
              · exact absurd (List.any_eq_true.mpr ⟨a, ha, hacc⟩) h3
            dsimp only
            rcases overlapsRepl_false_disjoint hov with hd | hd
            · right; omega
            · left; omega
      · simp only [h1, h2, Bool.not_true, Bool.not_false, Bool.false_eq_true, if_false, if_true]
        exact ih hms' acc hval hpair
    · rw [if_pos (by simp [h1])]
      exact ih hms' acc hval hpair

/-- Every replacement the set-based rewriter collects comes from a kept
match whose module name is in the bundled set, with the exact interval and
replacement text of that match. -/
theorem mem_collectReplacements {s : Str} {excl : List Span} {mods : List Str} :
    ∀ {ms : List RequireMatch} {acc : List Replacement} {r : Replacement},
      r ∈ collectReplacements s excl mods ms acc →
      r ∈ acc ∨ ∃ m ∈ ms, keepMatch s excl m = true ∧ mods.contains m.moduleName = true ∧
        r = ⟨m.index, m.index + m.raw.length, replText m.rtype m.quote m.moduleName⟩ := by
  intro ms
  induction ms with
  | nil => intro acc r hr; exact Or.inl hr
  | cons m ms ih =>
    intro acc r hr
    have hstep : collectReplacements s excl mods (m :: ms) acc =
        collectReplacements s excl mods ms
          (if !(keepMatch s excl m) then acc
           else if !(mods.contains m.moduleName) then acc
           else if acc.any (overlapsRepl m.index m.raw.length) then acc
           else acc ++ [⟨m.index, m.index + m.raw.length,
             replText m.rtype m.quote m.moduleName⟩]) := rfl
    rw [hstep] at hr
    rcases ih hr with h1 | h1
    · by_cases hk : keepMatch s excl m
      · by_cases hc : mods.contains m.moduleName
        · by_cases ho : acc.any (overlapsRepl m.index m.raw.length)
          · simp only [hk, hc, ho, Bool.not_true, Bool.false_eq_true, if_false, if_true] at h1
            exact Or.inl h1
          · simp only [hk, hc, Bool.not_true, Bool.false_eq_true, if_false] at h1
            rw [if_neg (by simp [ho])] at h1
            rcases List.mem_append.mp h1 with h2 | h2
            · exact Or.inl h2
            · obtain rfl := List.mem_singleton.mp h2
              exact Or.inr ⟨m, List.mem_cons_self m ms, hk, hc, rfl⟩
        · simp only [hk, hc, Bool.not_true, Bool.not_false, Bool.false_eq_true, if_false,
            if_true] at h1
          exact Or.inl h1
      · rw [if_pos (by simp [hk])] at h1
        exact Or.inl h1
    · obtain ⟨m', hm', hrest⟩ := h1
      exact Or.inr ⟨m', List.mem_cons_of_mem m hm', hrest⟩

/-- Every replacement the mapped rewriter collects comes from a kept match
whose module name has a mapping, carrying the mapped moduleId in the
replacement text. -/
theorem mem_collectReplacementsMapped {s : Str} {excl : List Span}
    {mp : List (Str × Str)} :
    ∀ {ms : List RequireMatch} {acc : List Replacement} {r : Replacement},
      r ∈ collectReplacementsMapped s excl mp ms acc →
      r ∈ acc ∨ ∃ m ∈ ms, keepMatch s excl m = true ∧
        ∃ mappedId, lookupAssoc mp m.moduleName = some mappedId ∧
          r = ⟨m.index, m.index + m.raw.length, replText m.rtype m.quote mappedId⟩ := by
  intro ms
  induction ms with
  | nil => intro acc r hr; exact Or.inl hr
  | cons m ms ih =>
    intro acc r hr
    have hstep : collectReplacementsMapped s excl mp (m :: ms) acc =
        collectReplacementsMapped s excl mp ms
          (if !(keepMatch s excl m) then acc
           else
             match lookupAssoc mp m.moduleName with
             | none => acc
             | some mappedId =>
               if acc.any (overlapsRepl m.index m.raw.length) then acc
               else acc ++ [⟨m.index, m.index + m.raw.length,
                 replText m.rtype m.quote mappedId⟩]) := rfl
    rw [hstep] at hr
    rcases ih hr with h1 | h1
    · by_cases hk : keepMatch s excl m
      · rcases hl : lookupAssoc mp m.moduleName with _ | mappedId
        · rw [if_neg (by simp [hk])] at h1
          simp only [hl] at h1
          exact Or.inl h1
        · rw [if_neg (by simp [hk])] at h1
          simp only [hl] at h1
          by_cases ho : acc.any (overlapsRepl m.index m.raw.length)
          · rw [if_pos ho] at h1
            exact Or.inl h1
          · rw [if_neg ho] at h1
            rcases List.mem_append.mp h1 with h2 | h2
            · exact Or.inl h2
            · obtain rfl := List.mem_singleton.mp h2
              exact Or.inr ⟨m, List.mem_cons_self m ms, hk, mappedId, hl, rfl⟩
      · rw [if_pos (by simp [hk])] at h1
        exact Or.inl h1
    · obtain ⟨m', hm', hrest⟩ := h1
      exact Or.inr ⟨m', List.mem_cons_of_mem m hm', hrest⟩

/-- Collection for the mapped rewriter keeps intervals nonempty, inside
the buffer and pairwise disjoint. -/
theorem collectReplacementsMapped_props {s : Str} {excl : List Span}
    {mp : List (Str × Str)} {ms : List RequireMatch}
    (hms : ∀ m ∈ ms, 1 ≤ m.raw.length ∧ m.index + m.raw.length ≤ s.length) :
    ∀ acc : List Replacement,
      (∀ r ∈ acc, r.start < r.stop ∧ r.stop ≤ s.length) →
      acc.Pairwise (fun a b => b.stop ≤ a.start ∨ a.stop ≤ b.start) →
      (∀ r ∈ collectReplacementsMapped s excl mp ms acc,
          r.start < r.stop ∧ r.stop ≤ s.length) ∧
        (collectReplacementsMapped s excl mp ms acc).Pairwise
          (fun a b => b.stop ≤ a.start ∨ a.stop ≤ b.start) := by
  induction ms with
  | nil => intro acc hval hpair; exact ⟨hval, hpair⟩
  | cons m ms ih =>
    intro acc hval hpair
    have hm := hms m (List.mem_cons_self m ms)
    have hms' : ∀ m' ∈ ms, 1 ≤ m'.raw.length ∧ m'.index + m'.raw.length ≤ s.length :=
      fun m' hm' => hms m' (List.mem_cons_of_mem m hm')
    have hstep : collectReplacementsMapped s excl mp (m :: ms) acc =
        collectReplacementsMapped s excl mp ms
          (if !(keepMatch s excl m) then acc
           else
             match lookupAssoc mp m.moduleName with
             | none => acc
             | some mappedId =>
               if acc.any (overlapsRepl m.index m.raw.length) then acc
               else acc ++ [⟨m.index, m.index + m.raw.length,
                 replText m.rtype m.quote mappedId⟩]) := rfl
    rw [hstep]
    by_cases h1 : keepMatch s excl m
    · rcases hl : lookupAssoc mp m.moduleName with _ | mappedId
      · rw [if_neg (by simp [h1])]
        simp only [hl]
        exact ih hms' acc hval hpair
      · rw [if_neg (by simp [h1])]
        simp only [hl]
        by_cases h3 : acc.any (overlapsRepl m.index m.raw.length)
        · rw [if_pos h3]
          exact ih hms' acc hval hpair
        · rw [if_neg h3]
          refine ih hms' _ ?_ ?_
          · intro r hr
            rcases List.mem_append.mp hr with hr1 | hr1
            · exact hval r hr1
            · obtain rfl := List.mem_singleton.mp hr1
              dsimp only
              omega
          · rw [List.pairwise_append]
            refine ⟨hpair, List.pairwise_singleton _ _, ?_⟩
            intro a ha b hb
            obtain rfl := List.mem_singleton.mp hb
            have hov : overlapsRepl m.index m.raw.length a = false := by
              rcases hacc : overlapsRepl m.index m.raw.length a with _ | _
              · rfl
              · exact absurd (List.any_eq_true.mpr ⟨a, ha, hacc⟩) h3
            dsimp only
            rcases overlapsRepl_false_disjoint hov with hd | hd
            · right; omega
            · left; omega
    · rw [if_pos (by simp [h1])]
      exact ih hms' acc hval hpair

/-- The descending insertion is a permutation of consing. -/
theorem insertByStartDesc_perm (r : Replacement) (l : List Replacement) :
    (insertByStartDesc r l).Perm (r :: l) := by
  induction l with
  | nil => exact List.Perm.refl _
  | cons x xs ih =>
    simp only [insertByStartDesc]
    split
    · exact List.Perm.refl _
    · exact (List.Perm.cons x ih).trans (List.Perm.swap r x xs)

/-- The descending sort permutes its input. -/
theorem sortByStartDesc_perm (l : List Replacement) : (sortByStartDesc l).Perm l := by
  induction l with
  | nil => exact List.Perm.refl _
  | cons x xs ih =>
    exact (insertByStartDesc_perm x (sortByStartDesc xs)).trans (List.Perm.cons x ih)

/-- The descending insertion keeps the start offsets descending. -/
theorem insertByStartDesc_sorted (r : Replacement) {l : List Replacement}
    (h : l.Pairwise (fun a b => b.start ≤ a.start)) :
    (insertByStartDesc r l).Pairwise (fun a b => b.start ≤ a.start) := by
  induction l with
  | nil => simp [insertByStartDesc]
  | cons x xs ih =>
    rcases List.pairwise_cons.mp h with ⟨hx, hxs⟩
    simp only [insertByStartDesc]
    split
    · rename_i hlt
      refine List.pairwise_cons.mpr ⟨?_, h⟩
      intro b hb
      rcases List.mem_cons.mp hb with hb1 | hb1
      · subst hb1
        omega
      · have := hx b hb1
        omega
    · rename_i hnlt
      refine List.pairwise_cons.mpr ⟨?_, ih hxs⟩
      intro b hb
      rcases List.mem_cons.mp ((insertByStartDesc_perm r xs).mem_iff.mp hb) with hb1 | hb1
      · subst hb1
        omega
      · exact hx b hb1

/-- The descending sort sorts by descending start offset. -/
theorem sortByStartDesc_sorted (l : List Replacement) :
    (sortByStartDesc l).Pairwise (fun a b => b.start ≤ a.start) := by
  induction l with
  | nil => simp [sortByStartDesc]
  | cons x xs ih => exact insertByStartDesc_sorted x ih

/-- Equal prefixes propagate to shorter takes. -/
theorem take_eq_of_take_eq {s t : Str} {N k : Nat} (h : s.take N = t.take N) (hk : k ≤ N) :
    s.take k = t.take k := by
  have h1 : s.take k = (s.take N).take k := by
    rw [List.take_take, Nat.min_eq_left hk]
  have h2 : t.take k = (t.take N).take k := by
    rw [List.take_take, Nat.min_eq_left hk]
  rw [h1, h2, h]

/-- The spliced buffer keeps the prefix before the replacement start. -/
theorem spliceOne_take (s : Str) (r : Replacement) (hrs : r.start ≤ s.length) :
    (spliceOne s r).take r.start = s.take r.start := by
  show (s.take r.start ++ r.repl ++ s.drop r.stop).take r.start = s.take r.start
  rw [List.append_assoc]
  have hlen : (s.take r.start).length = r.start := by
    rw [List.length_take]
    omega
  have h2 := List.take_left (s.take r.start) (r.repl ++ s.drop r.stop)
  rw [hlen] at h2
  exact h2

/-- A window of a buffer expressed through take and drop. -/
theorem drop_take_window (s : Str) (pos k : Nat) :
    (s.drop pos).take k = (s.take (pos + k)).drop pos := by
  rw [List.drop_take (pos + k) pos s]
  congr 1
  omega

/-- Splicing one replacement turns the trailing segment list of the
original buffer into the segment list over the spliced buffer. -/
theorem segConcat_spliced (s : Str) (r : Replacement) (hr : r.start < r.stop)
    (hrs : r.stop ≤ s.length) :
    ∀ (A : List Replacement) (pos : Nat), pos ≤ r.start →
      (∀ a ∈ A, a.start < a.stop ∧ a.stop ≤ r.start) →
      segConcat s pos (A ++ [r]) = segConcat (spliceOne s r) pos A := by
  intro A
  induction A with
  | nil =>
    intro pos hpos _
    show (s.drop pos).take (r.start - pos) ++ r.repl ++ segConcat s r.stop [] =
      (spliceOne s r).drop pos
    show (s.drop pos).take (r.start - pos) ++ r.repl ++ s.drop r.stop =
      (s.take r.start ++ r.repl ++ s.drop r.stop).drop pos
    rw [List.append_assoc (s.take r.start) r.repl (s.drop r.stop),
      List.drop_append_of_le_length
        (show pos ≤ (s.take r.start).length by rw [List.length_take]; omega),
      List.drop_take r.start pos s,
      List.append_assoc]
  | cons a A ih =>
    intro pos hpos hA
    obtain ⟨ha1, ha2⟩ := hA a (List.mem_cons_self a A)
    have hArest : ∀ b ∈ A, b.start < b.stop ∧ b.stop ≤ r.start :=
      fun b hb => hA b (List.mem_cons_of_mem a hb)
    show (s.drop pos).take (a.start - pos) ++ a.repl ++ segConcat s a.stop (A ++ [r]) =
      ((spliceOne s r).drop pos).take (a.start - pos) ++ a.repl ++
        segConcat (spliceOne s r) a.stop A
    have hpre : ((spliceOne s r).drop pos).take (a.start - pos) =
        (s.drop pos).take (a.start - pos) := by
      by_cases hpa : pos ≤ a.start
      · rw [drop_take_window, drop_take_window]
        have hwin : pos + (a.start - pos) = a.start := by omega
        rw [hwin]
        have htk : (spliceOne s r).take a.start = s.take a.start :=
          take_eq_of_take_eq (spliceOne_take s r (by omega)) (by omega)
        rw [htk]
      · have h0 : a.start - pos = 0 := by omega
        rw [h0, List.take_zero, List.take_zero]
    rw [hpre, ih a.stop (by omega) hArest]

/-- Applying the sorted replacements back to front equals the
ascending-order segment concatenation of the original buffer. -/
theorem foldl_splice_eq (D : List Replacement) :
    ∀ s : Str, (∀ r ∈ D, r.start < r.stop ∧ r.stop ≤ s.length) →
      D.Pairwise (fun a b => b.stop ≤ a.start) →
      D.foldl spliceOne s = segConcat s 0 D.reverse := by
  induction D with
  | nil =>
    intro s _ _
    show s = s.drop 0
    rw [List.drop_zero]
  | cons r D ih =>
    intro s hval hord
    rcases List.pairwise_cons.mp hord with ⟨hr, hord'⟩
    obtain ⟨hr1, hr2⟩ := hval r (List.mem_cons_self r D)
    have hval' : ∀ d ∈ D, d.start < d.stop ∧ d.stop ≤ (spliceOne s r).length := by
      intro d hd
      obtain ⟨hd1, hd2⟩ := hval d (List.mem_cons_of_mem r hd)
      have hds := hr d hd
      have hlen : r.start ≤ (spliceOne s r).length := by
        show r.start ≤ (s.take r.start ++ r.repl ++ s.drop r.stop).length
        rw [List.length_append, List.length_append, List.length_take]
        omega
      exact ⟨hd1, by omega⟩
    have hstep : (r :: D).foldl spliceOne s = D.foldl spliceOne (spliceOne s r) := rfl
    rw [hstep, ih (spliceOne s r) hval' hord']
    rw [List.reverse_cons]
    rw [segConcat_spliced s r hr1 hr2 D.reverse 0 (Nat.zero_le _) ?_]
    intro a ha
    rw [List.mem_reverse] at ha
    obtain ⟨ha1, _⟩ := hval a (List.mem_cons_of_mem r ha)
    exact ⟨ha1, hr a ha⟩

/-- Scan bounds for the three patterns in one statement. -/
theorem scans_bounded (s : Str) :
    (∀ m ∈ findPatternMatches matchStandardAt s RType.standard,
        1 ≤ m.raw.length ∧ m.index + m.raw.length ≤ s.length) ∧
      (∀ m ∈ findPatternMatches matchCompactAt s RType.compact,
        1 ≤ m.raw.length ∧ m.index + m.raw.length ≤ s.length) ∧
      (∀ m ∈ findPatternMatches matchPcallAt s RType.pcall,
        1 ≤ m.raw.length ∧ m.index + m.raw.length ≤ s.length) :=
  ⟨fun _ hm => mem_scan_raw_bounds (fun _ _ h => matchStandardAt_len_pos h) hm,
    fun _ hm => mem_scan_raw_bounds (fun _ _ h => matchCompactAt_len_pos h) hm,
    fun _ hm => mem_scan_raw_bounds (fun _ _ h => matchPcallAt_len_pos h) hm⟩

/-- The collected replacements of the set-based rewriter have nonempty,
in-buffer, pairwise disjoint intervals. -/
theorem transformReplacements_props (s : Str) (mods : List Str) :
    (∀ r ∈ transformReplacements s mods, r.start < r.stop ∧ r.stop ≤ s.length) ∧
      (transformReplacements s mods).Pairwise
        (fun a b => b.stop ≤ a.start ∨ a.stop ≤ b.start) := by
  obtain ⟨h1, h2, h3⟩ := scans_bounded s
  have hin := @collectReplacements_props s (excludedRanges s) mods _ h1 []
    (by intro r hr; cases hr) List.Pairwise.nil
  have hmid := @collectReplacements_props s (excludedRanges s) mods _ h2 _
    hin.1 hin.2
  exact @collectReplacements_props s (excludedRanges s) mods _ h3 _
    hmid.1 hmid.2

/-- The collected replacements of the mapped rewriter have nonempty,
in-buffer, pairwise disjoint intervals. -/
theorem transformReplacementsMapped_props (s : Str) (mp : List (Str × Str)) :
    (∀ r ∈ transformReplacementsMapped s mp, r.start < r.stop ∧ r.stop ≤ s.length) ∧
      (transformReplacementsMapped s mp).Pairwise
        (fun a b => b.stop ≤ a.start ∨ a.stop ≤ b.start) := by
  obtain ⟨h1, h2, h3⟩ := scans_bounded s
  have hin := @collectReplacementsMapped_props s (excludedRanges s) mp _ h1 []
    (by intro r hr; cases hr) List.Pairwise.nil
  have hmid := @collectReplacementsMapped_props s (excludedRanges s) mp _ h2 _
    hin.1 hin.2
  exact @collectReplacementsMapped_props s (excludedRanges s) mp _ h3 _
    hmid.1 hmid.2

/-- A kept match of any of the three scans is a collection candidate. -/
theorem scan_keep_mem_candidates {s : Str} {m : RequireMatch}
    (hk : keepMatch s (excludedRanges s) m = true)
    (hm : m ∈ findPatternMatches matchStandardAt s RType.standard ∨
      m ∈ findPatternMatches matchCompactAt s RType.compact ∨
      m ∈ findPatternMatches matchPcallAt s RType.pcall) :
    m ∈ allRequireCandidates s := by
  show m ∈
    (((findPatternMatches matchStandardAt s RType.standard).filter
        (keepMatch s (excludedRanges s))) ++
      ((findPatternMatches matchCompactAt s RType.compact).filter
          (keepMatch s (excludedRanges s)))) ++
      ((findPatternMatches matchPcallAt s RType.pcall).filter
        (keepMatch s (excludedRanges s)))
  rcases hm with h | h | h
  · exact List.mem_append.mpr (Or.inl (List.mem_append.mpr
      (Or.inl (List.mem_filter.mpr ⟨h, hk⟩))))
  · exact List.mem_append.mpr (Or.inl (List.mem_append.mpr
      (Or.inr (List.mem_filter.mpr ⟨h, hk⟩))))
  · exact List.mem_append.mpr (Or.inr (List.mem_filter.mpr ⟨h, hk⟩))

/-- Every replacement of the set-based rewriter arises from a candidate
match whose name is bundled. -/
theorem mem_transformReplacements {s : Str} {mods : List Str} {r : Replacement}
    (hr : r ∈ transformReplacements s mods) :
    ∃ m ∈ allRequireCandidates s, mods.contains m.moduleName = true ∧
      r = ⟨m.index, m.index + m.raw.length, replText m.rtype m.quote m.moduleName⟩ := by
  unfold transformReplacements at hr
  rcases mem_collectReplacements hr with h1 | h1
  · rcases mem_collectReplacements h1 with h2 | h2
    · rcases mem_collectReplacements h2 with h3 | h3
      · cases h3
      · obtain ⟨m, hm, hk, hc, hrr⟩ := h3
        exact ⟨m, scan_keep_mem_candidates hk (Or.inl hm), hc, hrr⟩
    · obtain ⟨m, hm, hk, hc, hrr⟩ := h2
      exact ⟨m, scan_keep_mem_candidates hk (Or.inr (Or.inl hm)), hc, hrr⟩
  · obtain ⟨m, hm, hk, hc, hrr⟩ := h1
    exact ⟨m, scan_keep_mem_candidates hk (Or.inr (Or.inr hm)), hc, hrr⟩

/-- Every replacement of the mapped rewriter arises from a candidate match
whose name has a mapping, replaced by the mapped id. -/
theorem mem_transformReplacementsMapped {s : Str} {mp : List (Str × Str)} {r : Replacement}
    (hr : r ∈ transformReplacementsMapped s mp) :
    ∃ m ∈ allRequireCandidates s, ∃ mappedId,
      lookupAssoc mp m.moduleName = some mappedId ∧
      r = ⟨m.index, m.index + m.raw.length, replText m.rtype m.quote mappedId⟩ := by
  unfold transformReplacementsMapped at hr
  rcases mem_collectReplacementsMapped hr with h1 | h1
  · rcases mem_collectReplacementsMapped h1 with h2 | h2
    · rcases mem_collectReplacementsMapped h2 with h3 | h3
      · cases h3
      · obtain ⟨m, hm, hk, mid, hl, hrr⟩ := h3
        exact ⟨m, scan_keep_mem_candidates hk (Or.inl hm), mid, hl, hrr⟩
    · obtain ⟨m, hm, hk, mid, hl, hrr⟩ := h2
      exact ⟨m, scan_keep_mem_candidates hk (Or.inr (Or.inl hm)), mid, hl, hrr⟩
  · obtain ⟨m, hm, hk, mid, hl, hrr⟩ := h1
    exact ⟨m, scan_keep_mem_candidates hk (Or.inr (Or.inr hm)), mid, hl, hrr⟩

/-- The splice fold of a sorted valid disjoint replacement list equals the
segment concatenation; specialized to a rewriter's replacement list. -/
theorem transform_segments_of_props {s : Str} {rs : List Replacement}
    (hval : ∀ r ∈ rs, r.start < r.stop ∧ r.stop ≤ s.length)
    (hpair : rs.Pairwise (fun a b => b.stop ≤ a.start ∨ a.stop ≤ b.start)) :
    (sortByStartDesc rs).foldl spliceOne s =
      segConcat s 0 (sortByStartDesc rs).reverse := by
  have hperm := sortByStartDesc_perm rs
  have hval' : ∀ r ∈ sortByStartDesc rs, r.start < r.stop ∧ r.stop ≤ s.length :=
    fun r hr => hval r (hperm.mem_iff.mp hr)
  have hpair' : (sortByStartDesc rs).Pairwise
      (fun a b => b.stop ≤ a.start ∨ a.stop ≤ b.start) :=
    (hperm.pairwise_iff (fun h => h.symm)).mpr hpair
  have hdesc := sortByStartDesc_sorted rs
  have hord : (sortByStartDesc rs).Pairwise (fun a b => b.stop ≤ a.start) := by
    have hand := List.Pairwise.and hdesc hpair'
    refine hand.imp_of_mem ?_
    intro a b ha hb hab
    obtain ⟨hab1, hab2⟩ := hab
    obtain ⟨ha1, _⟩ := hval' a ha
    obtain ⟨hb1, _⟩ := hval' b hb
    rcases hab2 with h | h
    · exact h
    · omega
  exact foldl_splice_eq (sortByStartDesc rs) s hval' hord

/-- Claim C10: the set-based rewriter is a pure splice — its output is the
segment concatenation that keeps every byte outside the replaced require
sites unchanged and in order; every replacement comes from a matched site
whose name is in the bundled set; and when no matched site's name is in
the set the output is the input itself. -/
theorem C10_rewriter_frame :
    (∀ (s : Str) (mods : List Str),
        transformRequiresToLoad s mods =
          segConcat s 0 (sortByStartDesc (transformReplacements s mods)).reverse) ∧
      (∀ (s : Str) (mods : List Str) (r : Replacement),
        r ∈ transformReplacements s mods →
        ∃ m ∈ allRequireCandidates s, mods.contains m.moduleName = true ∧
          r = ⟨m.index, m.index + m.raw.length, replText m.rtype m.quote m.moduleName⟩) ∧
      (∀ (s : Str) (mods : List Str),
        (∀ m ∈ allRequireCandidates s, mods.contains m.moduleName = false) →
        transformRequiresToLoad s mods = s) := by
  have hempty : ∀ (s : Str) (mods : List Str),
      (∀ m ∈ allRequireCandidates s, mods.contains m.moduleName = false) →
      transformReplacements s mods = [] := by
    intro s mods hnone
    rcases hrs : transformReplacements s mods with _ | ⟨r, rest⟩
    · rfl
    · exfalso
      have hr : r ∈ transformReplacements s mods := by
        rw [hrs]; exact List.mem_cons_self r rest
      obtain ⟨m, hm, hc, -⟩ := mem_transformReplacements hr
      rw [hnone m hm] at hc
      cases hc
  have hseg : ∀ (s : Str) (mods : List Str),
      transformRequiresToLoad s mods =
        segConcat s 0 (sortByStartDesc (transformReplacements s mods)).reverse := by
    intro s mods
    obtain ⟨hval, hpair⟩ := transformReplacements_props s mods
    by_cases hE : (transformReplacements s mods).isEmpty
    · have h0 : transformReplacements s mods = [] := by
        rcases hrs : transformReplacements s mods with _ | _
        · rfl
        · rw [hrs] at hE; cases hE
      show (if (transformReplacements s mods).isEmpty then s
        else (sortByStartDesc (transformReplacements s mods)).foldl spliceOne s) = _
      rw [h0]
      show s = segConcat s 0 ((sortByStartDesc []).reverse)
      show s = segConcat s 0 []
      show s = s.drop 0
      rw [List.drop_zero]
    · show (if (transformReplacements s mods).isEmpty then s
        else (sortByStartDesc (transformReplacements s mods)).foldl spliceOne s) = _
      rw [if_neg hE]
      exact transform_segments_of_props hval hpair
  refine ⟨hseg, fun s mods r hr => mem_transformReplacements hr, ?_⟩
  intro s mods hnone
  show (if (transformReplacements s mods).isEmpty then s
    else (sortByStartDesc (transformReplacements s mods)).foldl spliceOne s) = s
  rw [hempty s mods hnone]
  rfl

/-- Witness for claim C10: rewriting the buffer whose only require call
sits inside a string literal leaves the buffer untouched. -/
theorem C10_witness :
    transformRequiresToLoad exInString [("fake".toList)] = exInString :=
  C10_rewriter_frame.2.2 exInString [("fake".toList)] (by decide)

/-- Unfolding of one step of the mapped replacement collection. -/
theorem collectMapped_cons (s : Str) (excl : List Span) (mp : List (Str × Str))
    (m : RequireMatch) (ms : List RequireMatch) (acc : List Replacement) :
    collectReplacementsMapped s excl mp (m :: ms) acc =
      collectReplacementsMapped s excl mp ms
        (if !(keepMatch s excl m) then acc
         else
           match lookupAssoc mp m.moduleName with
           | none => acc
           | some mappedId =>
             if acc.any (overlapsRepl m.index m.raw.length) then acc
             else acc ++ [⟨m.index, m.index + m.raw.length,
               replText m.rtype m.quote mappedId⟩]) := rfl

/-- The mapped replacement collection only appends to its accumulator. -/
theorem collectMapped_extends (s : Str) (excl : List Span) (mp : List (Str × Str)) :
    ∀ (ms : List RequireMatch) (acc : List Replacement),
      ∃ d, collectReplacementsMapped s excl mp ms acc = acc ++ d := by
  intro ms
  induction ms with
  | nil =>
    intro acc
    exact ⟨[], (List.append_nil _).symm⟩
  | cons m ms ih =>
    intro acc
    rw [collectMapped_cons]
    by_cases hk : keepMatch s excl m = true
    · rw [if_neg (show ¬((!(keepMatch s excl m)) = true) from fun hc => by
        rw [hk] at hc; exact Bool.noConfusion hc)]
      rcases hl : lookupAssoc mp m.moduleName with _ | mid
      · simp only [hl]
        exact ih acc
      · simp only [hl]
        by_cases hov : acc.any (overlapsRepl m.index m.raw.length) = true
        · rw [if_pos hov]
          exact ih acc
        · rw [if_neg hov]
          obtain ⟨d, hd⟩ := ih (acc ++ [⟨m.index, m.index + m.raw.length,
            replText m.rtype m.quote mid⟩])
          exact ⟨[⟨m.index, m.index + m.raw.length,
            replText m.rtype m.quote mid⟩] ++ d, by rw [hd, List.append_assoc]⟩
    · have hkf : (!(keepMatch s excl m)) = true := by
        cases hb : keepMatch s excl m
        · rfl
        · exact absurd hb hk
      rw [if_pos hkf]
      exact ih acc

/-- A kept, mapped match walked by the collection ends covered: its own
replacement is collected, or an overlapping replacement already was. -/
theorem collectMapped_covers (s : Str) (excl : List Span) (mp : List (Str × Str)) :
    ∀ (ms : List RequireMatch) (acc : List Replacement) (m : RequireMatch) (mid : Str),
      m ∈ ms → keepMatch s excl m = true → lookupAssoc mp m.moduleName = some mid →
      (⟨m.index, m.index + m.raw.length, replText m.rtype m.quote mid⟩ : Replacement) ∈
          collectReplacementsMapped s excl mp ms acc ∨
        ∃ r ∈ collectReplacementsMapped s excl mp ms acc,
          overlapsRepl m.index m.raw.length r = true := by
  intro ms
  induction ms with
  | nil =>
    intro acc m mid hm hk hl
    exact absurd hm (List.not_mem_nil m)
  | cons m0 ms ih =>
    intro acc m mid hm hk hl
    rw [collectMapped_cons]
    rcases List.mem_cons.mp hm with he | ht
    · rw [← he]
      rw [if_neg (show ¬((!(keepMatch s excl m)) = true) from fun hc => by
        rw [hk] at hc; exact Bool.noConfusion hc)]
      simp only [hl]
      by_cases hov : acc.any (overlapsRepl m.index m.raw.length) = true
      · rw [if_pos hov]
        obtain ⟨r, hr, hro⟩ := List.any_eq_true.mp hov
        obtain ⟨d, hd⟩ := collectMapped_extends s excl mp ms acc
        right
        refine ⟨r, ?_, hro⟩
        rw [hd]
        exact List.mem_append.mpr (Or.inl hr)
      · rw [if_neg hov]
        obtain ⟨d, hd⟩ := collectMapped_extends s excl mp ms
          (acc ++ [⟨m.index, m.index + m.raw.length, replText m.rtype m.quote mid⟩])
        left
        rw [hd]
        exact List.mem_append.mpr (Or.inl (List.mem_append.mpr
          (Or.inr (List.mem_singleton.mpr rfl))))
    · exact ih _ m mid ht hk hl

/-- Every candidate site whose moduleName has a mapping is covered by the
mapped rewriter's replacement list: its own load-call replacement is in
the list, or an overlapping replacement is. -/
theorem mapped_site_covered {s : Str} {mp : List (Str × Str)} {m : RequireMatch}
    (hm : m ∈ allRequireCandidates s) {mid : Str}
    (hl : lookupAssoc mp m.moduleName = some mid) :
    (⟨m.index, m.index + m.raw.length, replText m.rtype m.quote mid⟩ : Replacement) ∈
        transformReplacementsMapped s mp ∨
      ∃ r ∈ transformReplacementsMapped s mp,
        overlapsRepl m.index m.raw.length r = true := by
  have hk := keep_of_mem_allRequireCandidates hm
  have hm2 : m ∈
      (((findPatternMatches matchStandardAt s RType.standard).filter
          (keepMatch s (excludedRanges s))) ++
        ((findPatternMatches matchCompactAt s RType.compact).filter
            (keepMatch s (excludedRanges s)))) ++
        ((findPatternMatches matchPcallAt s RType.pcall).filter
          (keepMatch s (excludedRanges s))) := hm
  have htr : transformReplacementsMapped s mp =
      collectReplacementsMapped s (excludedRanges s) mp
        (findPatternMatches matchPcallAt s RType.pcall)
        (collectReplacementsMapped s (excludedRanges s) mp
          (findPatternMatches matchCompactAt s RType.compact)
          (collectReplacementsMapped s (excludedRanges s) mp
            (findPatternMatches matchStandardAt s RType.standard) [])) := rfl
  rw [htr]
  obtain ⟨d3, hd3⟩ := collectMapped_extends s (excludedRanges s) mp
    (findPatternMatches matchPcallAt s RType.pcall)
    (collectReplacementsMapped s (excludedRanges s) mp
      (findPatternMatches matchCompactAt s RType.compact)
      (collectReplacementsMapped s (excludedRanges s) mp
        (findPatternMatches matchStandardAt s RType.standard) []))
  rcases List.mem_append.mp hm2 with h1 | h1
  · rcases List.mem_append.mp h1 with h2 | h2
    · obtain ⟨hscan, -⟩ := List.mem_filter.mp h2
      obtain ⟨d2, hd2⟩ := collectMapped_extends s (excludedRanges s) mp
        (findPatternMatches matchCompactAt s RType.compact)
        (collectReplacementsMapped s (excludedRanges s) mp
          (findPatternMatches matchStandardAt s RType.standard) [])
      rcases collectMapped_covers s (excludedRanges s) mp
          (findPatternMatches matchStandardAt s RType.standard) [] m mid hscan hk hl with
        hc | ⟨r, hr, hro⟩
      · left
        rw [hd3, hd2]
        exact List.mem_append.mpr (Or.inl (List.mem_append.mpr (Or.inl hc)))
      · right
        refine ⟨r, ?_, hro⟩
        rw [hd3, hd2]
        exact List.mem_append.mpr (Or.inl (List.mem_append.mpr (Or.inl hr)))
    · obtain ⟨hscan, -⟩ := List.mem_filter.mp h2
      rcases collectMapped_covers s (excludedRanges s) mp
          (findPatternMatches matchCompactAt s RType.compact)
          (collectReplacementsMapped s (excludedRanges s) mp
            (findPatternMatches matchStandardAt s RType.standard) []) m mid hscan hk hl with
        hc | ⟨r, hr, hro⟩
      · left
        rw [hd3]
        exact List.mem_append.mpr (Or.inl hc)
      · right
        refine ⟨r, ?_, hro⟩
        rw [hd3]
        exact List.mem_append.mpr (Or.inl hr)
  · obtain ⟨hscan, -⟩ := List.mem_filter.mp h1
    exact collectMapped_covers s (excludedRanges s) mp
      (findPatternMatches matchPcallAt s RType.pcall)
      (collectReplacementsMapped s (excludedRanges s) mp
        (findPatternMatches matchCompactAt s RType.compact)
        (collectReplacementsMapped s (excludedRanges s) mp
          (findPatternMatches matchStandardAt s RType.standard) [])) m mid hscan hk hl

/-- Claim C3 (rewriter over the mapping from raw import literal to bundled
moduleId, modelled from the spec): the output is the segment concatenation
that keeps all bytes outside the replaced sites; every replacement comes
from a matched site whose moduleName is a key of the mapping, carries the
mapped moduleId between the site's original quote characters, and
standard and compact sites receive exactly a load-call; conversely, every
matched site whose moduleName has a mapping is actually replaced — its
load-call replacement is in the applied replacement list, unless an
earlier replacement already overlaps the site; and a buffer none of whose
matched sites are mapped is returned unchanged. -/
theorem C3_mapped_rewriter :
    (∀ (s : Str) (mp : List (Str × Str)),
        transformRequiresToLoadMapped s mp =
          segConcat s 0 (sortByStartDesc (transformReplacementsMapped s mp)).reverse) ∧
      (∀ (s : Str) (mp : List (Str × Str)) (r : Replacement),
        r ∈ transformReplacementsMapped s mp →
        ∃ m ∈ allRequireCandidates s, ∃ mappedId,
          lookupAssoc mp m.moduleName = some mappedId ∧
          r = ⟨m.index, m.index + m.raw.length, replText m.rtype m.quote mappedId⟩ ∧
          ((m.rtype = RType.standard ∨ m.rtype = RType.compact) →
            replText m.rtype m.quote mappedId =
              ("__load(".toList) ++ [m.quote] ++ mappedId ++ [m.quote] ++ [')'])) ∧
      (∀ (s : Str) (mp : List (Str × Str)) (m : RequireMatch),
        m ∈ allRequireCandidates s →
        ∀ mappedId, lookupAssoc mp m.moduleName = some mappedId →
        (⟨m.index, m.index + m.raw.length,
            replText m.rtype m.quote mappedId⟩ : Replacement) ∈
            transformReplacementsMapped s mp ∨
          ∃ r ∈ transformReplacementsMapped s mp,
            overlapsRepl m.index m.raw.length r = true) ∧
      (∀ (s : Str) (mp : List (Str × Str)),
        (∀ m ∈ allRequireCandidates s, lookupAssoc mp m.moduleName = none) →
        transformRequiresToLoadMapped s mp = s) := by
  have hrepl : ∀ (t : RType) (q : Char) (mid : Str),
      (t = RType.standard ∨ t = RType.compact) →
      replText t q mid = ("__load(".toList) ++ [q] ++ mid ++ [q] ++ [')'] := by
    intro t q mid ht
    rcases ht with h | h <;> subst h <;> rfl
  have hempty : ∀ (s : Str) (mp : List (Str × Str)),
      (∀ m ∈ allRequireCandidates s, lookupAssoc mp m.moduleName = none) →
      transformReplacementsMapped s mp = [] := by
    intro s mp hnone
    rcases hrs : transformReplacementsMapped s mp with _ | ⟨r, rest⟩
    · rfl
    · exfalso
      have hr : r ∈ transformReplacementsMapped s mp := by
        rw [hrs]; exact List.mem_cons_self r rest
      obtain ⟨m, hm, mid, hl, -⟩ := mem_transformReplacementsMapped hr
      rw [hnone m hm] at hl
      cases hl
  refine ⟨?_, ?_, ?_, ?_⟩
  · intro s mp
    obtain ⟨hval, hpair⟩ := transformReplacementsMapped_props s mp
    by_cases hE : (transformReplacementsMapped s mp).isEmpty
    · have h0 : transformReplacementsMapped s mp = [] := by
        rcases hrs : transformReplacementsMapped s mp with _ | _
        · rfl
        · rw [hrs] at hE; cases hE
      show (if (transformReplacementsMapped s mp).isEmpty then s
        else (sortByStartDesc (transformReplacementsMapped s mp)).foldl spliceOne s) = _
      rw [h0]
      show s = s.drop 0
      rw [List.drop_zero]
    · show (if (transformReplacementsMapped s mp).isEmpty then s
        else (sortByStartDesc (transformReplacementsMapped s mp)).foldl spliceOne s) = _
      rw [if_neg hE]
      exact transform_segments_of_props hval hpair
  · intro s mp r hr
    obtain ⟨m, hm, mid, hl, hrr⟩ := mem_transformReplacementsMapped hr
    exact ⟨m, hm, mid, hl, hrr, hrepl m.rtype m.quote mid⟩
  · intro s mp m hm mid hl
    exact mapped_site_covered hm hl
  · intro s mp hnone
    show (if (transformReplacementsMapped s mp).isEmpty then s
      else (sortByStartDesc (transformReplacementsMapped s mp)).foldl spliceOne s) = s
    rw [hempty s mp hnone]
    rfl

/-- Witness for claim C3: on the buffer holding one standard require of
the module x, with x mapped to y, the site is actually rewritten — its
load-call replacement is collected (no other replacement exists to
overlap it); and with an empty mapping the buffer is returned
unchanged. -/
theorem C3_witness :
    ((⟨0, 12, replText RType.standard '"' ("y".toList)⟩ : Replacement) ∈
        transformReplacementsMapped exPlainRequire [(("x".toList), ("y".toList))] ∨
      ∃ r ∈ transformReplacementsMapped exPlainRequire [(("x".toList), ("y".toList))],
        overlapsRepl 0 12 r = true) ∧
      transformRequiresToLoadMapped exPlainRequire [] = exPlainRequire :=
  ⟨C3_mapped_rewriter.2.2.1 exPlainRequire [(("x".toList), ("y".toList))] exPlainMatch
      (by decide) ("y".toList) (by decide),
    C3_mapped_rewriter.2.2.2 exPlainRequire [] (by decide)⟩

/-- Witness for the amended claim C8 at the concrete two-module graph. -/
theorem C8_witness :
    1 < (DuplicateAssignmentWarning.mk ("sampev.onChat".toList)
        [ExternalAssignment.mk ("lib.samp.events".toList) ("/src/f1.lua".toList) 2
          ("sampev".toList) ("sampev.onChat".toList),
         ExternalAssignment.mk ("lib.samp.events".toList) ("/src/f2.lua".toList) 2
          ("sampev".toList) ("sampev.onChat".toList)]).assignments.length :=
  (C8_duplicate_warning_iff_two_files.1 exLintGraph
    (DuplicateAssignmentWarning.mk ("sampev.onChat".toList)
      [ExternalAssignment.mk ("lib.samp.events".toList) ("/src/f1.lua".toList) 2
        ("sampev".toList) ("sampev.onChat".toList),
       ExternalAssignment.mk ("lib.samp.events".toList) ("/src/f2.lua".toList) 2
        ("sampev".toList) ("sampev.onChat".toList)]) (by decide)).1

-- -------------------------------------------------------------------
-- Index, topological-order and association-map lemmas for claim C1
-- -------------------------------------------------------------------

/-- idxOf ignores a right extension for present names. -/
theorem idxOf_append_of_mem {x : Str} {l : List Str} (t : List Str) (h : x ∈ l) :
    idxOf (l ++ t) x = idxOf l x := by
  induction l with
  | nil => cases h
  | cons y ys ih =>
    show idxOf (y :: (ys ++ t)) x = idxOf (y :: ys) x
    by_cases hyx : y = x
    · simp [idxOf, hyx]
    · rcases List.mem_cons.mp h with h1 | h1
      · exact absurd h1.symm hyx
      · simp [idxOf, hyx, ih h1]

/-- idxOf of a present name is a valid index. -/
theorem idxOf_lt_length {x : Str} {l : List Str} (h : x ∈ l) : idxOf l x < l.length := by
  induction l with
  | nil => cases h
  | cons y ys ih =>
    by_cases hyx : y = x
    · simp [idxOf, hyx]
    · rcases List.mem_cons.mp h with h1 | h1
      · exact absurd h1.symm hyx
      · simp only [idxOf, if_neg hyx, List.length_cons]
        exact Nat.succ_lt_succ (ih h1)

/-- The element at idxOf of a present name is that name. -/
theorem idxOf_get {x : Str} {l : List Str} (h : x ∈ l) : l.get? (idxOf l x) = some x := by
  induction l with
  | nil => cases h
  | cons y ys ih =>
    by_cases hyx : y = x
    · simp [idxOf, hyx]
    · rcases List.mem_cons.mp h with h1 | h1
      · exact absurd h1.symm hyx
      · simp only [idxOf, if_neg hyx]
        exact ih h1

/-- idxOf of a name appended after a list avoiding it is the length. -/
theorem idxOf_append_self {x : Str} {l : List Str} (h : x ∉ l) :
    idxOf (l ++ [x]) x = l.length := by
  induction l with
  | nil => simp [idxOf]
  | cons y ys ih =>
    have hyx : ¬ (y = x) := fun he => h (List.mem_cons.mpr (Or.inl he.symm))
    have hx : x ∉ ys := fun hm => h (List.mem_cons.mpr (Or.inr hm))
    show idxOf (y :: (ys ++ [x])) x = (y :: ys).length
    simp only [idxOf, if_neg hyx, List.length_cons]
    rw [ih hx]

/-- A strict idxOf inequality yields precedence in the list. -/
theorem precedesIn_of_idx {order : List Str} {v u : Str} (hv : v ∈ order) (hu : u ∈ order)
    (hlt : idxOf order v < idxOf order u) : precedesIn order v u :=
  ⟨idxOf order v, idxOf order u, idxOf_get hv, idxOf_get hu, hlt⟩

/-- Appending a fresh name whose dependencies are already listed preserves
topological sortedness. -/
theorem TopoList_append_last {depsOf : Str → Option (List Str)} {l : List Str} {u : Str}
    (ht : TopoList depsOf l) (hu : u ∉ l)
    (hd : ∀ v, edgeOf depsOf u v → v ∈ l) :
    TopoList depsOf (l ++ [u]) := by
  intro w hw v hv
  rcases List.mem_append.mp hw with hw1 | hw1
  · obtain ⟨h1, h2⟩ := ht w hw1 v hv
    refine ⟨List.mem_append.mpr (Or.inl h1), ?_⟩
    rw [idxOf_append_of_mem _ h1, idxOf_append_of_mem _ hw1]
    exact h2
  · have hwu : w = u := List.mem_singleton.mp hw1
    subst hwu
    have hvl := hd v hv
    refine ⟨List.mem_append.mpr (Or.inl hvl), ?_⟩
    rw [idxOf_append_of_mem _ hvl, idxOf_append_self hu]
    exact idxOf_lt_length hvl

/-- Along a dependency path from a listed name, a topologically sorted
list strictly decreases idxOf. -/
theorem TopoList_path {depsOf : Str → Option (List Str)} {l : List Str}
    (ht : TopoList depsOf l) {u v : Str} (hp : DepPath depsOf u v) (hu : u ∈ l) :
    v ∈ l ∧ idxOf l v < idxOf l u := by
  induction hp with
  | step h => exact ht _ hu _ h
  | tail h h2 ih =>
    obtain ⟨h3, h4⟩ := ih
    obtain ⟨h5, h6⟩ := ht _ h3 _ h2
    exact ⟨h5, Nat.lt_trans h6 h4⟩

/-- No listed name of a topologically sorted list lies on a cycle. -/
theorem TopoList_acyclic_on {depsOf : Str → Option (List Str)} {l : List Str}
    (ht : TopoList depsOf l) {u : Str} (hu : u ∈ l) : ¬ DepPath depsOf u u := by
  intro hp
  obtain ⟨-, h2⟩ := TopoList_path ht hp hu
  exact Nat.lt_irrefl _ h2

/-- Unfolding lemma for lookupAssoc on a cons cell. -/
theorem lookupAssoc_cons {α : Type} (p : Str × α) (t : List (Str × α)) (j : Str) :
    lookupAssoc (p :: t) j = if p.1 == j then some p.2 else lookupAssoc t j := by
  cases hb : p.1 == j <;> simp [lookupAssoc, List.find?_cons, hb]

/-- hasKey is membership in the key list. -/
theorem hasKey_iff_mem_keys {α : Type} (l : List (Str × α)) (k : Str) :
    hasKey l k = true ↔ k ∈ keysOf l := by
  unfold hasKey keysOf
  rw [List.any_eq_true]
  constructor
  · rintro ⟨p, hp, he⟩
    exact List.mem_map.mpr ⟨p, hp, eq_of_beq he⟩
  · intro hk
    obtain ⟨p, hp, he⟩ := List.mem_map.mp hk
    exact ⟨p, hp, beq_iff_eq.mpr he⟩

/-- A successful lookup is membership of the key-value pair. -/
theorem lookupAssoc_eq_some_mem {α : Type} {l : List (Str × α)} {k : Str} {n : α}
    (h : lookupAssoc l k = some n) : (k, n) ∈ l := by
  induction l with
  | nil => cases h
  | cons p t ih =>
    rw [lookupAssoc_cons] at h
    by_cases hp : (p.1 == k) = true
    · rw [if_pos hp] at h
      have h1 : p.1 = k := eq_of_beq hp
      have h2 : p.2 = n := by injection h
      exact List.mem_cons.mpr (Or.inl (by rw [← h1, ← h2]))
    · rw [if_neg hp] at h
      exact List.mem_cons.mpr (Or.inr (ih h))

/-- Under unique keys, membership of a pair determines the lookup. -/
theorem mem_lookupAssoc {α : Type} {l : List (Str × α)} {k : Str} {n : α}
    (hnd : (keysOf l).Nodup) (h : (k, n) ∈ l) : lookupAssoc l k = some n := by
  induction l with
  | nil => cases h
  | cons p t ih =>
    have hnd2 : (keysOf t).Nodup := (List.nodup_cons.mp hnd).2
    have hhead : p.1 ∉ keysOf t := (List.nodup_cons.mp hnd).1
    rw [lookupAssoc_cons]
    rcases List.mem_cons.mp h with h1 | h1
    · rw [← h1]
      rw [if_pos (beq_iff_eq.mpr rfl)]
    · have hk : k ∈ keysOf t := List.mem_map.mpr ⟨(k, n), h1, rfl⟩
      have hpk : ¬ ((p.1 == k) = true) := fun hb => hhead (eq_of_beq hb ▸ hk)
      rw [if_neg hpk]
      exact ih hnd2 h1

/-- A present key looks up to some value. -/
theorem hasKey_lookup {α : Type} {l : List (Str × α)} {k : Str}
    (h : hasKey l k = true) : ∃ n, lookupAssoc l k = some n := by
  induction l with
  | nil => cases h
  | cons p t ih =>
    rw [lookupAssoc_cons]
    by_cases hp : (p.1 == k) = true
    · exact ⟨p.2, by rw [if_pos hp]⟩
    · have h2 : hasKey t k = true := by
        unfold hasKey at h
        rcases List.any_eq_true.mp h with ⟨q, hq, hqe⟩
        rcases List.mem_cons.mp hq with h3 | h3
        · exact absurd (h3 ▸ hqe) hp
        · exact List.any_eq_true.mpr ⟨q, h3, hqe⟩
      obtain ⟨n, hn⟩ := ih h2
      exact ⟨n, by rw [if_neg hp]; exact hn⟩

/-- updateNode preserves the key list. -/
theorem keysOf_updateNode {α : Type} (l : List (Str × α)) (k : Str) (f : α → α) :
    keysOf (updateNode l k f) = keysOf l := by
  induction l with
  | nil => rfl
  | cons p t ih =>
    show keysOf ((if (p.1 == k) = true then (p.1, f p.2) else p) :: updateNode t k f) =
      keysOf (p :: t)
    by_cases hp : (p.1 == k) = true
    · rw [if_pos hp]
      show p.1 :: keysOf (updateNode t k f) = p.1 :: keysOf t
      rw [ih]
    · rw [if_neg hp]
      show p.1 :: keysOf (updateNode t k f) = p.1 :: keysOf t
      rw [ih]

/-- updateNode leaves other keys' values alone. -/
theorem lookupAssoc_updateNode_ne {α : Type} {l : List (Str × α)} {k j : Str} (f : α → α)
    (hjk : j ≠ k) : lookupAssoc (updateNode l k f) j = lookupAssoc l j := by
  induction l with
  | nil => rfl
  | cons p t ih =>
    show lookupAssoc ((if (p.1 == k) = true then (p.1, f p.2) else p) :: updateNode t k f) j = _
    by_cases hp : (p.1 == k) = true
    · rw [if_pos hp, lookupAssoc_cons, lookupAssoc_cons]
      have hpj : ¬ ((p.1 == j) = true) := fun hb => hjk (eq_of_beq hb ▸ eq_of_beq hp)
      rw [if_neg (by simpa using hpj), if_neg hpj]
      exact ih
    · rw [if_neg hp, lookupAssoc_cons, lookupAssoc_cons]
      by_cases hpj : (p.1 == j) = true
      · rw [if_pos hpj, if_pos hpj]
      · rw [if_neg hpj, if_neg hpj]
        exact ih

/-- updateNode applies the mutation to the value under its key. -/
theorem lookupAssoc_updateNode_self {α : Type} {l : List (Str × α)} {k : Str} {n : α}
    (f : α → α) (h : lookupAssoc l k = some n) :
    lookupAssoc (updateNode l k f) k = some (f n) := by
  induction l with
  | nil => cases h
  | cons p t ih =>
    rw [lookupAssoc_cons] at h
    show lookupAssoc ((if (p.1 == k) = true then (p.1, f p.2) else p) :: updateNode t k f) k = _
    by_cases hp : (p.1 == k) = true
    · rw [if_pos hp] at h ⊢
      rw [lookupAssoc_cons, if_pos (show (((p.1, f p.2)).1 == k) = true from hp)]
      have h2 : p.2 = n := by injection h
      rw [h2]
    · rw [if_neg hp] at h ⊢
      rw [lookupAssoc_cons, if_neg hp]
      exact ih h

/-- insertNode appends its key. -/
theorem keysOf_insertNode {α : Type} (l : List (Str × α)) (k : Str) (v : α) :
    keysOf (insertNode l k v) = keysOf l ++ [k] := by
  unfold insertNode keysOf
  rw [List.map_append]
  rfl

/-- insertNode preserves present lookups. -/
theorem lookupAssoc_insertNode_of_some {α : Type} {l : List (Str × α)} {j : Str} {n : α}
    (k : Str) (v : α) (h : lookupAssoc l j = some n) :
    lookupAssoc (insertNode l k v) j = some n := by
  induction l with
  | nil => cases h
  | cons p t ih =>
    rw [lookupAssoc_cons] at h
    show lookupAssoc (p :: (t ++ [(k, v)])) j = some n
    rw [lookupAssoc_cons]
    by_cases hp : (p.1 == j) = true
    · rw [if_pos hp] at h ⊢
      exact h
    · rw [if_neg hp] at h ⊢
      exact ih h

/-- insertNode of an absent key makes the key look up to the new value. -/
theorem lookupAssoc_insertNode_self {α : Type} {l : List (Str × α)} {k : Str} (v : α)
    (h : hasKey l k = false) : lookupAssoc (insertNode l k v) k = some v := by
  induction l with
  | nil =>
    show lookupAssoc [(k, v)] k = some v
    rw [lookupAssoc_cons, if_pos (beq_iff_eq.mpr rfl)]
  | cons p t ih =>
    have hp : ¬ ((p.1 == k) = true) := by
      intro hb
      unfold hasKey at h
      rw [List.any_eq_false] at h
      exact absurd hb (h p (List.mem_cons_self p t))
    have h2 : hasKey t k = false := by
      unfold hasKey at h ⊢
      rw [List.any_eq_false] at h ⊢
      intro q hq
      exact h q (List.mem_cons.mpr (Or.inr hq))
    show lookupAssoc (p :: (t ++ [(k, v)])) k = some v
    rw [lookupAssoc_cons, if_neg hp]
    exact ih h2

/-- MapLe is reflexive. -/
theorem MapLe_refl (m : ModuleMap) : MapLe m m :=
  ⟨⟨[], (List.append_nil _).symm⟩,
   fun _ n hn => ⟨n, hn, rfl, [], (List.append_nil _).symm⟩⟩

/-- MapLe is transitive. -/
theorem MapLe_trans {a b c : ModuleMap} (h1 : MapLe a b) (h2 : MapLe b c) : MapLe a c := by
  obtain ⟨⟨e1, he1⟩, hl1⟩ := h1
  obtain ⟨⟨e2, he2⟩, hl2⟩ := h2
  refine ⟨⟨e1 ++ e2, by rw [he2, he1, List.append_assoc]⟩, ?_⟩
  intro k n hn
  obtain ⟨n2, hn2, hm2, ds2, hd2⟩ := hl1 k n hn
  obtain ⟨n3, hn3, hm3, ds3, hd3⟩ := hl2 k n2 hn2
  exact ⟨n3, hn3, by rw [hm3, hm2], ds2 ++ ds3, by rw [hd3, hd2, List.append_assoc]⟩

/-- MapLe preserves key presence. -/
theorem MapLe_hasKey {m m2 : ModuleMap} (h : MapLe m m2) {k : Str}
    (hk : hasKey m k = true) : hasKey m2 k = true := by
  obtain ⟨⟨ext, he⟩, -⟩ := h
  rw [hasKey_iff_mem_keys] at hk ⊢
  rw [he]
  exact List.mem_append.mpr (Or.inl hk)

/-- MapLe preserves dependency edges. -/
theorem edgeOf_mono {m m2 : ModuleMap} (h : MapLe m m2) {u v : Str}
    (he : edgeOf (depsOfM m) u v) : edgeOf (depsOfM m2) u v := by
  obtain ⟨deps, hd, hv⟩ := he
  unfold depsOfM at hd
  rcases hn : lookupAssoc m u with _ | n
  · rw [hn] at hd
    cases hd
  · rw [hn] at hd
    have hde : n.dependencies = deps := by injection hd
    obtain ⟨n2, hn2, -, ds, hds⟩ := h.2 u n hn
    refine ⟨n2.dependencies, ?_, ?_⟩
    · unfold depsOfM
      rw [hn2]
      rfl
    · rw [hds, hde]
      exact List.mem_append.mpr (Or.inl hv)

/-- MapLe preserves dependency paths. -/
theorem DepPath_mono {m m2 : ModuleMap} (h : MapLe m m2) {u v : Str}
    (hp : DepPath (depsOfM m) u v) : DepPath (depsOfM m2) u v := by
  induction hp with
  | step he => exact DepPath.step (edgeOf_mono h he)
  | tail h2 he ih => exact DepPath.tail ih (edgeOf_mono h he)

/-- MapLe preserves reachability from the entry. -/
theorem ReachM_mono {m m2 : ModuleMap} (h : MapLe m m2) {entry u : Str}
    (hr : ReachM entry m u) : ReachM entry m2 u := by
  rcases hr with h1 | h1
  · exact Or.inl h1
  · exact Or.inr (DepPath_mono h h1)

/-- Appending one dependency to one node grows the map. -/
theorem MapLe_updateAppend (m : ModuleMap) (u d : Str) :
    MapLe m (updateNode m u (fun n => { n with dependencies := n.dependencies ++ [d] })) := by
  constructor
  · exact ⟨[], by rw [keysOf_updateNode, List.append_nil]⟩
  · intro j n hn
    by_cases hjk : j = u
    · subst hjk
      exact ⟨{ n with dependencies := n.dependencies ++ [d] },
        lookupAssoc_updateNode_self _ hn, rfl, [d], rfl⟩
    · exact ⟨n, by rw [lookupAssoc_updateNode_ne _ hjk]; exact hn, rfl, [],
        (List.append_nil _).symm⟩

/-- Inserting a node grows the map. -/
theorem MapLe_insert (m : ModuleMap) (k : Str) (v : ModuleNode) :
    MapLe m (insertNode m k v) := by
  constructor
  · exact ⟨[k], keysOf_insertNode m k v⟩
  · intro j n hn
    exact ⟨n, lookupAssoc_insertNode_of_some k v hn, rfl, [], (List.append_nil _).symm⟩

/-- The dependency step installs an edge from the updated node to the
inserted key. -/
theorem stepMap_edge {m : ModuleMap} {u k : Str} (v : ModuleNode)
    (hk : hasKey m u = true) :
    edgeOf (depsOfM (stepMap m u k v)) u k := by
  obtain ⟨n0, hn0⟩ := hasKey_lookup hk
  have h1 := lookupAssoc_updateNode_self
    (fun n => { n with dependencies := n.dependencies ++ [k] }) hn0
  have h2 := lookupAssoc_insertNode_of_some k v h1
  refine ⟨n0.dependencies ++ [k], ?_, List.mem_append.mpr (Or.inr (List.mem_singleton.mpr rfl))⟩
  unfold stepMap depsOfM
  rw [h2]
  rfl

/-- Appending an already-present dependency key preserves map
well-formedness. -/
theorem WFB_updateAppend {entry : Str} {m : ModuleMap} {u d : Str}
    (hw : WFB entry m) (hd : hasKey m d = true) :
    WFB entry (updateNode m u (fun n => { n with dependencies := n.dependencies ++ [d] })) := by
  obtain ⟨hnd, hnm, hcl, hre⟩ := hw
  have hml := MapLe_updateAppend m u d
  refine ⟨?_, ?_, ?_, ?_⟩
  · rw [keysOf_updateNode]
    exact hnd
  · intro p hp
    simp only [updateNode] at hp
    obtain ⟨q, hq, hpe⟩ := List.mem_map.mp hp
    subst hpe
    by_cases hqk : (q.1 == u) = true
    · rw [if_pos hqk]
      exact hnm q hq
    · rw [if_neg hqk]
      exact hnm q hq
  · intro p hp v2 hv
    simp only [updateNode] at hp
    obtain ⟨q, hq, hpe⟩ := List.mem_map.mp hp
    subst hpe
    rw [hasKey_iff_mem_keys, keysOf_updateNode, ← hasKey_iff_mem_keys]
    by_cases hqk : (q.1 == u) = true
    · rw [if_pos hqk] at hv
      rcases List.mem_append.mp hv with h2 | h2
      · exact hcl q hq v2 h2
      · have h3 : v2 = d := List.mem_singleton.mp h2
        rw [h3]
        exact hd
    · rw [if_neg hqk] at hv
      exact hcl q hq v2 hv
  · intro p hp
    simp only [updateNode] at hp
    obtain ⟨q, hq, hpe⟩ := List.mem_map.mp hp
    subst hpe
    have hrq := ReachM_mono hml (hre q hq)
    by_cases hqk : (q.1 == u) = true
    · rw [if_pos hqk]
      exact hrq
    · rw [if_neg hqk]
      exact hrq

/-- The dependency step on a fresh key preserves well-formedness, grows
the map, and makes the fresh key a reachable key. -/
theorem WFB_step {entry : Str} {m : ModuleMap} {u k : Str} (v : ModuleNode)
    (hw : WFB entry m) (hk : hasKey m u = true) (hr : ReachM entry m u)
    (habs : hasKey m k = false) (hv1 : v.moduleName = k) (hv2 : v.dependencies = []) :
    WFB entry (stepMap m u k v) ∧ MapLe m (stepMap m u k v) ∧
      hasKey (stepMap m u k v) k = true ∧ ReachM entry (stepMap m u k v) k := by
  obtain ⟨hnd, hnm, hcl, hre⟩ := hw
  have hml : MapLe m (stepMap m u k v) :=
    MapLe_trans (MapLe_updateAppend m u k) (MapLe_insert _ k v)
  have hkeys : keysOf (stepMap m u k v) = keysOf m ++ [k] := by
    unfold stepMap
    rw [keysOf_insertNode, keysOf_updateNode]
  have hknot : k ∉ keysOf m := by
    intro hmem
    rw [← hasKey_iff_mem_keys, habs] at hmem
    cases hmem
  have hkk : hasKey (stepMap m u k v) k = true := by
    rw [hasKey_iff_mem_keys, hkeys]
    exact List.mem_append.mpr (Or.inr (List.mem_singleton.mpr rfl))
  have hedge : edgeOf (depsOfM (stepMap m u k v)) u k := stepMap_edge v hk
  have hreachk : ReachM entry (stepMap m u k v) k := by
    rcases hr with h1 | h1
    · exact Or.inr (DepPath.step (h1 ▸ hedge))
    · exact Or.inr (DepPath.tail (DepPath_mono hml h1) hedge)
  refine ⟨⟨?_, ?_, ?_, ?_⟩, hml, hkk, hreachk⟩
  · rw [hkeys, List.nodup_append]
    exact ⟨hnd, List.nodup_singleton k,
      fun a ha hb => hknot ((List.mem_singleton.mp hb) ▸ ha)⟩
  · intro p hp
    have hp2 : p ∈ updateNode m u
        (fun n => { n with dependencies := n.dependencies ++ [k] }) ++ [(k, v)] := hp
    rcases List.mem_append.mp hp2 with h1 | h1
    · simp only [updateNode] at h1
      obtain ⟨q, hq, hpe⟩ := List.mem_map.mp h1
      subst hpe
      by_cases hqk : (q.1 == u) = true
      · rw [if_pos hqk]
        exact hnm q hq
      · rw [if_neg hqk]
        exact hnm q hq
    · have hpe : p = (k, v) := List.mem_singleton.mp h1
      rw [hpe]
      exact hv1
  · intro p hp v2 hv
    have hp2 : p ∈ updateNode m u
        (fun n => { n with dependencies := n.dependencies ++ [k] }) ++ [(k, v)] := hp
    rcases List.mem_append.mp hp2 with h1 | h1
    · simp only [updateNode] at h1
      obtain ⟨q, hq, hpe⟩ := List.mem_map.mp h1
      subst hpe
      rw [hasKey_iff_mem_keys, hkeys]
      by_cases hqk : (q.1 == u) = true
      · rw [if_pos hqk] at hv
        rcases List.mem_append.mp hv with h2 | h2
        · exact List.mem_append.mpr
            (Or.inl (by rw [← hasKey_iff_mem_keys]; exact hcl q hq v2 h2))
        · exact List.mem_append.mpr (Or.inr h2)
      · rw [if_neg hqk] at hv
        exact List.mem_append.mpr
          (Or.inl (by rw [← hasKey_iff_mem_keys]; exact hcl q hq v2 hv))
    · have hpe : p = (k, v) := List.mem_singleton.mp h1
      rw [hpe] at hv
      rw [hv2] at hv
      cases hv
  · intro p hp
    have hp2 : p ∈ updateNode m u
        (fun n => { n with dependencies := n.dependencies ++ [k] }) ++ [(k, v)] := hp
    rcases List.mem_append.mp hp2 with h1 | h1
    · simp only [updateNode] at h1
      obtain ⟨q, hq, hpe⟩ := List.mem_map.mp h1
      subst hpe
      have hrq := ReachM_mono hml (hre q hq)
      by_cases hqk : (q.1 == u) = true
      · rw [if_pos hqk]
        exact hrq
      · rw [if_neg hqk]
        exact hrq
    · have hpe : p = (k, v) := List.mem_singleton.mp h1
      rw [hpe]
      exact hreachk

/-- Map well-formedness is an invariant of processModuleDependencies, and
the map only grows along a successful run. -/
theorem processReqsB_wf (resolve : Str → ResolveResult) (fs : Str → Option Str)
    (entry : Str) :
    ∀ (fuel : Nat) (nodeName nodePath : Str) (reqs : List RequireStatement)
      (m m2 : ModuleMap),
      WFB entry m → hasKey m nodeName = true → ReachM entry m nodeName →
      processReqsB resolve fs fuel nodeName nodePath reqs m = Except.ok m2 →
      WFB entry m2 ∧ MapLe m m2 := by
  intro fuel
  induction fuel with
  | zero =>
    intro nodeName nodePath reqs m m2 hw hk hr hp
    exact Except.noConfusion hp
  | succ fuel ih =>
    intro nodeName nodePath reqs m m2 hw hk hr hp
    cases reqs with
    | nil =>
      injection hp with hm
      exact ⟨hm ▸ hw, hm ▸ MapLe_refl m⟩
    | cons req rest =>
      simp only [processReqsB] at hp
      split at hp
      · exact ih nodeName nodePath rest m m2 hw hk hr hp
      · split at hp
        · exact Except.noConfusion hp
        · rename_i r hres
          split at hp
          · rename_i hcond
            have hdm : hasKey m r.moduleName = true := by
              rw [hasKey_iff_mem_keys]
              rw [hasKey_iff_mem_keys, keysOf_updateNode] at hcond
              exact hcond
            have hml := MapLe_updateAppend m nodeName r.moduleName
            obtain ⟨hwf2, hml2⟩ := ih nodeName nodePath rest _ m2
              (WFB_updateAppend ⟨hw.1, hw.2.1, hw.2.2.1, hw.2.2.2⟩ hdm)
              (MapLe_hasKey hml hk) (ReachM_mono hml hr) hp
            exact ⟨hwf2, MapLe_trans hml hml2⟩
          · rename_i hcond
            split at hp
            · exact Except.noConfusion hp
            · rename_i depSource hfs
              split at hp
              · exact Except.noConfusion hp
              · rename_i m3 hrec
                have habs : hasKey m r.moduleName = false := by
                  rw [hasKey_iff_mem_keys, keysOf_updateNode] at hcond
                  rcases hcase : hasKey m r.moduleName with _ | _
                  · rfl
                  · rw [hasKey_iff_mem_keys] at hcase
                    exact absurd hcase hcond
                obtain ⟨hwf2, hml2, hkk2, hrk2⟩ := WFB_step
                  (⟨r.moduleName, r.filePath, depSource,
                    parseRequireStatements depSource, []⟩ : ModuleNode)
                  ⟨hw.1, hw.2.1, hw.2.2.1, hw.2.2.2⟩ hk hr habs rfl rfl
                obtain ⟨hwf3, hml3⟩ := ih r.moduleName r.filePath _ _ m3 hwf2 hkk2 hrk2 hrec
                have hk3 : hasKey m3 nodeName = true :=
                  MapLe_hasKey hml3 (MapLe_hasKey hml2 hk)
                have hr3 : ReachM entry m3 nodeName := ReachM_mono hml3 (ReachM_mono hml2 hr)
                obtain ⟨hwf4, hml4⟩ := ih nodeName nodePath rest m3 m2 hwf3 hk3 hr3 hp
                exact ⟨hwf4, MapLe_trans hml2 (MapLe_trans hml3 hml4)⟩

-- -------------------------------------------------------------------
-- Cycle-detection traversal lemmas for claim C1
-- -------------------------------------------------------------------

/-- Bool membership test agrees with membership. -/
theorem contains_true_iff_mem {l : List Str} {x : Str} : l.contains x = true ↔ x ∈ l :=
  List.elem_iff

/-- Set insertion of a new element conses it. -/
theorem insertSet_of_not_mem {l : List Str} {x : Str} (h : x ∉ l) :
    insertSet l x = x :: l := by
  unfold insertSet
  rw [if_neg]
  intro hc
  exact h (contains_true_iff_mem.mp hc)

/-- The inserted element is a member. -/
theorem mem_insertSet_self (l : List Str) (x : Str) : x ∈ insertSet l x := by
  unfold insertSet
  split
  · rename_i hc
    exact contains_true_iff_mem.mp hc
  · exact List.mem_cons_self x l

/-- Set insertion keeps old members. -/
theorem mem_insertSet_of_mem {l : List Str} {x a : Str} (h : a ∈ l) : a ∈ insertSet l x := by
  unfold insertSet
  split
  · exact h
  · exact List.mem_cons.mpr (Or.inr h)

/-- Members of a set insertion are the new element or old members. -/
theorem mem_insertSet {l : List Str} {x a : Str} (h : a ∈ insertSet l x) : a = x ∨ a ∈ l := by
  unfold insertSet at h
  split at h
  · exact Or.inr h
  · exact List.mem_cons.mp h

/-- recordCycle only touches the seen and found fields. -/
theorem recordCycle_fields (dep : Str) (st : DetectState) :
    (recordCycle dep st).visited = st.visited ∧
    (recordCycle dep st).stack = st.stack ∧
    (recordCycle dep st).path = st.path ∧
    (recordCycle dep st).finished = st.finished ∧
    (recordCycle dep st).fuelOut = st.fuelOut := by
  simp only [recordCycle]
  split
  · exact ⟨rfl, rfl, rfl, rfl, rfl⟩
  · exact ⟨rfl, rfl, rfl, rfl, rfl⟩

/-- recordCycle extends the found list on the right. -/
theorem recordCycle_found (dep : Str) (st : DetectState) :
    ∃ d, (recordCycle dep st).found = st.found ++ d := by
  simp only [recordCycle]
  split
  · exact ⟨[], (List.append_nil _).symm⟩
  · exact ⟨_, rfl⟩

/-- recordCycle keeps the seen and found lists equally long. -/
theorem recordCycle_lock (dep : Str) (st : DetectState)
    (h : st.seen.length = st.found.length) :
    (recordCycle dep st).seen.length = (recordCycle dep st).found.length := by
  simp only [recordCycle]
  split
  · exact h
  · simp [h]

/-- With an empty seen list, recordCycle strictly grows the found list. -/
theorem recordCycle_seen_nil_found (dep : Str) (st : DetectState) (h : st.seen = []) :
    ∃ c, (recordCycle dep st).found = st.found ++ [c] := by
  simp only [recordCycle]
  rw [if_neg]
  · exact ⟨_, rfl⟩
  · intro hc
    rw [h] at hc
    exact Bool.noConfusion hc

/-- Unfolding of the node-entering step of the cycle detection on a node
without a dependency list. -/
theorem detectStep_inl_none {depsOf : Str → Option (List Str)} (fuel : Nat) {name : Str}
    (st : DetectState) (h : depsOf name = none) :
    detectStep depsOf (fuel + 1) (Sum.inl name) st =
      { st with
        visited := insertSet st.visited name
        stack := (insertSet st.stack name).erase name
        path := (st.path ++ [name]).dropLast
        finished := st.finished ++ [name] } := by
  simp only [detectStep, h]

/-- Unfolding of the node-entering step of the cycle detection on a node
with a dependency list. -/
theorem detectStep_inl_some {depsOf : Str → Option (List Str)} (fuel : Nat) {name : Str}
    (st : DetectState) {deps : List Str} (h : depsOf name = some deps) :
    detectStep depsOf (fuel + 1) (Sum.inl name) st =
      { detectStep depsOf fuel (Sum.inr deps)
          { st with
            visited := insertSet st.visited name
            stack := insertSet st.stack name
            path := st.path ++ [name] } with
        path := (detectStep depsOf fuel (Sum.inr deps)
          { st with
            visited := insertSet st.visited name
            stack := insertSet st.stack name
            path := st.path ++ [name] }).path.dropLast
        stack := (detectStep depsOf fuel (Sum.inr deps)
          { st with
            visited := insertSet st.visited name
            stack := insertSet st.stack name
            path := st.path ++ [name] }).stack.erase name
        finished := (detectStep depsOf fuel (Sum.inr deps)
          { st with
            visited := insertSet st.visited name
            stack := insertSet st.stack name
            path := st.path ++ [name] }).finished ++ [name] } := by
  simp only [detectStep, h]

/-- Unfolding of the dependency-walking step of the cycle detection. -/
theorem detectStep_inr_cons (depsOf : Str → Option (List Str)) (fuel : Nat) (dep : Str)
    (rest : List Str) (st : DetectState) :
    detectStep depsOf (fuel + 1) (Sum.inr (dep :: rest)) st =
      detectStep depsOf fuel (Sum.inr rest)
        (if st.visited.contains dep then
           if st.stack.contains dep then recordCycle dep st else st
         else detectStep depsOf fuel (Sum.inl dep) st) := rfl

/-- Base monotonicity of the cycle-detection step: found and finished
extend on the right, visited grows, seen and found stay equally long, and
fuel exhaustion is sticky. -/
theorem detectStep_basic (depsOf : Str → Option (List Str)) :
    ∀ (fuel : Nat) (x : Str ⊕ List Str) (st : DetectState),
      (∃ d, (detectStep depsOf fuel x st).found = st.found ++ d) ∧
      (∃ d, (detectStep depsOf fuel x st).finished = st.finished ++ d) ∧
      (∀ a ∈ st.visited, a ∈ (detectStep depsOf fuel x st).visited) ∧
      (st.seen.length = st.found.length →
        (detectStep depsOf fuel x st).seen.length =
          (detectStep depsOf fuel x st).found.length) ∧
      (st.fuelOut = true → (detectStep depsOf fuel x st).fuelOut = true) := by
  intro fuel
  induction fuel with
  | zero =>
    intro x st
    exact ⟨⟨[], (List.append_nil _).symm⟩, ⟨[], (List.append_nil _).symm⟩,
      fun a ha => ha, fun h => h, fun _ => rfl⟩
  | succ fuel ih =>
    intro x st
    rcases x with name | deps
    · rcases hdeps : depsOf name with _ | deps
      · rw [detectStep_inl_none fuel st hdeps]
        exact ⟨⟨[], (List.append_nil _).symm⟩, ⟨[name], rfl⟩,
          fun a ha => mem_insertSet_of_mem ha, fun h => h, fun h => h⟩
      · rw [detectStep_inl_some fuel st hdeps]
        obtain ⟨⟨d1, hd1⟩, ⟨d2, hd2⟩, h3, h4, h5⟩ := ih (Sum.inr deps)
          { st with
            visited := insertSet st.visited name
            stack := insertSet st.stack name
            path := st.path ++ [name] }
        refine ⟨⟨d1, hd1⟩, ⟨d2 ++ [name], by rw [hd2, List.append_assoc]⟩, ?_, h4, h5⟩
        intro a ha
        exact h3 a (mem_insertSet_of_mem ha)
    · rcases deps with _ | ⟨dep, rest⟩
      · exact ⟨⟨[], (List.append_nil _).symm⟩, ⟨[], (List.append_nil _).symm⟩,
          fun a ha => ha, fun h => h, fun h => h⟩
      · rw [detectStep_inr_cons]
        by_cases hv : (st.visited.contains dep) = true
        · by_cases hs : (st.stack.contains dep) = true
          · rw [if_pos hv, if_pos hs]
            obtain ⟨⟨d1, hd1⟩, ⟨d2, hd2⟩, h3, h4, h5⟩ := ih (Sum.inr rest) (recordCycle dep st)
            obtain ⟨R1, R2, R3, R4, R5⟩ := recordCycle_fields dep st
            obtain ⟨dc, hdc⟩ := recordCycle_found dep st
            refine ⟨⟨dc ++ d1, by rw [hd1, hdc, List.append_assoc]⟩,
              ⟨d2, by rw [hd2, R4]⟩, ?_, ?_, ?_⟩
            · intro a ha
              exact h3 a (by rw [R1]; exact ha)
            · intro h
              exact h4 (recordCycle_lock dep st h)
            · intro h
              exact h5 (by rw [R5]; exact h)
          · rw [if_pos hv, if_neg hs]
            exact ih (Sum.inr rest) st
        · rw [if_neg hv]
          obtain ⟨⟨d1, hd1⟩, ⟨d2, hd2⟩, h3, h4, h5⟩ := ih (Sum.inl dep) st
          obtain ⟨⟨e1, he1⟩, ⟨e2, he2⟩, g3, g4, g5⟩ := ih (Sum.inr rest)
            (detectStep depsOf fuel (Sum.inl dep) st)
          refine ⟨⟨d1 ++ e1, by rw [he1, hd1, List.append_assoc]⟩,
            ⟨d2 ++ e2, by rw [he2, hd2, List.append_assoc]⟩, ?_, ?_, ?_⟩
          · intro a ha
            exact g3 a (h3 a ha)
          · intro h
            exact g4 (h4 h)
          · intro h
            exact g5 (h5 h)

/-- Entering an unvisited node preserves the traversal invariant. -/
theorem DetectInv_enter {depsOf : Str → Option (List Str)} {st : DetectState} {name : Str}
    (hinv : DetectInv depsOf st) (hname : name ∉ st.visited) :
    DetectInv depsOf { st with
      visited := insertSet st.visited name
      stack := insertSet st.stack name
      path := st.path ++ [name] } := by
  obtain ⟨hsv, hfv, hdisj, hpart, hnd, htopo⟩ := hinv
  have hnfin : name ∉ st.finished := fun h => hname (hfv name h)
  refine ⟨?_, ?_, ?_, ?_, hnd, htopo⟩
  · intro x hx
    rcases mem_insertSet hx with h | h
    · rw [h]
      exact mem_insertSet_self _ _
    · exact mem_insertSet_of_mem (hsv x h)
  · intro x hx
    exact mem_insertSet_of_mem (hfv x hx)
  · intro x hx hmem
    rcases mem_insertSet hmem with h | h
    · exact hnfin (h ▸ hx)
    · exact hdisj x hx h
  · intro x hx
    rcases mem_insertSet hx with h | h
    · left
      rw [h]
      exact mem_insertSet_self _ _
    · rcases hpart x h with h2 | h2
      · left
        exact mem_insertSet_of_mem h2
      · right
        exact h2

/-- Popping the entered node off the stack preserves the traversal
invariant when all the node's dependency targets are already finished. -/
theorem DetectInv_pop {depsOf : Str → Option (List Str)} {st2 : DetectState} {name : Str}
    {base : List Str}
    (hinv2 : DetectInv depsOf st2)
    (hstk : st2.stack = name :: base)
    (hnb : name ∉ base)
    (hdeps : ∀ v, edgeOf depsOf name v → v ∈ st2.finished) :
    DetectInv depsOf { st2 with
      path := st2.path.dropLast
      stack := st2.stack.erase name
      finished := st2.finished ++ [name] } := by
  obtain ⟨hsv, hfv, hdisj, hpart, hnd, htopo⟩ := hinv2
  have hnameStack : name ∈ st2.stack := by
    rw [hstk]
    exact List.mem_cons_self _ _
  have hnfin : name ∉ st2.finished := fun h => hdisj name h hnameStack
  have herase : st2.stack.erase name = base := by
    rw [hstk]
    exact List.erase_cons_head _ _
  refine ⟨?_, ?_, ?_, ?_, ?_, ?_⟩
  · intro x hx
    have hx2 : x ∈ st2.stack.erase name := hx
    rw [herase] at hx2
    show x ∈ st2.visited
    exact hsv x (by rw [hstk]; exact List.mem_cons.mpr (Or.inr hx2))
  · intro x hx
    have hx2 : x ∈ st2.finished ++ [name] := hx
    show x ∈ st2.visited
    rcases List.mem_append.mp hx2 with h | h
    · exact hfv x h
    · rw [List.mem_singleton.mp h]
      exact hsv name hnameStack
  · intro x hx hmem
    have hx2 : x ∈ st2.finished ++ [name] := hx
    have hmem2 : x ∈ st2.stack.erase name := hmem
    rw [herase] at hmem2
    rcases List.mem_append.mp hx2 with h | h
    · exact hdisj x h (by rw [hstk]; exact List.mem_cons.mpr (Or.inr hmem2))
    · exact hnb ((List.mem_singleton.mp h) ▸ hmem2)
  · intro x hx
    have hx2 : x ∈ st2.visited := hx
    rcases hpart x hx2 with h | h
    · rw [hstk] at h
      rcases List.mem_cons.mp h with h2 | h2
      · right
        show x ∈ st2.finished ++ [name]
        exact List.mem_append.mpr (Or.inr (List.mem_singleton.mpr h2))
      · left
        show x ∈ st2.stack.erase name
        rw [herase]
        exact h2
    · right
      show x ∈ st2.finished ++ [name]
      exact List.mem_append.mpr (Or.inl h)
  · show (st2.finished ++ [name]).Nodup
    rw [List.nodup_append]
    exact ⟨hnd, List.nodup_singleton _,
      fun a ha hb => hnfin ((List.mem_singleton.mp hb) ▸ ha)⟩
  · show TopoList depsOf (st2.finished ++ [name])
    exact TopoList_append_last htopo hnfin hdeps

/-- The main run lemma of the cycle-detection step: on a run that records
no cycle and does not exhaust fuel, the invariant is preserved, the stack
and path are restored, an entered node finishes, and every walked
dependency finishes. -/
theorem detect_run (depsOf : Str → Option (List Str)) :
    ∀ (fuel : Nat) (x : Str ⊕ List Str) (st : DetectState),
      DetectInv depsOf st →
      st.seen = [] → st.found = [] →
      (detectStep depsOf fuel x st).found = [] →
      (detectStep depsOf fuel x st).fuelOut = false →
      (∀ name, x = Sum.inl name → name ∉ st.visited) →
      DetectInv depsOf (detectStep depsOf fuel x st) ∧
      (detectStep depsOf fuel x st).stack = st.stack ∧
      (detectStep depsOf fuel x st).path = st.path ∧
      (∀ name, x = Sum.inl name → name ∈ (detectStep depsOf fuel x st).finished) ∧
      (∀ deps, x = Sum.inr deps → ∀ v ∈ deps, v ∈ (detectStep depsOf fuel x st).finished) := by
  intro fuel
  induction fuel with
  | zero =>
    intro x st hinv hseen hfd hf hfo hpre
    exact Bool.noConfusion hfo
  | succ fuel ih =>
    intro x st hinv hseen hfd hf hfo hpre
    rcases x with name | deps
    · have hname : name ∉ st.visited := hpre name rfl
      obtain ⟨hsv, hfv, hdisj, hpart, hnd, htopo⟩ := hinv
      have hnstack : name ∉ st.stack := fun h => hname (hsv name h)
      have hins : insertSet st.stack name = name :: st.stack := insertSet_of_not_mem hnstack
      rcases hdeps : depsOf name with _ | deps
      · rw [detectStep_inl_none fuel st hdeps] at hf hfo ⊢
        have hinv1 : DetectInv depsOf { st with
            visited := insertSet st.visited name
            stack := insertSet st.stack name
            path := st.path ++ [name] } :=
          DetectInv_enter ⟨hsv, hfv, hdisj, hpart, hnd, htopo⟩ hname
        have hstkE : ({ st with
            visited := insertSet st.visited name
            stack := insertSet st.stack name
            path := st.path ++ [name] } : DetectState).stack = name :: st.stack := hins
        have hedge : ∀ v, edgeOf depsOf name v → v ∈ ({ st with
            visited := insertSet st.visited name
            stack := insertSet st.stack name
            path := st.path ++ [name] } : DetectState).finished := by
          intro v hv
          obtain ⟨ds, hds, -⟩ := hv
          rw [hdeps] at hds
          exact Option.noConfusion hds
        have hpop := DetectInv_pop hinv1 hstkE hnstack hedge
        refine ⟨hpop, ?_, ?_, ?_, ?_⟩
        · show (insertSet st.stack name).erase name = st.stack
          rw [hins]
          exact List.erase_cons_head _ _
        · show (st.path ++ [name]).dropLast = st.path
          exact List.dropLast_concat
        · intro nm h
          injection h with h2
          show nm ∈ st.finished ++ [name]
          exact List.mem_append.mpr (Or.inr (List.mem_singleton.mpr h2.symm))
        · intro ds h
          exact Sum.noConfusion h
      · rw [detectStep_inl_some fuel st hdeps] at hf hfo ⊢
        have hinv1 : DetectInv depsOf { st with
            visited := insertSet st.visited name
            stack := insertSet st.stack name
            path := st.path ++ [name] } :=
          DetectInv_enter ⟨hsv, hfv, hdisj, hpart, hnd, htopo⟩ hname
        have hf1 : (detectStep depsOf fuel (Sum.inr deps) { st with
            visited := insertSet st.visited name
            stack := insertSet st.stack name
            path := st.path ++ [name] }).found = [] := hf
        have hfo1 : (detectStep depsOf fuel (Sum.inr deps) { st with
            visited := insertSet st.visited name
            stack := insertSet st.stack name
            path := st.path ++ [name] }).fuelOut = false := hfo
        obtain ⟨hinv2, hstk2, hpth2, -, hwalk⟩ := ih (Sum.inr deps) { st with
            visited := insertSet st.visited name
            stack := insertSet st.stack name
            path := st.path ++ [name] } hinv1 hseen hfd hf1 hfo1
          (fun nm h => Sum.noConfusion h)
        have hwalk2 := hwalk deps rfl
        have hstk3 : (detectStep depsOf fuel (Sum.inr deps) { st with
            visited := insertSet st.visited name
            stack := insertSet st.stack name
            path := st.path ++ [name] }).stack = name :: st.stack := by
          rw [hstk2]
          show insertSet st.stack name = name :: st.stack
          exact hins
        have hedge : ∀ v, edgeOf depsOf name v →
            v ∈ (detectStep depsOf fuel (Sum.inr deps) { st with
              visited := insertSet st.visited name
              stack := insertSet st.stack name
              path := st.path ++ [name] }).finished := by
          intro v hv
          obtain ⟨ds, hds, hmem⟩ := hv
          rw [hdeps] at hds
          injection hds with h2
          exact hwalk2 v (by rw [h2]; exact hmem)
        have hpop := DetectInv_pop hinv2 hstk3 hnstack hedge
        refine ⟨hpop, ?_, ?_, ?_, ?_⟩
        · show (detectStep depsOf fuel (Sum.inr deps) { st with
            visited := insertSet st.visited name
            stack := insertSet st.stack name
            path := st.path ++ [name] }).stack.erase name = st.stack
          rw [hstk3]
          exact List.erase_cons_head _ _
        · show (detectStep depsOf fuel (Sum.inr deps) { st with
            visited := insertSet st.visited name
            stack := insertSet st.stack name
            path := st.path ++ [name] }).path.dropLast = st.path
          rw [hpth2]
          show (st.path ++ [name]).dropLast = st.path
          exact List.dropLast_concat
        · intro nm h
          injection h with h2
          show nm ∈ (detectStep depsOf fuel (Sum.inr deps) { st with
            visited := insertSet st.visited name
            stack := insertSet st.stack name
            path := st.path ++ [name] }).finished ++ [name]
          exact List.mem_append.mpr (Or.inr (List.mem_singleton.mpr h2.symm))
        · intro ds h
          exact Sum.noConfusion h
    · rcases deps with _ | ⟨dep, rest⟩
      · refine ⟨hinv, rfl, rfl, fun nm h => Sum.noConfusion h, ?_⟩
        intro ds h
        injection h with h2
        subst h2
        intro v hv
        exact absurd hv (List.not_mem_nil v)
      · rw [detectStep_inr_cons] at hf hfo ⊢
        by_cases hv : (st.visited.contains dep) = true
        · by_cases hs : (st.stack.contains dep) = true
          · exfalso
            rw [if_pos hv, if_pos hs] at hf
            obtain ⟨c, hc⟩ := recordCycle_seen_nil_found dep st hseen
            obtain ⟨⟨d, hd⟩, -, -, -, -⟩ :=
              detectStep_basic depsOf fuel (Sum.inr rest) (recordCycle dep st)
            rw [hd, hc, hfd] at hf
            simp at hf
          · rw [if_pos hv, if_neg hs] at hf hfo ⊢
            obtain ⟨hinv2, hstk2, hpth2, -, hwalk⟩ :=
              ih (Sum.inr rest) st hinv hseen hfd hf hfo (fun nm h => Sum.noConfusion h)
            refine ⟨hinv2, hstk2, hpth2, fun nm h => Sum.noConfusion h, ?_⟩
            intro ds h
            injection h with h2
            subst h2
            intro w hw
            rcases List.mem_cons.mp hw with h3 | h3
            · have hdv : dep ∈ st.visited := contains_true_iff_mem.mp hv
              have hds2 : dep ∉ st.stack := fun hm => hs (contains_true_iff_mem.mpr hm)
              have hfin : dep ∈ st.finished := by
                rcases hinv.2.2.2.1 dep hdv with h4 | h4
                · exact absurd h4 hds2
                · exact h4
              obtain ⟨-, ⟨d2, hd2⟩, -, -, -⟩ := detectStep_basic depsOf fuel (Sum.inr rest) st
              rw [h3, hd2]
              exact List.mem_append.mpr (Or.inl hfin)
            · exact hwalk rest rfl w h3
        · rw [if_neg hv] at hf hfo ⊢
          have hdepnot : dep ∉ st.visited := fun h => hv (contains_true_iff_mem.mpr h)
          obtain ⟨⟨d1, hd1⟩, -, -, hlock1, -⟩ := detectStep_basic depsOf fuel (Sum.inl dep) st
          obtain ⟨⟨d2, hd2⟩, ⟨d3, hd3⟩, -, -, hsticky2⟩ :=
            detectStep_basic depsOf fuel (Sum.inr rest)
              (detectStep depsOf fuel (Sum.inl dep) st)
          have hst1found : (detectStep depsOf fuel (Sum.inl dep) st).found = [] := by
            rw [hd2] at hf
            exact (List.append_eq_nil.mp hf).1
          have hst1fo : (detectStep depsOf fuel (Sum.inl dep) st).fuelOut = false := by
            cases hb2 : (detectStep depsOf fuel (Sum.inl dep) st).fuelOut
            · rfl
            · have h6 := hsticky2 hb2
              rw [hfo] at h6
              exact Bool.noConfusion h6
          obtain ⟨hinv1, hstk1, hpth1, hfin1, -⟩ :=
            ih (Sum.inl dep) st hinv hseen hfd hst1found hst1fo
              (fun nm h => by injection h with h2; rw [← h2]; exact hdepnot)
          have hseen1 : (detectStep depsOf fuel (Sum.inl dep) st).seen = [] := by
            have h7 := hlock1 (by simp [hseen, hfd])
            rw [hst1found] at h7
            rw [← List.length_eq_zero]
            rw [h7]
            rfl
          obtain ⟨hinv2, hstk2, hpth2, -, hwalk⟩ :=
            ih (Sum.inr rest) (detectStep depsOf fuel (Sum.inl dep) st)
              hinv1 hseen1 hst1found hf hfo (fun nm h => Sum.noConfusion h)
          refine ⟨hinv2, by rw [hstk2, hstk1], by rw [hpth2, hpth1],
            fun nm h => Sum.noConfusion h, ?_⟩
          intro ds h
          injection h with h2
          subst h2
          intro w hw
          rcases List.mem_cons.mp hw with h3 | h3
          · rw [h3, hd3]
            exact List.mem_append.mpr (Or.inl (hfin1 dep rfl))
          · exact hwalk rest rfl w h3

/-- Unfolding of one sweep step. -/
theorem detectSweep_cons (depsOf : Str → Option (List Str)) (fuel : Nat) (k : Str)
    (rest : List Str) (st : DetectState) :
    detectSweep depsOf fuel (k :: rest) st =
      detectSweep depsOf fuel rest
        (if st.visited.contains k then st else detectStep depsOf fuel (Sum.inl k) st) := rfl

/-- Base monotonicity of the sweep. -/
theorem detectSweep_basic (depsOf : Str → Option (List Str)) (fuel : Nat) :
    ∀ (names : List Str) (st : DetectState),
      (∃ d, (detectSweep depsOf fuel names st).found = st.found ++ d) ∧
      (∃ d, (detectSweep depsOf fuel names st).finished = st.finished ++ d) ∧
      (∀ a ∈ st.visited, a ∈ (detectSweep depsOf fuel names st).visited) ∧
      (st.seen.length = st.found.length →
        (detectSweep depsOf fuel names st).seen.length =
          (detectSweep depsOf fuel names st).found.length) ∧
      (st.fuelOut = true → (detectSweep depsOf fuel names st).fuelOut = true) := by
  intro names
  induction names with
  | nil =>
    intro st
    exact ⟨⟨[], (List.append_nil _).symm⟩, ⟨[], (List.append_nil _).symm⟩,
      fun a ha => ha, fun h => h, fun h => h⟩
  | cons k rest ihn =>
    intro st
    rw [detectSweep_cons]
    by_cases hv : (st.visited.contains k) = true
    · rw [if_pos hv]
      exact ihn st
    · rw [if_neg hv]
      obtain ⟨⟨d1, hd1⟩, ⟨d2, hd2⟩, h3, h4, h5⟩ := detectStep_basic depsOf fuel (Sum.inl k) st
      obtain ⟨⟨e1, he1⟩, ⟨e2, he2⟩, g3, g4, g5⟩ :=
        ihn (detectStep depsOf fuel (Sum.inl k) st)
      exact ⟨⟨d1 ++ e1, by rw [he1, hd1, List.append_assoc]⟩,
        ⟨d2 ++ e2, by rw [he2, hd2, List.append_assoc]⟩,
        fun a ha => g3 a (h3 a ha), fun h => g4 (h4 h), fun h => g5 (h5 h)⟩

/-- The invariant run of the full sweep: with no cycle found and fuel
left, the invariant holds at the end, the stack is restored, and every
swept name is visited. -/
theorem detectSweep_run (depsOf : Str → Option (List Str)) (fuel : Nat) :
    ∀ (names : List Str) (st : DetectState),
      DetectInv depsOf st → st.seen = [] → st.found = [] →
      (detectSweep depsOf fuel names st).found = [] →
      (detectSweep depsOf fuel names st).fuelOut = false →
      DetectInv depsOf (detectSweep depsOf fuel names st) ∧
      (detectSweep depsOf fuel names st).stack = st.stack ∧
      (∀ k ∈ names, k ∈ (detectSweep depsOf fuel names st).visited) := by
  intro names
  induction names with
  | nil =>
    intro st hinv hseen hfd hf hfo
    exact ⟨hinv, rfl, fun k hk => absurd hk (List.not_mem_nil k)⟩
  | cons k rest ihn =>
    intro st hinv hseen hfd hf hfo
    rw [detectSweep_cons] at hf hfo ⊢
    by_cases hv : (st.visited.contains k) = true
    · rw [if_pos hv] at hf hfo ⊢
      obtain ⟨hinv2, hstk2, hmem2⟩ := ihn st hinv hseen hfd hf hfo
      refine ⟨hinv2, hstk2, ?_⟩
      intro j hj
      rcases List.mem_cons.mp hj with h | h
      · obtain ⟨-, -, hvis, -, -⟩ := detectSweep_basic depsOf fuel rest st
        exact hvis j (by rw [h]; exact contains_true_iff_mem.mp hv)
      · exact hmem2 j h
    · rw [if_neg hv] at hf hfo ⊢
      obtain ⟨⟨d1, hd1⟩, -, -, hlock1, -⟩ := detectStep_basic depsOf fuel (Sum.inl k) st
      obtain ⟨⟨d2, hd2⟩, -, hvisS, -, hstickyS⟩ :=
        detectSweep_basic depsOf fuel rest (detectStep depsOf fuel (Sum.inl k) st)
      have hst1found : (detectStep depsOf fuel (Sum.inl k) st).found = [] := by
        rw [hd2] at hf
        exact (List.append_eq_nil.mp hf).1
      have hst1fo : (detectStep depsOf fuel (Sum.inl k) st).fuelOut = false := by
        cases hb : (detectStep depsOf fuel (Sum.inl k) st).fuelOut
        · rfl
        · have h6 := hstickyS hb
          rw [hfo] at h6
          exact Bool.noConfusion h6
      obtain ⟨hinv1, hstk1, -, hfin1, -⟩ :=
        detect_run depsOf fuel (Sum.inl k) st hinv hseen hfd hst1found hst1fo
          (fun nm h => by
            injection h with h2
            rw [← h2]
            exact fun hm => hv (contains_true_iff_mem.mpr hm))
      have hseen1 : (detectStep depsOf fuel (Sum.inl k) st).seen = [] := by
        have h7 := hlock1 (by simp [hseen, hfd])
        rw [hst1found] at h7
        rw [← List.length_eq_zero, h7]
        rfl
      obtain ⟨hinv2, hstk2, hmem2⟩ :=
        ihn (detectStep depsOf fuel (Sum.inl k) st) hinv1 hseen1 hst1found hf hfo
      refine ⟨hinv2, by rw [hstk2, hstk1], ?_⟩
      intro j hj
      rcases List.mem_cons.mp hj with h | h
      · have hkfin := hfin1 k rfl
        have hkvis : k ∈ (detectStep depsOf fuel (Sum.inl k) st).visited :=
          hinv1.2.1 k hkfin
        exact hvisS j (by rw [h]; exact hkvis)
      · exact hmem2 j h

/-- When the detector reports no cycle, its ghost finished list is a
topological order containing every swept name. -/
theorem detectOn_none_props {depsOf : Str → Option (List Str)} {fuel : Nat}
    {names : List Str}
    (h : detectCircularDependenciesOn depsOf fuel names = none) :
    TopoList depsOf (detectSweep depsOf fuel names initDetectState).finished ∧
    ∀ k ∈ names, k ∈ (detectSweep depsOf fuel names initDetectState).finished := by
  simp only [detectCircularDependenciesOn] at h
  split at h
  · exact Option.noConfusion h
  · rename_i hfoT
    have hfo : (detectSweep depsOf fuel names initDetectState).fuelOut = false := by
      cases hb : (detectSweep depsOf fuel names initDetectState).fuelOut
      · rfl
      · exact absurd hb hfoT
    split at h
    · rename_i hempty
      have hfound : (detectSweep depsOf fuel names initDetectState).found = [] := by
        rcases hrs : (detectSweep depsOf fuel names initDetectState).found with _ | ⟨c, cs⟩
        · rfl
        · rw [hrs] at hempty
          exact Bool.noConfusion hempty
      have hinit : DetectInv depsOf initDetectState :=
        ⟨fun x hx => absurd hx (List.not_mem_nil x),
         fun x hx => absurd hx (List.not_mem_nil x),
         fun x hx => absurd hx (List.not_mem_nil x),
         fun x hx => absurd hx (List.not_mem_nil x),
         List.nodup_nil,
         fun u hu => absurd hu (List.not_mem_nil u)⟩
      obtain ⟨hinv2, hstk2, hmem2⟩ :=
        detectSweep_run depsOf fuel names initDetectState hinit rfl rfl hfound hfo
      obtain ⟨-, -, -, hpart, -, htopo⟩ := hinv2
      refine ⟨htopo, ?_⟩
      intro k hk
      rcases hpart k (hmem2 k hk) with h2 | h2
      · rw [hstk2] at h2
        exact absurd h2 (List.not_mem_nil k)
      · exact h2
    · exact Option.noConfusion h

/-- A dependency path has a first edge. -/
theorem DepPath_first_edge {depsOf : Str → Option (List Str)} {a b : Str}
    (h : DepPath depsOf a b) : ∃ w, edgeOf depsOf a w := by
  induction h with
  | step h2 => exact ⟨_, h2⟩
  | tail h2 h3 ih => exact ih

/-- A module map whose cycle detector reports no cycle is acyclic. -/
theorem detect_none_acyclic {modules : ModuleMap} {fuel : Nat}
    (h : detectCircularDependencies modules fuel = none) :
    AcyclicD (depsOfM modules) := by
  have h2 : detectCircularDependenciesOn (depsOfM modules) fuel (keysOf modules) = none := h
  obtain ⟨htopo, hmem⟩ := detectOn_none_props h2
  intro u hp
  obtain ⟨w, hw⟩ := DepPath_first_edge hp
  obtain ⟨deps, hd, -⟩ := hw
  have hu : u ∈ keysOf modules := by
    unfold depsOfM at hd
    rcases hn : lookupAssoc modules u with _ | n
    · rw [hn] at hd
      exact Option.noConfusion hd
    · exact List.mem_map.mpr ⟨(u, n), lookupAssoc_eq_some_mem hn, rfl⟩
  exact TopoList_acyclic_on htopo (hmem u hu) hp

-- -------------------------------------------------------------------
-- Topological-sort traversal lemmas for claim C1
-- -------------------------------------------------------------------

/-- Unfolding of the sort visit on a visited node. -/
theorem sortVisit_inl_visited {depsOf : Str → Option (List Str)} (fuel : Nat) {name : Str}
    {st : SortState} (h : st.visited.contains name = true) :
    sortVisit depsOf (fuel + 1) (Sum.inl name) st = st := by
  simp only [sortVisit]
  rw [if_pos h]

/-- Unfolding of the sort visit on a fresh node without dependencies. -/
theorem sortVisit_inl_none {depsOf : Str → Option (List Str)} (fuel : Nat) {name : Str}
    {st : SortState} (hv : st.visited.contains name = false) (h : depsOf name = none) :
    sortVisit depsOf (fuel + 1) (Sum.inl name) st =
      { st with
        visited := insertSet st.visited name
        sorted := st.sorted ++ [name] } := by
  simp only [sortVisit, h]
  rw [if_neg (show ¬(st.visited.contains name = true) from fun hc =>
    by rw [hv] at hc; exact Bool.noConfusion hc)]

/-- Unfolding of the sort visit on a fresh node with a dependency list. -/
theorem sortVisit_inl_some {depsOf : Str → Option (List Str)} (fuel : Nat) {name : Str}
    {st : SortState} {deps : List Str}
    (hv : st.visited.contains name = false) (h : depsOf name = some deps) :
    sortVisit depsOf (fuel + 1) (Sum.inl name) st =
      { sortVisit depsOf fuel (Sum.inr deps)
          { st with visited := insertSet st.visited name } with
        sorted := (sortVisit depsOf fuel (Sum.inr deps)
          { st with visited := insertSet st.visited name }).sorted ++ [name] } := by
  simp only [sortVisit, h]
  rw [if_neg (show ¬(st.visited.contains name = true) from fun hc =>
    by rw [hv] at hc; exact Bool.noConfusion hc)]

/-- Unfolding of the sort visit walking a dependency list. -/
theorem sortVisit_inr_cons (depsOf : Str → Option (List Str)) (fuel : Nat) (dep : Str)
    (rest : List Str) (st : SortState) :
    sortVisit depsOf (fuel + 1) (Sum.inr (dep :: rest)) st =
      sortVisit depsOf fuel (Sum.inr rest) (sortVisit depsOf fuel (Sum.inl dep) st) := rfl

/-- Base monotonicity of the sort visit. -/
theorem sortVisit_basic (depsOf : Str → Option (List Str)) :
    ∀ (fuel : Nat) (x : Str ⊕ List Str) (st : SortState),
      (∃ d, (sortVisit depsOf fuel x st).sorted = st.sorted ++ d) ∧
      (∀ a ∈ st.visited, a ∈ (sortVisit depsOf fuel x st).visited) ∧
      (st.fuelOut = true → (sortVisit depsOf fuel x st).fuelOut = true) := by
  intro fuel
  induction fuel with
  | zero =>
    intro x st
    exact ⟨⟨[], (List.append_nil _).symm⟩, fun a ha => ha, fun _ => rfl⟩
  | succ fuel ih =>
    intro x st
    rcases x with name | deps
    · by_cases hv : (st.visited.contains name) = true
      · rw [sortVisit_inl_visited fuel hv]
        exact ⟨⟨[], (List.append_nil _).symm⟩, fun a ha => ha, fun h => h⟩
      · have hvf : st.visited.contains name = false := by
          cases hb : st.visited.contains name
          · rfl
          · exact absurd hb hv
        rcases hdeps : depsOf name with _ | deps
        · rw [sortVisit_inl_none fuel hvf hdeps]
          exact ⟨⟨[name], rfl⟩, fun a ha => mem_insertSet_of_mem ha, fun h => h⟩
        · rw [sortVisit_inl_some fuel hvf hdeps]
          obtain ⟨⟨d1, hd1⟩, h2, h3⟩ := ih (Sum.inr deps)
            { st with visited := insertSet st.visited name }
          exact ⟨⟨d1 ++ [name], by rw [hd1, List.append_assoc]⟩,
            fun a ha => h2 a (mem_insertSet_of_mem ha), h3⟩
    · rcases deps with _ | ⟨dep, rest⟩
      · exact ⟨⟨[], (List.append_nil _).symm⟩, fun a ha => ha, fun h => h⟩
      · rw [sortVisit_inr_cons]
        obtain ⟨⟨d1, hd1⟩, h2, h3⟩ := ih (Sum.inl dep) st
        obtain ⟨⟨d2, hd2⟩, g2, g3⟩ := ih (Sum.inr rest) (sortVisit depsOf fuel (Sum.inl dep) st)
        exact ⟨⟨d1 ++ d2, by rw [hd2, hd1, List.append_assoc]⟩,
          fun a ha => g2 a (h2 a ha), fun h => g3 (h3 h)⟩

/-- The main run lemma of the topological sort over an acyclic dependency
view: the invariant is preserved, the sorted list only grows, an entered
node ends up sorted, and a walked dependency list ends up entirely
sorted. -/
theorem sort_run (depsOf : Str → Option (List Str)) (hacy : AcyclicD depsOf) :
    ∀ (fuel : Nat) (x : Str ⊕ List Str) (anc : List Str) (st : SortState),
      SortInv depsOf anc st →
      (sortVisit depsOf fuel x st).fuelOut = false →
      (∀ name, x = Sum.inl name → ∀ a ∈ anc, DepPath depsOf a name) →
      (∀ deps, x = Sum.inr deps → ∃ nm,
        (∀ a ∈ anc, a = nm ∨ DepPath depsOf a nm) ∧
        (∀ v ∈ deps, edgeOf depsOf nm v)) →
      SortInv depsOf anc (sortVisit depsOf fuel x st) ∧
      (∃ d, (sortVisit depsOf fuel x st).sorted = st.sorted ++ d) ∧
      (∀ name, x = Sum.inl name → name ∈ (sortVisit depsOf fuel x st).sorted) ∧
      (∀ deps, x = Sum.inr deps → ∀ v ∈ deps, v ∈ (sortVisit depsOf fuel x st).sorted) := by
  intro fuel
  induction fuel with
  | zero =>
    intro x st anc hinv hfo hpreL hpreR
    exact Bool.noConfusion hfo
  | succ fuel ih =>
    intro x anc st hinv hfo hpreL hpreR
    rcases x with name | deps
    · by_cases hv : (st.visited.contains name) = true
      · rw [sortVisit_inl_visited fuel hv] at hfo ⊢
        have hnamev : name ∈ st.visited := contains_true_iff_mem.mp hv
        obtain ⟨hnd, hiff, hdisj, htopo⟩ := hinv
        have hnames : name ∈ st.sorted := by
          rcases (hiff name).mp hnamev with h2 | h2
          · exact h2
          · exact absurd (hpreL name rfl name h2) (hacy name)
        exact ⟨⟨hnd, hiff, hdisj, htopo⟩, ⟨[], (List.append_nil _).symm⟩,
          fun nm h => by injection h with h2; rw [← h2]; exact hnames,
          fun ds h => Sum.noConfusion h⟩
      · have hvf : st.visited.contains name = false := by
          cases hb : st.visited.contains name
          · rfl
          · exact absurd hb hv
        have hnv : name ∉ st.visited := fun h => hv (contains_true_iff_mem.mpr h)
        obtain ⟨hnd, hiff, hdisj, htopo⟩ := hinv
        have hnots : name ∉ st.sorted := fun h => hnv ((hiff name).mpr (Or.inl h))
        have hnota : name ∉ anc := fun h => hacy name (hpreL name rfl name h)
        rcases hdeps : depsOf name with _ | deps
        · rw [sortVisit_inl_none fuel hvf hdeps] at hfo ⊢
          refine ⟨⟨?_, ?_, ?_, ?_⟩, ⟨[name], rfl⟩, ?_, fun ds h => Sum.noConfusion h⟩
          · show (st.sorted ++ [name]).Nodup
            rw [List.nodup_append]
            exact ⟨hnd, List.nodup_singleton _,
              fun a ha hb => hnots ((List.mem_singleton.mp hb) ▸ ha)⟩
          · intro x
            constructor
            · intro hx
              rcases mem_insertSet hx with h2 | h2
              · exact Or.inl (List.mem_append.mpr (Or.inr (List.mem_singleton.mpr h2)))
              · rcases (hiff x).mp h2 with h3 | h3
                · exact Or.inl (List.mem_append.mpr (Or.inl h3))
                · exact Or.inr h3
            · intro hx
              rcases hx with h2 | h2
              · rcases List.mem_append.mp h2 with h3 | h3
                · exact mem_insertSet_of_mem ((hiff x).mpr (Or.inl h3))
                · rw [List.mem_singleton.mp h3]
                  exact mem_insertSet_self _ _
              · exact mem_insertSet_of_mem ((hiff x).mpr (Or.inr h2))
          · intro x hx
            rcases List.mem_append.mp hx with h2 | h2
            · exact hdisj x h2
            · rw [List.mem_singleton.mp h2]
              exact hnota
          · show TopoList depsOf (st.sorted ++ [name])
            refine TopoList_append_last htopo hnots ?_
            intro v hv2
            obtain ⟨ds, hds, -⟩ := hv2
            rw [hdeps] at hds
            exact Option.noConfusion hds
          · intro nm h
            injection h with h2
            show nm ∈ st.sorted ++ [name]
            exact List.mem_append.mpr (Or.inr (List.mem_singleton.mpr h2.symm))
        · rw [sortVisit_inl_some fuel hvf hdeps] at hfo ⊢
          have hinvE : SortInv depsOf (name :: anc)
              { st with visited := insertSet st.visited name } := by
            refine ⟨hnd, ?_, ?_, htopo⟩
            · intro x
              constructor
              · intro hx
                rcases mem_insertSet hx with h2 | h2
                · exact Or.inr (List.mem_cons.mpr (Or.inl h2))
                · rcases (hiff x).mp h2 with h3 | h3
                  · exact Or.inl h3
                  · exact Or.inr (List.mem_cons.mpr (Or.inr h3))
              · intro hx
                rcases hx with h2 | h2
                · exact mem_insertSet_of_mem ((hiff x).mpr (Or.inl h2))
                · rcases List.mem_cons.mp h2 with h3 | h3
                  · rw [h3]
                    exact mem_insertSet_self _ _
                  · exact mem_insertSet_of_mem ((hiff x).mpr (Or.inr h3))
            · intro x hx
              intro hmem
              rcases List.mem_cons.mp hmem with h2 | h2
              · exact hnots (h2 ▸ hx)
              · exact hdisj x hx h2
          have hfoE : (sortVisit depsOf fuel (Sum.inr deps)
              { st with visited := insertSet st.visited name }).fuelOut = false := hfo
          obtain ⟨hinv2, ⟨d2, hd2⟩, -, hwalk⟩ :=
            ih (Sum.inr deps) (name :: anc) { st with visited := insertSet st.visited name }
              hinvE hfoE (fun nm h => Sum.noConfusion h)
              (fun ds h => by
                injection h with h2
                refine ⟨name, ?_, ?_⟩
                · intro a ha
                  rcases List.mem_cons.mp ha with h3 | h3
                  · exact Or.inl h3
                  · exact Or.inr (hpreL name rfl a h3)
                · intro v hv2
                  rw [← h2] at hv2
                  exact ⟨deps, hdeps, hv2⟩)
          have hwalk2 := hwalk deps rfl
          obtain ⟨h2nd, h2iff, h2disj, h2topo⟩ := hinv2
          have hnots2 : name ∉ (sortVisit depsOf fuel (Sum.inr deps)
              { st with visited := insertSet st.visited name }).sorted :=
            fun h => h2disj name h (List.mem_cons_self _ _)
          refine ⟨⟨?_, ?_, ?_, ?_⟩, ?_, ?_, fun ds h => Sum.noConfusion h⟩
          · show ((sortVisit depsOf fuel (Sum.inr deps)
              { st with visited := insertSet st.visited name }).sorted ++ [name]).Nodup
            rw [List.nodup_append]
            exact ⟨h2nd, List.nodup_singleton _,
              fun a ha hb => hnots2 ((List.mem_singleton.mp hb) ▸ ha)⟩
          · intro x
            constructor
            · intro hx
              rcases (h2iff x).mp hx with h3 | h3
              · exact Or.inl (List.mem_append.mpr (Or.inl h3))
              · rcases List.mem_cons.mp h3 with h4 | h4
                · exact Or.inl (List.mem_append.mpr
                    (Or.inr (List.mem_singleton.mpr h4)))
                · exact Or.inr h4
            · intro hx
              rcases hx with h2 | h2
              · rcases List.mem_append.mp h2 with h3 | h3
                · exact (h2iff x).mpr (Or.inl h3)
                · rw [List.mem_singleton.mp h3]
                  exact (h2iff name).mpr (Or.inr (List.mem_cons_self _ _))
              · exact (h2iff x).mpr (Or.inr (List.mem_cons.mpr (Or.inr h2)))
          · intro x hx
            rcases List.mem_append.mp hx with h2 | h2
            · exact fun hmem => h2disj x h2 (List.mem_cons.mpr (Or.inr hmem))
            · rw [List.mem_singleton.mp h2]
              exact hnota
          · show TopoList depsOf ((sortVisit depsOf fuel (Sum.inr deps)
              { st with visited := insertSet st.visited name }).sorted ++ [name])
            refine TopoList_append_last h2topo hnots2 ?_
            intro v hv2
            obtain ⟨ds, hds, hmem⟩ := hv2
            rw [hdeps] at hds
            injection hds with h3
            exact hwalk2 v (by rw [h3]; exact hmem)
          · exact ⟨d2 ++ [name], by
              show (sortVisit depsOf fuel (Sum.inr deps)
                { st with visited := insertSet st.visited name }).sorted ++ [name] =
                st.sorted ++ (d2 ++ [name])
              rw [hd2, List.append_assoc]⟩
          · intro nm h
            injection h with h2
            show nm ∈ (sortVisit depsOf fuel (Sum.inr deps)
              { st with visited := insertSet st.visited name }).sorted ++ [name]
            exact List.mem_append.mpr (Or.inr (List.mem_singleton.mpr h2.symm))
    · rcases deps with _ | ⟨dep, rest⟩
      · refine ⟨hinv, ⟨[], (List.append_nil _).symm⟩,
          fun nm h => Sum.noConfusion h, ?_⟩
        intro ds h
        injection h with h2
        subst h2
        intro v hv
        exact absurd hv (List.not_mem_nil v)
      · rw [sortVisit_inr_cons] at hfo ⊢
        obtain ⟨nm, hancnm, hedges⟩ := hpreR (dep :: rest) rfl
        obtain ⟨-, -, hsticky2⟩ := sortVisit_basic depsOf fuel (Sum.inr rest)
          (sortVisit depsOf fuel (Sum.inl dep) st)
        have hst1fo : (sortVisit depsOf fuel (Sum.inl dep) st).fuelOut = false := by
          cases hb : (sortVisit depsOf fuel (Sum.inl dep) st).fuelOut
          · rfl
          · have h6 := hsticky2 hb
            rw [hfo] at h6
            exact Bool.noConfusion h6
        obtain ⟨hinv1, ⟨d1, hd1⟩, hdep1, -⟩ :=
          ih (Sum.inl dep) anc st hinv hst1fo
            (fun nm2 h => by
              injection h with h2
              intro a ha
              rw [← h2]
              rcases hancnm a ha with h3 | h3
              · rw [h3]
                exact DepPath.step (hedges dep (List.mem_cons_self _ _))
              · exact DepPath.tail h3 (hedges dep (List.mem_cons_self _ _)))
            (fun ds h => Sum.noConfusion h)
        obtain ⟨hinv2, ⟨d2, hd2⟩, -, hwalk⟩ :=
          ih (Sum.inr rest) anc (sortVisit depsOf fuel (Sum.inl dep) st) hinv1 hfo
            (fun nm2 h => Sum.noConfusion h)
            (fun ds h => by
              injection h with h2
              refine ⟨nm, hancnm, ?_⟩
              intro v hv
              rw [← h2] at hv
              exact hedges v (List.mem_cons.mpr (Or.inr hv)))
        refine ⟨hinv2, ⟨d1 ++ d2, by rw [hd2, hd1, List.append_assoc]⟩,
          fun nm2 h => Sum.noConfusion h, ?_⟩
        intro ds h
        injection h with h2
        subst h2
        intro v hv
        rcases List.mem_cons.mp hv with h3 | h3
        · rw [h3, hd2]
          exact List.mem_append.mpr (Or.inl (hdep1 dep rfl))
        · exact hwalk rest rfl v h3

/-- The topological sort of an acyclic view that does not run out of fuel
produces a duplicate-free topological order that contains the entry and
ends with it. -/
theorem topologicalSortOn_props {depsOf : Str → Option (List Str)} {fuel : Nat} {entry : Str}
    (hacy : AcyclicD depsOf)
    (hfo : (topologicalSortOn depsOf fuel entry).fuelOut = false) :
    (topologicalSortOn depsOf fuel entry).sorted.Nodup ∧
    TopoList depsOf (topologicalSortOn depsOf fuel entry).sorted ∧
    entry ∈ (topologicalSortOn depsOf fuel entry).sorted ∧
    (∃ mid, (topologicalSortOn depsOf fuel entry).sorted = mid ++ [entry]) := by
  have hinit : SortInv depsOf [] (⟨[], [], false⟩ : SortState) := by
    refine ⟨List.nodup_nil, ?_, ?_, ?_⟩
    · intro x
      constructor
      · intro hx
        exact absurd hx (List.not_mem_nil x)
      · intro hx
        rcases hx with h | h
        · exact absurd h (List.not_mem_nil x)
        · exact absurd h (List.not_mem_nil x)
    · intro x hx
      exact absurd hx (List.not_mem_nil x)
    · intro u hu
      exact absurd hu (List.not_mem_nil u)
  obtain ⟨hinv2, -, hentry, -⟩ :=
    sort_run depsOf hacy fuel (Sum.inl entry) [] ⟨[], [], false⟩ hinit hfo
      (fun nm h a ha => absurd ha (List.not_mem_nil a))
      (fun ds h => Sum.noConfusion h)
  obtain ⟨hnd2, -, -, htopo2⟩ := hinv2
  refine ⟨hnd2, htopo2, hentry entry rfl, ?_⟩
  rcases fuel with _ | fuel2
  · exact Bool.noConfusion hfo
  · have hvf : ((⟨[], [], false⟩ : SortState).visited.contains entry) = false := rfl
    rcases hdeps : depsOf entry with _ | deps
    · show ∃ mid,
        (sortVisit depsOf (fuel2 + 1) (Sum.inl entry) ⟨[], [], false⟩).sorted = mid ++ [entry]
      rw [sortVisit_inl_none fuel2 hvf hdeps]
      exact ⟨[], rfl⟩
    · show ∃ mid,
        (sortVisit depsOf (fuel2 + 1) (Sum.inl entry) ⟨[], [], false⟩).sorted = mid ++ [entry]
      rw [sortVisit_inl_some fuel2 hvf hdeps]
      exact ⟨_, rfl⟩

/-- Claim C1: for every DependencyGraph the builder returns, the entry
moduleId is a key of modules; every moduleId referenced by any node's
dependency list is a key of modules; for every dependency edge from u to
v, v precedes u in the module order; the entry is the last element of the
order; and no moduleId appears twice in the order. -/
theorem C1_graph_invariants (resolve : Str → ResolveResult) (fs : Str → Option Str)
    (fuel : Nat) (entryPath sourceRoot : Str) (g : DependencyGraph)
    (h : buildDependencyGraph resolve fs fuel entryPath sourceRoot = Except.ok g) :
    hasKey g.modules g.entryPoint.moduleName = true ∧
    (∀ p ∈ g.modules, ∀ v ∈ p.2.dependencies, hasKey g.modules v = true) ∧
    (∀ u v nu, lookupAssoc g.modules u = some nu → v ∈ nu.dependencies →
      precedesIn g.moduleOrder v u) ∧
    (∃ mid, g.moduleOrder = mid ++ [g.entryPoint.moduleName]) ∧
    g.moduleOrder.Nodup := by
  simp only [buildDependencyGraph] at h
  split at h
  · exact Except.noConfusion h
  · rename_i entrySource hfs
    split at h
    · exact Except.noConfusion h
    · rename_i modules1 hproc
      split at h
      · exact Except.noConfusion h
      · rename_i hdet
        split at h
        · exact Except.noConfusion h
        · rename_i hfoS
          injection h with hg
          subst hg
          have hwf0 : WFB (getModuleNameFromPathB entryPath sourceRoot)
              [(getModuleNameFromPathB entryPath sourceRoot,
                (⟨getModuleNameFromPathB entryPath sourceRoot, entryPath, entrySource,
                  parseRequireStatements entrySource, []⟩ : ModuleNode))] := by
            refine ⟨List.nodup_singleton _, ?_, ?_, ?_⟩
            · intro p hp
              rw [List.mem_singleton.mp hp]
            · intro p hp v hv
              rw [List.mem_singleton.mp hp] at hv
              exact absurd hv (List.not_mem_nil v)
            · intro p hp
              rw [List.mem_singleton.mp hp]
              exact Or.inl rfl
          have hk0 : hasKey
              [(getModuleNameFromPathB entryPath sourceRoot,
                (⟨getModuleNameFromPathB entryPath sourceRoot, entryPath, entrySource,
                  parseRequireStatements entrySource, []⟩ : ModuleNode))]
              (getModuleNameFromPathB entryPath sourceRoot) = true :=
            (hasKey_iff_mem_keys _ _).mpr (List.mem_singleton.mpr rfl)
          obtain ⟨hwf1, hml1⟩ := processReqsB_wf resolve fs
            (getModuleNameFromPathB entryPath sourceRoot) fuel
            (getModuleNameFromPathB entryPath sourceRoot) entryPath _ _ modules1
            hwf0 hk0 (Or.inl rfl) hproc
          obtain ⟨hndK, hnmK, hclK, hreK⟩ := hwf1
          have hacy : AcyclicD (depsOfM modules1) := detect_none_acyclic hdet
          have hfoS2 : (topologicalSort modules1 fuel
              (getModuleNameFromPathB entryPath sourceRoot)).fuelOut = false := by
            cases hb : (topologicalSort modules1 fuel
              (getModuleNameFromPathB entryPath sourceRoot)).fuelOut
            · rfl
            · exact absurd hb hfoS
          obtain ⟨hndS, htopoS, hentryS, hmidS⟩ :=
            @topologicalSortOn_props (depsOfM modules1) fuel
              (getModuleNameFromPathB entryPath sourceRoot) hacy hfoS2
          have hkeysort : ∀ k n, lookupAssoc modules1 k = some n →
              k ∈ (topologicalSort modules1 fuel
                (getModuleNameFromPathB entryPath sourceRoot)).sorted := by
            intro k n hkn
            have hmem : (k, n) ∈ modules1 := lookupAssoc_eq_some_mem hkn
            rcases hreK (k, n) hmem with h1 | h1
            · have h2 : k = getModuleNameFromPathB entryPath sourceRoot := h1
              rw [h2]
              exact hentryS
            · exact (TopoList_path htopoS h1 hentryS).1
          have hkent : hasKey modules1 (getModuleNameFromPathB entryPath sourceRoot) = true :=
            MapLe_hasKey hml1 hk0
          obtain ⟨ne, hne⟩ := hasKey_lookup hkent
          have hnme : ne.moduleName = getModuleNameFromPathB entryPath sourceRoot :=
            hnmK (getModuleNameFromPathB entryPath sourceRoot, ne)
              (lookupAssoc_eq_some_mem hne)
          refine ⟨?_, ?_, ?_, ?_, hndS⟩
          · show hasKey modules1
              ((lookupAssoc modules1 (getModuleNameFromPathB entryPath sourceRoot)).getD
                ⟨getModuleNameFromPathB entryPath sourceRoot, entryPath, entrySource,
                  parseRequireStatements entrySource, []⟩).moduleName = true
            rw [hne]
            show hasKey modules1 ne.moduleName = true
            rw [hnme]
            exact hkent
          · intro p hp v hv
            exact hclK p hp v hv
          · intro u v nu hlu hvd
            have hu := hkeysort u nu hlu
            have hedge : edgeOf (depsOfM modules1) u v := by
              refine ⟨nu.dependencies, ?_, hvd⟩
              unfold depsOfM
              rw [hlu]
              rfl
            obtain ⟨hvs, hlt⟩ := htopoS u hu v hedge
            exact precedesIn_of_idx hvs hu hlt
          · obtain ⟨mid, hmid⟩ := hmidS
            refine ⟨mid, ?_⟩
            show (topologicalSort modules1 fuel
                (getModuleNameFromPathB entryPath sourceRoot)).sorted = mid ++
              [((lookupAssoc modules1 (getModuleNameFromPathB entryPath sourceRoot)).getD
                ⟨getModuleNameFromPathB entryPath sourceRoot, entryPath, entrySource,
                  parseRequireStatements entrySource, []⟩).moduleName]
            rw [hne]
            show (topologicalSort modules1 fuel
                (getModuleNameFromPathB entryPath sourceRoot)).sorted = mid ++ [ne.moduleName]
            rw [hnme]
            exact hmid

/-- Witness for claim C1 at the concrete two-module build. -/
theorem C1_witness :
    hasKey exBuildGraph.modules exBuildGraph.entryPoint.moduleName = true ∧
    (∀ p ∈ exBuildGraph.modules, ∀ v ∈ p.2.dependencies,
      hasKey exBuildGraph.modules v = true) ∧
    (∀ u v nu, lookupAssoc exBuildGraph.modules u = some nu → v ∈ nu.dependencies →
      precedesIn exBuildGraph.moduleOrder v u) ∧
    (∃ mid, exBuildGraph.moduleOrder = mid ++ [exBuildGraph.entryPoint.moduleName]) ∧
    exBuildGraph.moduleOrder.Nodup :=
  C1_graph_invariants exBuildResolve exBuildFs 20 ("src/main.lua".toList) ("src".toList)
    exBuildGraph (by rfl)
